import Mathlib

/-!
Verification of the parsedmarc OpenSearch ingestion and classification
pipeline (`import_to_opensearch.py`, `classify_dmarc_failures.py`).

Python strings are modelled as `List Char`.  JSON values are modelled by
the inductive `Json`; numbers are restricted to integers (the reports and
all properties below involve no floating point).  `json.loads` is modelled
by a fuel-based recursive-descent function that mirrors the strict mode of
Python's `json` module on this fragment (whitespace skipping, full
consumption, no trailing commas, no leading zeros, escape sequences).
Clock reads (`datetime.now()`) are modelled by passing the current instant
explicitly, so "pure given the clock" statements become ordinary equations.
-/

namespace Dmarc

abbrev Chars := List Char

/-- Shorthand turning a Lean string literal into the character-list model. -/
def cs (s : String) : Chars := s.toList

/-- Opening curly brace character (written via its code point). -/
def obr : Char := Char.ofNat 123

/-- Closing curly brace character (written via its code point). -/
def cbr : Char := Char.ofNat 125

/-- JSON values, with numbers restricted to integers. -/
inductive Json where
  | null : Json
  | bool (b : Bool) : Json
  | num (n : Int) : Json
  | str (s : Chars) : Json
  | arr (elems : List Json) : Json
  | obj (fields : List (Chars × Json)) : Json

namespace Json

mutual

def beq : Json → Json → Bool
  | null, null => true
  | bool x, bool y => x == y
  | num x, num y => x == y
  | str x, str y => x == y
  | arr x, arr y => beqL x y
  | obj x, obj y => beqF x y
  | _, _ => false

def beqL : List Json → List Json → Bool
  | [], [] => true
  | a :: as, b :: bs => beq a b && beqL as bs
  | _, _ => false

def beqF : List (Chars × Json) → List (Chars × Json) → Bool
  | [], [] => true
  | (k, v) :: as, (k2, v2) :: bs => k == k2 && beq v v2 && beqF as bs
  | _, _ => false

end

mutual

theorem beq_iff : ∀ a b : Json, beq a b = true ↔ a = b
  | null, null => by simp [beq]
  | bool x, bool y => by simp [beq]
  | num x, num y => by simp [beq]
  | str x, str y => by simp [beq]
  | arr x, arr y => by simp [beq, beqL_iff x y]
  | obj x, obj y => by simp [beq, beqF_iff x y]
  | bool _, null | num _, null | str _, null | arr _, null | obj _, null
  | null, bool _ | num _, bool _ | str _, bool _ | arr _, bool _ | obj _, bool _
  | null, num _ | bool _, num _ | str _, num _ | arr _, num _ | obj _, num _
  | null, str _ | bool _, str _ | num _, str _ | arr _, str _ | obj _, str _
  | null, arr _ | bool _, arr _ | num _, arr _ | str _, arr _ | obj _, arr _
  | null, obj _ | bool _, obj _ | num _, obj _ | str _, obj _ | arr _, obj _ => by
    simp [beq]

theorem beqL_iff : ∀ a b : List Json, beqL a b = true ↔ a = b
  | [], [] => by simp [beqL]
  | a :: as, b :: bs => by simp [beqL, beq_iff a b, beqL_iff as bs]
  | [], _ :: _ => by simp [beqL]
  | _ :: _, [] => by simp [beqL]

theorem beqF_iff : ∀ a b : List (Chars × Json), beqF a b = true ↔ a = b
  | [], [] => by simp [beqF]
  | (k, v) :: as, (k2, v2) :: bs => by
    simp [beqF, beq_iff v v2, beqF_iff as bs, Prod.ext_iff, and_assoc]
  | [], _ :: _ => by simp [beqF]
  | _ :: _, [] => by simp [beqF]

end

instance : DecidableEq Json := fun a b => decidable_of_iff _ (beq_iff a b)

end Json

/-! ## Serialisation (compact canonical form)

A compact serialiser for `Json`, used to state the loader claims about
"two valid JSON arrays" in canonical textual form.  It emits no whitespace
anywhere; inside strings, quotes and backslashes are escaped and control
characters are written as a four-hex-digit escape. -/

/-- Decimal digit character for a value below ten. -/
def digitChar (d : Nat) : Char := Char.ofNat (48 + d)

/-- Lower-case hexadecimal digit character for a value below sixteen. -/
def hexChar (d : Nat) : Char := if d < 10 then Char.ofNat (48 + d) else Char.ofNat (87 + d)

/-- Decimal digits of a natural number accumulated in front of `acc`
(fuel-based so that it reduces in the kernel). -/
def natCharsGo : Nat → Nat → Chars → Chars
  | 0, _, acc => acc
  | f + 1, n, acc =>
    if n < 10 then digitChar n :: acc
    else natCharsGo f (n / 10) (digitChar (n % 10) :: acc)

/-- Decimal digits of a natural number, most significant first. -/
def natChars (n : Nat) : Chars := natCharsGo (n + 1) n []

/-- Decimal rendering of an integer. -/
def intChars (n : Int) : Chars :=
  if n < 0 then '-' :: natChars n.natAbs else natChars n.toNat

/-- Escape one string character the way the serialiser writes it. -/
def escChar (c : Char) : Chars :=
  if c = '"' then ['\\', '"']
  else if c = '\\' then ['\\', '\\']
  else if c.toNat < 32 then ['\\', 'u', '0', '0', hexChar (c.toNat / 16), hexChar (c.toNat % 16)]
  else [c]

/-- Escaped body of a serialised string (no surrounding quotes). -/
def escStr (s : Chars) : Chars := s.flatMap escChar

mutual

def ser : Json → Chars
  | .null => ['n', 'u'] ++ ['l', 'l']
  | .bool true => ['t', 'r'] ++ ['u', 'e']
  | .bool false => ['f', 'a'] ++ ['l', 's', 'e']
  | .num n => intChars n
  | .str s => '"' :: escStr s ++ ['"']
  | .arr xs => '[' :: serElems xs ++ [']']
  | .obj kvs => obr :: serFields kvs ++ [cbr]

def serElems : List Json → Chars
  | [] => []
  | [x] => ser x
  | x :: y :: xs => ser x ++ ',' :: serElems (y :: xs)

def serFields : List (Chars × Json) → Chars
  | [] => []
  | [(k, v)] => '"' :: escStr k ++ '"' :: ':' :: ser v
  | (k, v) :: p :: kvs => ('"' :: escStr k ++ '"' :: ':' :: ser v) ++ ',' :: serFields (p :: kvs)

end

/-! ## The model of `json.loads` -/

/-- JSON whitespace characters (RFC 8259, as accepted by `json.loads`). -/
def isJWs (c : Char) : Bool := c = ' ' || c = '\t' || c = '\n' || c = '\r'

/-- Drop leading JSON whitespace. -/
def skipWs : Chars → Chars
  | [] => []
  | c :: t => if isJWs c then skipWs t else c :: t

def isDigitC (c : Char) : Bool := '0' ≤ c && c ≤ '9'

/-- Numeric value of a hexadecimal digit character, if it is one. -/
def hexVal : Char → Option Nat :=
  fun c =>
    if '0' ≤ c ∧ c ≤ '9' then some (c.toNat - 48)
    else if 'a' ≤ c ∧ c ≤ 'f' then some (c.toNat - 87)
    else if 'A' ≤ c ∧ c ≤ 'F' then some (c.toNat - 55)
    else none

/-- Fold a digit run into its numeric value. -/
def digitsVal (l : Chars) : Nat := l.foldl (fun a c => a * 10 + (c.toNat - 48)) 0

/-- Parse the body of a JSON string after the opening quote, returning the
decoded characters and the remainder after the closing quote.  Strict mode:
raw control characters are refused; `\uXXXX` escapes are accepted for
non-surrogate code points (a model restriction; Python tolerates lone
surrogates, which `Char` cannot represent). -/
def parseStrBody : Chars → Option (Chars × Chars)
  | [] => none
  | c :: t =>
    if c = '"' then some ([], t)
    else if c = '\\' then
      match t with
      | [] => none
      | e :: u =>
        if e = '"' then (parseStrBody u).map (fun p => ('"' :: p.1, p.2))
        else if e = '\\' then (parseStrBody u).map (fun p => ('\\' :: p.1, p.2))
        else if e = '/' then (parseStrBody u).map (fun p => ('/' :: p.1, p.2))
        else if e = 'b' then (parseStrBody u).map (fun p => ('\x08' :: p.1, p.2))
        else if e = 'f' then (parseStrBody u).map (fun p => ('\x0c' :: p.1, p.2))
        else if e = 'n' then (parseStrBody u).map (fun p => ('\n' :: p.1, p.2))
        else if e = 'r' then (parseStrBody u).map (fun p => ('\r' :: p.1, p.2))
        else if e = 't' then (parseStrBody u).map (fun p => ('\t' :: p.1, p.2))
        else if e = 'u' then
          match u with
          | a :: b :: c2 :: d :: u2 =>
            match hexVal a, hexVal b, hexVal c2, hexVal d with
            | some ha, some hb, some hc, some hd =>
              if ((ha * 16 + hb) * 16 + hc) * 16 + hd < 55296 ∨
                  57344 ≤ ((ha * 16 + hb) * 16 + hc) * 16 + hd then
                (parseStrBody u2).map
                  (fun p => (Char.ofNat (((ha * 16 + hb) * 16 + hc) * 16 + hd) :: p.1, p.2))
              else none
            | _, _, _, _ => none
          | _ => none
        else none
    else if c.toNat < 32 then none
    else (parseStrBody t).map (fun p => (c :: p.1, p.2))

/-- Parse an unsigned decimal integer (strict: nonempty, no leading zero
unless the number is exactly `0`). -/
def parseNat : Chars → Option (Nat × Chars) :=
  fun s =>
    let ds := s.takeWhile isDigitC
    let rest := s.dropWhile isDigitC
    match ds with
    | [] => none
    | [c] => some (c.toNat - 48, rest)
    | c :: _ :: _ => if c = '0' then none else some (digitsVal ds, rest)

/-- Python dict insertion: an existing key keeps its position and takes the
new value; a new key is appended. -/
def dictSet (kvs : List (Chars × Json)) (k : Chars) (v : Json) : List (Chars × Json) :=
  match kvs with
  | [] => [(k, v)]
  | (k2, v2) :: rest => if k2 = k then (k2, v) :: rest else (k2, v2) :: dictSet rest k v

/-- Rebuild a parsed member list with Python `dict` semantics (duplicate
keys collapse onto the first occurrence, last value wins). -/
def dictOf (kvs : List (Chars × Json)) : List (Chars × Json) :=
  kvs.foldl (fun acc p => dictSet acc p.1 p.2) []

/-- One or more array items separated by commas, up to the closing bracket;
`pv` parses one value (whitespace already skipped before each call). -/
def parseItems1 (pv : Chars → Option (Json × Chars)) : Nat → Chars → Option (List Json × Chars)
  | 0, _ => none
  | g + 1, s =>
    match pv s with
    | none => none
    | some (v, r) =>
      match skipWs r with
      | ',' :: r2 =>
        match parseItems1 pv g (skipWs r2) with
        | some (vs, r3) => some (v :: vs, r3)
        | none => none
      | ']' :: r2 => some ([v], r2)
      | _ => none

/-- One or more object members separated by commas, up to the closing brace. -/
def parseMembers1 (pv : Chars → Option (Json × Chars)) :
    Nat → Chars → Option (List (Chars × Json) × Chars)
  | 0, _ => none
  | g + 1, s =>
    match s with
    | '"' :: t =>
      match parseStrBody t with
      | none => none
      | some (k, r1) =>
        match skipWs r1 with
        | ':' :: r2 =>
          match pv (skipWs r2) with
          | none => none
          | some (v, r3) =>
            match skipWs r3 with
            | ',' :: r4 =>
              match parseMembers1 pv g (skipWs r4) with
              | some (kvs, r5) => some ((k, v) :: kvs, r5)
              | none => none
            | c :: r4 => if c = cbr then some ([(k, v)], r4) else none
            | [] => none
        | _ => none
    | _ => none

/-- Expect the literal characters `pat` at the front of the input. -/
def lit : Chars → Chars → Option Chars
  | [], s => some s
  | _ :: _, [] => none
  | p :: ps, c :: t => if c = p then lit ps t else none

/-- Parse one JSON value (leading whitespace must already be skipped).
Fuel-based so that every call reduces in the kernel. -/
def parseVal : Nat → Chars → Option (Json × Chars)
  | 0, _ => none
  | f + 1, s =>
    match s with
    | [] => none
    | c :: r =>
      if c = 'n' then (lit ['u', 'l', 'l'] r).map (fun t => (.null, t))
      else if c = 't' then (lit ['r', 'u', 'e'] r).map (fun t => (.bool true, t))
      else if c = 'f' then (lit ['a', 'l', 's', 'e'] r).map (fun t => (.bool false, t))
      else if c = '"' then (parseStrBody r).map (fun p => (.str p.1, p.2))
      else if c = '-' then (parseNat r).map (fun p => (.num (-(p.1 : Int)), p.2))
      else if isDigitC c then (parseNat (c :: r)).map (fun p => (.num (p.1 : Int), p.2))
      else if c = '[' then
        match skipWs r with
        | [] => none
        | c2 :: r2 =>
          if c2 = ']' then some (.arr [], r2)
          else (parseItems1 (parseVal f) f (c2 :: r2)).map (fun p => (.arr p.1, p.2))
      else if c = obr then
        match skipWs r with
        | [] => none
        | c2 :: r2 =>
          if c2 = cbr then some (.obj [], r2)
          else (parseMembers1 (parseVal f) f (c2 :: r2)).map (fun p => (.obj (dictOf p.1), p.2))
      else none

/-- Model of `json.loads`: skip whitespace, parse one value, require that
only whitespace remains.  Model restriction: numbers are integers
(no floats, `NaN` or `Infinity`). -/
def loads (s : Chars) : Option Json :=
  match parseVal (s.length + 1) (skipWs s) with
  | some (v, r) => if skipWs r = [] then some v else none
  | none => none

/-! ## Character and digit lemmas -/

theorem toNat_ofNat_valid (n : Nat) (h : Nat.isValidChar n) : (Char.ofNat n).toNat = n := by
  unfold Char.ofNat
  rw [dif_pos h]
  rfl

theorem digitChar_toNat (d : Nat) (h : d < 10) : (digitChar d).toNat = 48 + d := by
  have hv : Nat.isValidChar (48 + d) := by left; omega
  exact toNat_ofNat_valid _ hv

theorem char_eq_iff_toNat (a b : Char) : a = b ↔ a.toNat = b.toNat := by
  constructor
  · intro h; rw [h]
  · intro h
    exact Char.eq_of_val_eq (UInt32.ext h)

theorem isDigitC_iff (c : Char) : isDigitC c = true ↔ 48 ≤ c.toNat ∧ c.toNat ≤ 57 := by
  simp only [isDigitC, Bool.and_eq_true, decide_eq_true_eq]
  constructor
  · rintro ⟨h1, h2⟩
    exact ⟨h1, h2⟩
  · rintro ⟨h1, h2⟩
    exact ⟨h1, h2⟩

theorem isDigitC_digitChar (d : Nat) (h : d < 10) : isDigitC (digitChar d) = true := by
  rw [isDigitC_iff, digitChar_toNat d h]
  omega

theorem digitChar_sub (d : Nat) (h : d < 10) : (digitChar d).toNat - 48 = d := by
  rw [digitChar_toNat d h]
  omega

theorem digitChar_eq_zero_iff (d : Nat) (h : d < 10) : digitChar d = '0' ↔ d = 0 := by
  rw [char_eq_iff_toNat, digitChar_toNat d h]
  have h0 : ('0').toNat = 48 := rfl
  rw [h0]
  omega

/-- The specification of the fuel-based decimal renderer, by strong
induction on the value being rendered. -/
theorem natCharsGo_spec : ∀ (n : Nat) (f : Nat) (acc : Chars), n < f →
    ∃ ds : Chars, natCharsGo f n acc = ds ++ acc ∧
      (n < 10 → ds = [digitChar n]) ∧
      (10 ≤ n → ∃ c cs2, ds = c :: cs2 ∧ cs2 ≠ [] ∧ c ≠ '0') ∧
      (∀ c ∈ ds, isDigitC c = true) ∧
      (∀ a : Nat, List.foldl (fun a c => a * 10 + (c.toNat - 48)) a ds =
        a * 10 ^ ds.length + n) := by
  intro n
  induction n using Nat.strong_induction_on with
  | _ n IH =>
    intro f acc hf
    match f, hf with
    | f + 1, _ =>
      by_cases h10 : n < 10
      · refine ⟨[digitChar n], ?_, fun _ => rfl, fun h => absurd h (by omega), ?_, ?_⟩
        · simp [natCharsGo, h10]
        · intro c hc
          simp only [List.mem_singleton] at hc
          subst hc
          exact isDigitC_digitChar n h10
        · intro a
          simp [List.foldl, digitChar_sub n h10]
      · have hlt : n / 10 < n := Nat.div_lt_self (by omega) (by omega)
        have hfl : n / 10 < f := by omega
        obtain ⟨ds', heq, hsmall, hbig, hdig, hfold⟩ :=
          IH (n / 10) hlt f (digitChar (n % 10) :: acc) hfl
        have hstep : natCharsGo (f + 1) n acc = natCharsGo f (n / 10) (digitChar (n % 10) :: acc) := by
          simp [natCharsGo, h10]
        refine ⟨ds' ++ [digitChar (n % 10)], ?_, ?_, ?_, ?_, ?_⟩
        · rw [hstep, heq]
          simp
        · intro h
          omega
        · intro _
          by_cases hs : n / 10 < 10
          · refine ⟨digitChar (n / 10), [digitChar (n % 10)], ?_, by simp, ?_⟩
            · rw [hsmall hs]
              rfl
            · rw [Ne, digitChar_eq_zero_iff _ hs]
              omega
          · obtain ⟨c, cs2, hcons, _, hc0⟩ := hbig (by omega)
            exact ⟨c, cs2 ++ [digitChar (n % 10)], by rw [hcons]; simp, by simp, hc0⟩
        · intro c hc
          rcases List.mem_append.mp hc with h | h
          · exact hdig c h
          · simp only [List.mem_singleton] at h
            subst h
            exact isDigitC_digitChar _ (Nat.mod_lt _ (by omega))
        · intro a
          rw [List.foldl_append, hfold a]
          simp only [List.foldl, List.length_append, List.length_singleton]
          rw [digitChar_sub _ (Nat.mod_lt _ (by omega))]
          rw [pow_succ]
          have hrw : (a * 10 ^ ds'.length + n / 10) * 10 + n % 10 =
              a * (10 ^ ds'.length * 10) + ((n / 10) * 10 + n % 10) := by ring
          rw [hrw]
          have := Nat.div_add_mod n 10
          omega

theorem takeWhile_append_all {p : Char → Bool} : ∀ (l r : Chars),
    (∀ c ∈ l, p c = true) → (∀ c, r.head? = some c → p c = false) →
    (l ++ r).takeWhile p = l ∧ (l ++ r).dropWhile p = r := by
  intro l r hl hr
  induction l with
  | nil =>
    simp only [List.nil_append]
    cases r with
    | nil => simp
    | cons c t =>
      have := hr c rfl
      simp [List.takeWhile_cons, List.dropWhile_cons, this]
  | cons c l ih =>
    have hc : p c = true := hl c (by simp)
    have := ih (fun x hx => hl x (by simp [hx]))
    simp [List.takeWhile_cons, List.dropWhile_cons, hc, this.1, this.2]

/-- A remainder whose first character is not a decimal digit (so a number
parse cannot run into it). -/
def NonDigitHead (r : Chars) : Prop := ∀ c, r.head? = some c → isDigitC c = false

theorem parseNat_natChars (n : Nat) (rest : Chars) (hr : NonDigitHead rest) :
    parseNat (natChars n ++ rest) = some (n, rest) := by
  obtain ⟨ds, heq, hsmall, hbig, hdig, hfold⟩ := natCharsGo_spec n (n + 1) [] (by omega)
  rw [List.append_nil] at heq
  have hds : natChars n = ds := heq
  have htake := takeWhile_append_all ds rest hdig hr
  rw [natChars] at hds ⊢
  rw [hds]
  rw [parseNat]
  simp only [htake.1, htake.2]
  by_cases h10 : n < 10
  · rw [hsmall h10]
    simp [digitChar_sub n h10]
  · obtain ⟨c, cs2, hcons, hne, hc0⟩ := hbig (by omega)
    rw [hcons]
    obtain ⟨c2, cs3, hcons2⟩ := List.exists_cons_of_ne_nil hne
    subst hcons2
    simp only [if_neg hc0]
    have : digitsVal ds = n := by
      rw [digitsVal, hfold 0]
      simp
    rw [← hcons, this]

/-! ## String escape round-trip -/

theorem hexVal_hexChar (d : Nat) (h : d < 16) : hexVal (hexChar d) = some d := by
  have key : ∀ x : Fin 16, hexVal (hexChar x.val) = some x.val := by decide
  exact key ⟨d, h⟩

theorem parseStrBody_escStr : ∀ (s rest : Chars),
    parseStrBody (escStr s ++ '"' :: rest) = some (s, rest) := by
  intro s
  induction s with
  | nil =>
    intro rest
    have h0 : escStr [] ++ '"' :: rest = '"' :: rest := by simp [escStr]
    rw [h0, parseStrBody.eq_def]
    simp [Char.reduceEq]
  | cons c s ih =>
    intro rest
    have hflat : escStr (c :: s) = escChar c ++ escStr s := by
      simp [escStr]
    rw [hflat, List.append_assoc]
    by_cases hq : c = '"'
    · subst hq
      have hce : escChar '"' = ['\\', '"'] := by simp [escChar, Char.reduceEq]
      rw [hce]
      simp only [List.cons_append, List.nil_append]
      rw [parseStrBody.eq_def]
      simp [Char.reduceEq, ih rest]
    · by_cases hb : c = '\\'
      · subst hb
        have hce : escChar '\\' = ['\\', '\\'] := by simp [escChar, Char.reduceEq]
        rw [hce]
        simp only [List.cons_append, List.nil_append]
        rw [parseStrBody.eq_def]
        simp [Char.reduceEq, ih rest]
      · by_cases h32 : c.toNat < 32
        · have hm : ((0 * 16 + 0) * 16 + c.toNat / 16) * 16 + c.toNat % 16 = c.toNat := by
            have := Nat.div_add_mod c.toNat 16
            omega
          have hdiv : c.toNat / 16 < 16 := by omega
          have hmod : c.toNat % 16 < 16 := Nat.mod_lt _ (by omega)
          have hce : escChar c =
              ['\\', 'u', '0', '0', hexChar (c.toNat / 16), hexChar (c.toNat % 16)] := by
            simp [escChar, hq, hb, h32]
          rw [hce]
          simp only [List.cons_append, List.nil_append]
          rw [parseStrBody.eq_def]
          simp only [Char.reduceEq, if_true, if_false, reduceIte]
          rw [hexVal_hexChar _ hdiv, hexVal_hexChar _ hmod]
          have h0 : hexVal '0' = some 0 := rfl
          rw [h0]
          simp only [hm]
          rw [if_pos (Or.inl (by omega : c.toNat < 55296))]
          rw [Char.ofNat_toNat, ih rest]
          rfl
        · have hesc : escChar c = [c] := by
            simp [escChar, hq, hb, h32]
          rw [hesc]
          simp only [List.cons_append, List.nil_append]
          rw [parseStrBody.eq_def]
          simp only [if_neg hq, if_neg hb, if_neg h32, ih rest]
          rfl

/-! ## Sizes, canonical keys, and the serialiser round-trip -/

mutual

def sizeJ : Json → Nat
  | .null => 1
  | .bool _ => 1
  | .num _ => 1
  | .str _ => 1
  | .arr xs => sizeL xs + 1
  | .obj kvs => sizeF kvs + 1

def sizeL : List Json → Nat
  | [] => 0
  | x :: xs => sizeJ x + sizeL xs

def sizeF : List (Chars × Json) → Nat
  | [] => 0
  | (_, v) :: kvs => sizeJ v + sizeF kvs

end

theorem sizeJ_pos : ∀ j : Json, 1 ≤ sizeJ j
  | .null => by simp [sizeJ]
  | .bool _ => by simp [sizeJ]
  | .num _ => by simp [sizeJ]
  | .str _ => by simp [sizeJ]
  | .arr _ => by simp [sizeJ]
  | .obj _ => by simp [sizeJ]

theorem sizeJ_le_sizeL {x : Json} : ∀ {xs : List Json}, x ∈ xs → sizeJ x ≤ sizeL xs := by
  intro xs h
  induction xs with
  | nil => cases h
  | cons y ys ih =>
    rcases List.mem_cons.mp h with h | h
    · subst h
      simp [sizeL]
    · have := ih h
      simp only [sizeL]
      omega

theorem sizeJ_le_sizeF {k : Chars} {v : Json} :
    ∀ {kvs : List (Chars × Json)}, (k, v) ∈ kvs → sizeJ v ≤ sizeF kvs := by
  intro kvs h
  induction kvs with
  | nil => cases h
  | cons p ps ih =>
    rcases List.mem_cons.mp h with h | h
    · subst h
      simp [sizeF]
    · have := ih h
      obtain ⟨k2, v2⟩ := p
      simp only [sizeF]
      omega

theorem len_le_sizeL : ∀ xs : List Json, xs.length ≤ sizeL xs
  | [] => by simp [sizeL]
  | x :: xs => by
    have h1 := sizeJ_pos x
    have h2 := len_le_sizeL xs
    simp only [List.length_cons, sizeL]
    omega

theorem len_le_sizeF : ∀ kvs : List (Chars × Json), kvs.length ≤ sizeF kvs
  | [] => by simp [sizeF]
  | (k, v) :: kvs => by
    have h1 := sizeJ_pos v
    have h2 := len_le_sizeF kvs
    simp only [List.length_cons, sizeF]
    omega

/-- Whether the keys of a member list are pairwise distinct. -/
def nodupKeys (kvs : List (Chars × Json)) : Bool := decide (kvs.map Prod.fst).Nodup

mutual

/-- Every object in the value has pairwise-distinct keys (the canonical
form produced by Python dicts). -/
def canonKeys : Json → Bool
  | .arr xs => canonKeysL xs
  | .obj kvs => nodupKeys kvs && canonKeysF kvs
  | _ => true

def canonKeysL : List Json → Bool
  | [] => true
  | x :: xs => canonKeys x && canonKeysL xs

def canonKeysF : List (Chars × Json) → Bool
  | [] => true
  | (_, v) :: kvs => canonKeys v && canonKeysF kvs

end

theorem canonKeysL_mem {x : Json} : ∀ {xs : List Json},
    x ∈ xs → canonKeysL xs = true → canonKeys x = true := by
  intro xs h hc
  induction xs with
  | nil => cases h
  | cons y ys ih =>
    simp only [canonKeysL, Bool.and_eq_true] at hc
    rcases List.mem_cons.mp h with h | h
    · subst h
      exact hc.1
    · exact ih h hc.2

theorem canonKeysF_mem {k : Chars} {v : Json} : ∀ {kvs : List (Chars × Json)},
    (k, v) ∈ kvs → canonKeysF kvs = true → canonKeys v = true := by
  intro kvs h hc
  induction kvs with
  | nil => cases h
  | cons p ps ih =>
    obtain ⟨k2, v2⟩ := p
    simp only [canonKeysF, Bool.and_eq_true] at hc
    rcases List.mem_cons.mp h with h | h
    · cases h
      exact hc.1
    · exact ih h hc.2

theorem dictSet_append {k : Chars} {v : Json} : ∀ {acc : List (Chars × Json)},
    k ∉ acc.map Prod.fst → dictSet acc k v = acc ++ [(k, v)] := by
  intro acc h
  induction acc with
  | nil => rfl
  | cons p ps ih =>
    obtain ⟨k2, v2⟩ := p
    simp only [List.map_cons, List.mem_cons] at h
    push_neg at h
    have hne : ¬ k2 = k := by
      intro he
      exact h.1 he.symm
    simp only [dictSet, if_neg hne, List.cons_append]
    rw [ih h.2]

theorem dictOf_go_eq : ∀ (kvs acc : List (Chars × Json)),
    ((acc ++ kvs).map Prod.fst).Nodup →
    List.foldl (fun acc p => dictSet acc p.1 p.2) acc kvs = acc ++ kvs := by
  intro kvs
  induction kvs with
  | nil =>
    intro acc _
    simp
  | cons p ps ih =>
    intro acc h
    obtain ⟨k, v⟩ := p
    have hk : k ∉ acc.map Prod.fst := by
      intro hmem
      simp only [List.map_append, List.nodup_append, List.map_cons] at h
      exact h.2.2 hmem (List.mem_cons_self k _)
    simp only [List.foldl_cons]
    rw [dictSet_append hk]
    have h2 : (((acc ++ [(k, v)]) ++ ps).map Prod.fst).Nodup := by
      simpa using h
    rw [ih (acc ++ [(k, v)]) h2]
    simp

theorem dictOf_eq_self (kvs : List (Chars × Json)) (h : nodupKeys kvs = true) :
    dictOf kvs = kvs := by
  have hn : (kvs.map Prod.fst).Nodup := by
    simpa [nodupKeys] using h
  have := dictOf_go_eq kvs [] (by simpa using hn)
  simpa [dictOf] using this

/-! ## Head characterisation of serialised values -/

theorem ne_of_toNat {c d : Char} (h : c.toNat ≠ d.toNat) : c ≠ d := by
  intro he
  exact h (by rw [he])

theorem digit_not_jws {c : Char} (h : isDigitC c = true) : isJWs c = false := by
  have hn := (isDigitC_iff c).mp h
  have h1 : (' ').toNat = 32 := rfl
  have h2 : ('\t').toNat = 9 := rfl
  have h3 : ('\n').toNat = 10 := rfl
  have h4 : ('\r').toNat = 13 := rfl
  simp only [isJWs, Bool.or_eq_false_iff, decide_eq_false_iff_not]
  refine ⟨⟨⟨?_, ?_⟩, ?_⟩, ?_⟩ <;> exact ne_of_toNat (by omega)

theorem digit_head_ne {c : Char} (h : isDigitC c = true) :
    c ≠ 'n' ∧ c ≠ 't' ∧ c ≠ 'f' ∧ c ≠ '"' ∧ c ≠ '-' ∧ c ≠ ']' ∧ c ≠ '[' ∧ c ≠ obr ∧
      c ≠ ',' ∧ c ≠ cbr ∧ c ≠ ':' := by
  have hn := (isDigitC_iff c).mp h
  have e1 : ('n').toNat = 110 := rfl
  have e2 : ('t').toNat = 116 := rfl
  have e3 : ('f').toNat = 102 := rfl
  have e4 : ('"').toNat = 34 := rfl
  have e5 : ('-').toNat = 45 := rfl
  have e6 : (']').toNat = 93 := rfl
  have e7 : ('[').toNat = 91 := rfl
  have e8 : obr.toNat = 123 := rfl
  have e9 : (',').toNat = 44 := rfl
  have e10 : cbr.toNat = 125 := rfl
  have e11 : (':').toNat = 58 := rfl
  refine ⟨?_, ?_, ?_, ?_, ?_, ?_, ?_, ?_, ?_, ?_, ?_⟩ <;> exact ne_of_toNat (by omega)

/-- `natChars` is a nonempty digit string. -/
theorem natChars_shape (n : Nat) :
    ∃ c t, natChars n = c :: t ∧ isDigitC c = true := by
  obtain ⟨ds, heq, hsmall, hbig, hdig, _⟩ := natCharsGo_spec n (n + 1) [] (by omega)
  rw [List.append_nil] at heq
  by_cases h10 : n < 10
  · rw [hsmall h10] at heq
    exact ⟨digitChar n, [], heq, isDigitC_digitChar n h10⟩
  · obtain ⟨c, cs2, hcons, _, _⟩ := hbig (by omega)
    rw [hcons] at heq
    exact ⟨c, cs2, heq, hdig c (by rw [hcons]; simp)⟩

theorem ser_head (j : Json) :
    ∃ c t, ser j = c :: t ∧ isJWs c = false ∧ c ≠ ']' ∧ c ≠ cbr := by
  match j with
  | .null => exact ⟨'n', _, rfl, by decide, by decide, by decide⟩
  | .bool true => exact ⟨'t', _, rfl, by decide, by decide, by decide⟩
  | .bool false => exact ⟨'f', _, rfl, by decide, by decide, by decide⟩
  | .str s => exact ⟨'"', _, rfl, by decide, by decide, by decide⟩
  | .arr xs => exact ⟨'[', _, rfl, by decide, by decide, by decide⟩
  | .obj kvs => exact ⟨obr, _, rfl, by decide, by decide, by decide⟩
  | .num n =>
    show ∃ c t, intChars n = c :: t ∧ _
    by_cases hneg : n < 0
    · rw [intChars, if_pos hneg]
      exact ⟨'-', _, rfl, by decide, by decide, by decide⟩
    · rw [intChars, if_neg hneg]
      obtain ⟨c, t, hct, hd⟩ := natChars_shape n.toNat
      have hne := digit_head_ne hd
      exact ⟨c, t, hct, digit_not_jws hd, hne.2.2.2.2.2.1, hne.2.2.2.2.2.2.2.2.2.1⟩

theorem serElems_head (x : Json) (xs : List Json) :
    ∃ c t, serElems (x :: xs) = c :: t ∧ isJWs c = false ∧ c ≠ ']' := by
  obtain ⟨c, t, hct, hws, hbr, _⟩ := ser_head x
  cases xs with
  | nil => exact ⟨c, t, by rw [serElems, hct], hws, hbr⟩
  | cons y ys =>
    refine ⟨c, t ++ ',' :: serElems (y :: ys), ?_, hws, hbr⟩
    rw [serElems, hct]
    simp

theorem serFields_head (p : Chars × Json) (kvs : List (Chars × Json)) :
    ∃ t, serFields (p :: kvs) = '"' :: t := by
  obtain ⟨k, v⟩ := p
  cases kvs with
  | nil => exact ⟨_, rfl⟩
  | cons q qs => exact ⟨_, rfl⟩

theorem skipWs_cons {c : Char} (t : Chars) (h : isJWs c = false) : skipWs (c :: t) = c :: t := by
  simp [skipWs, h]

theorem NonDigitHead_cons {c : Char} (t : Chars) (h : isDigitC c = false) :
    NonDigitHead (c :: t) := by
  intro c2 hc2
  simp only [List.head?_cons, Option.some.injEq] at hc2
  rw [← hc2]
  exact h

theorem NonDigitHead_nil : NonDigitHead [] := by
  intro c hc
  simp at hc

/-! ## Round-trip: parsing a serialised value -/

theorem parseItems1_ser (pv : Chars → Option (Json × Chars)) :
    ∀ (xs : List Json) (g : Nat) (rest : Chars),
      xs ≠ [] → xs.length ≤ g →
      (∀ x ∈ xs, ∀ r2 : Chars, NonDigitHead r2 → pv (ser x ++ r2) = some (x, r2)) →
      NonDigitHead rest →
      parseItems1 pv g (serElems xs ++ ']' :: rest) = some (xs, rest) := by
  intro xs
  induction xs with
  | nil =>
    intro g rest h
    exact absurd rfl h
  | cons x xs ih =>
    intro g rest hne hlen hpv hrest
    match g, hlen with
    | g + 1, hlen =>
      cases xs with
      | nil =>
        have hse : serElems [x] = ser x := rfl
        rw [hse]
        have h1 := hpv x (by simp) (']' :: rest) (NonDigitHead_cons _ (by decide))
        have h2 : skipWs (']' :: rest) = ']' :: rest := skipWs_cons _ (by decide)
        simp only [parseItems1, h1, h2]
      | cons y ys =>
        have hse : serElems (x :: y :: ys) = ser x ++ ',' :: serElems (y :: ys) := rfl
        rw [hse, List.append_assoc]
        have h1 := hpv x (by simp) (',' :: (serElems (y :: ys) ++ ']' :: rest))
          (NonDigitHead_cons _ (by decide))
        have h2 : skipWs (',' :: (serElems (y :: ys) ++ ']' :: rest)) =
            ',' :: (serElems (y :: ys) ++ ']' :: rest) := skipWs_cons _ (by decide)
        obtain ⟨c0, t0, hc0, hws0, _⟩ := serElems_head y ys
        have hskip : skipWs (serElems (y :: ys) ++ ']' :: rest) =
            serElems (y :: ys) ++ ']' :: rest := by
          rw [hc0]
          simp only [List.cons_append]
          rw [skipWs_cons _ hws0]
        have h3 := ih g rest (by simp) (by simpa using Nat.le_of_succ_le_succ hlen)
          (fun z hz => hpv z (by simp [hz])) hrest
        simp only [List.cons_append, parseItems1, h1, h2, hskip, h3]

theorem parseMembers1_ser (pv : Chars → Option (Json × Chars)) :
    ∀ (kvs : List (Chars × Json)) (g : Nat) (rest : Chars),
      kvs ≠ [] → kvs.length ≤ g →
      (∀ p ∈ kvs, ∀ r2 : Chars, NonDigitHead r2 → pv (ser p.2 ++ r2) = some (p.2, r2)) →
      NonDigitHead rest →
      parseMembers1 pv g (serFields kvs ++ cbr :: rest) = some (kvs, rest) := by
  intro kvs
  induction kvs with
  | nil =>
    intro g rest h
    exact absurd rfl h
  | cons p kvs ih =>
    intro g rest hne hlen hpv hrest
    obtain ⟨k, v⟩ := p
    match g, hlen with
    | g + 1, hlen =>
      cases kvs with
      | nil =>
        have hse : serFields [(k, v)] = '"' :: escStr k ++ '"' :: ':' :: ser v := rfl
        rw [hse]
        simp only [List.cons_append, List.append_assoc]
        have h1 := parseStrBody_escStr k (':' :: (ser v ++ cbr :: rest))
        have h2 : skipWs (':' :: (ser v ++ cbr :: rest)) = ':' :: (ser v ++ cbr :: rest) :=
          skipWs_cons _ (by decide)
        obtain ⟨c0, t0, hc0, hws0, _, _⟩ := ser_head v
        have hskip : skipWs (ser v ++ cbr :: rest) = ser v ++ cbr :: rest := by
          rw [hc0]
          simp only [List.cons_append]
          rw [skipWs_cons _ hws0]
        have h3 := hpv (k, v) (by simp) (cbr :: rest) (NonDigitHead_cons _ (by decide))
        have h4 : skipWs (cbr :: rest) = cbr :: rest := skipWs_cons _ (by decide)
        simp only [List.cons_append, parseMembers1, h1, h2, hskip, h3, h4]
        have hc : ¬ (cbr = ',') := by decide
        simp [Char.reduceEq, hc]
      | cons q qs =>
        have hse : serFields ((k, v) :: q :: qs) =
            ('"' :: escStr k ++ '"' :: ':' :: ser v) ++ ',' :: serFields (q :: qs) := rfl
        rw [hse]
        simp only [List.cons_append, List.append_assoc]
        have h1 := parseStrBody_escStr k
          (':' :: (ser v ++ (',' :: (serFields (q :: qs) ++ cbr :: rest))))
        have h2 : skipWs (':' :: (ser v ++ (',' :: (serFields (q :: qs) ++ cbr :: rest)))) =
            ':' :: (ser v ++ (',' :: (serFields (q :: qs) ++ cbr :: rest))) :=
          skipWs_cons _ (by decide)
        obtain ⟨c0, t0, hc0, hws0, _, _⟩ := ser_head v
        have hskip : skipWs (ser v ++ (',' :: (serFields (q :: qs) ++ cbr :: rest))) =
            ser v ++ ',' :: (serFields (q :: qs) ++ cbr :: rest) := by
          rw [hc0]
          simp only [List.cons_append]
          rw [skipWs_cons _ hws0]
        have h3 := hpv (k, v) (by simp)
          (',' :: (serFields (q :: qs) ++ cbr :: rest)) (NonDigitHead_cons _ (by decide))
        have h4 : skipWs (',' :: (serFields (q :: qs) ++ cbr :: rest)) =
            ',' :: (serFields (q :: qs) ++ cbr :: rest) := skipWs_cons _ (by decide)
        obtain ⟨t1, ht1⟩ := serFields_head q qs
        have hskip2 : skipWs (serFields (q :: qs) ++ cbr :: rest) =
            serFields (q :: qs) ++ cbr :: rest := by
          rw [ht1]
          simp only [List.cons_append]
          rw [skipWs_cons _ (by decide)]
        have h5 := ih g rest (by simp) (by simpa using Nat.le_of_succ_le_succ hlen)
          (fun z hz => hpv z (by simp [hz])) hrest
        simp only [List.cons_append, parseMembers1, h1, h2, hskip, h3, h4, hskip2, h5]

theorem parseVal_bracket (f : Nat) (r : Chars) :
    parseVal (f + 1) ('[' :: r) =
      (match skipWs r with
       | [] => none
       | c2 :: r2 =>
         if c2 = ']' then some (.arr [], r2)
         else (parseItems1 (parseVal f) f (c2 :: r2)).map (fun p => (.arr p.1, p.2))) := by
  have hd : isDigitC '[' = false := by decide
  simp only [parseVal, Char.reduceEq, reduceIte, hd, Bool.false_eq_true, if_false]

theorem parseVal_brace (f : Nat) (r : Chars) :
    parseVal (f + 1) (obr :: r) =
      (match skipWs r with
       | [] => none
       | c2 :: r2 =>
         if c2 = cbr then some (.obj [], r2)
         else (parseMembers1 (parseVal f) f (c2 :: r2)).map
           (fun p => (.obj (dictOf p.1), p.2))) := by
  have hd : isDigitC obr = false := by decide
  simp only [parseVal]
  rw [if_neg (by decide : ¬ obr = 'n'), if_neg (by decide : ¬ obr = 't'),
    if_neg (by decide : ¬ obr = 'f'), if_neg (by decide : ¬ obr = '"'),
    if_neg (by decide : ¬ obr = '-')]
  rw [hd]
  simp only [Bool.false_eq_true, if_false]
  rw [if_neg (by decide : ¬ obr = '[')]
  rw [if_pos (by trivial)]

/-- Parsing the serialisation of any canonical value, with any fuel at
least its size, returns the value and the untouched remainder. -/
theorem parseVal_ser_aux : ∀ (N : Nat) (j : Json), sizeJ j ≤ N →
    ∀ (f : Nat), canonKeys j = true → sizeJ j ≤ f →
    ∀ rest, NonDigitHead rest → parseVal f (ser j ++ rest) = some (j, rest) := by
  intro N
  induction N with
  | zero =>
    intro j hj
    have := sizeJ_pos j
    omega
  | succ N IH =>
    intro j hN f hck hf rest hrest
    obtain ⟨f2, rfl⟩ : ∃ f2, f = f2 + 1 := by
      have := sizeJ_pos j
      exact ⟨f - 1, by omega⟩
    match j with
    | .null =>
      simp [ser, parseVal, Char.reduceEq, lit]
    | .bool true =>
      simp [ser, parseVal, Char.reduceEq, lit]
    | .bool false =>
      simp [ser, parseVal, Char.reduceEq, lit]
    | .str s =>
      have hs : ser (.str s) = '"' :: (escStr s ++ ['"']) := by
        simp [ser]
      rw [hs]
      simp only [List.cons_append, List.append_assoc, List.nil_append]
      simp only [parseVal, Char.reduceEq, reduceIte]
      rw [parseStrBody_escStr s rest]
      rfl
    | .num n =>
      by_cases hneg : n < 0
      · have hs : ser (.num n) = '-' :: natChars n.natAbs := by
          simp [ser, intChars, hneg]
        rw [hs]
        simp only [List.cons_append, parseVal, Char.reduceEq, reduceIte]
        rw [parseNat_natChars n.natAbs rest hrest]
        have habs : -((n.natAbs : Nat) : Int) = n := by omega
        simp only [Option.map_some']
        rw [habs]
      · have hs : ser (.num n) = natChars n.toNat := by
          simp [ser, intChars, hneg]
        obtain ⟨c, t, hct, hd⟩ := natChars_shape n.toNat
        have hne := digit_head_ne hd
        rw [hs, hct]
        simp only [List.cons_append, parseVal]
        rw [if_neg hne.1, if_neg hne.2.1, if_neg hne.2.2.1, if_neg hne.2.2.2.1,
          if_neg hne.2.2.2.2.1, if_pos hd]
        rw [← List.cons_append, ← hct]
        rw [parseNat_natChars n.toNat rest hrest]
        have htn : ((n.toNat : Nat) : Int) = n := by omega
        simp only [Option.map_some']
        rw [htn]
    | .arr [] =>
      have hs : ser (.arr []) = '[' :: [']'] := rfl
      rw [hs]
      have h1 : ('[' : Char) :: [']'] ++ rest = '[' :: (']' :: rest) := by simp
      rw [h1, parseVal_bracket]
      rw [skipWs_cons _ (by decide)]
      simp [Char.reduceEq]
    | .arr (x :: xs) =>
      have hs : ser (.arr (x :: xs)) = '[' :: (serElems (x :: xs) ++ [']']) := by
        simp [ser]
      rw [hs]
      simp only [List.cons_append, List.append_assoc, List.nil_append]
      rw [parseVal_bracket]
      obtain ⟨c0, t0, hc0, hws0, hbr0⟩ := serElems_head x xs
      have hskip : skipWs (serElems (x :: xs) ++ ']' :: rest) =
          c0 :: (t0 ++ ']' :: rest) := by
        rw [hc0]
        simp only [List.cons_append]
        rw [skipWs_cons _ hws0]
      rw [hskip]
      simp only [if_neg hbr0]
      have hback : c0 :: (t0 ++ ']' :: rest) = serElems (x :: xs) ++ ']' :: rest := by
        rw [hc0]
        simp
      rw [hback]
      have harr : sizeJ (.arr (x :: xs)) = sizeL (x :: xs) + 1 := rfl
      have hsizes : sizeL (x :: xs) + 1 ≤ f2 + 1 := by rw [← harr]; exact hf
      have hsizesN : sizeL (x :: xs) + 1 ≤ N + 1 := by rw [← harr]; exact hN
      have hitems := parseItems1_ser (parseVal f2) (x :: xs) f2 rest (by simp)
        (by have := len_le_sizeL (x :: xs); omega)
        (fun z hz r2 hr2 => by
          have hsz : sizeJ z ≤ sizeL (x :: xs) := sizeJ_le_sizeL hz
          have hckz : canonKeys z = true := by
            have hc : canonKeys (.arr (x :: xs)) = canonKeysL (x :: xs) := rfl
            rw [hc] at hck
            exact canonKeysL_mem hz hck
          exact IH z (by omega) f2 hckz (by omega) r2 hr2)
        hrest
      rw [hitems]
      rfl
    | .obj [] =>
      have hs : ser (.obj []) = obr :: [cbr] := rfl
      rw [hs]
      have h1 : obr :: [cbr] ++ rest = obr :: (cbr :: rest) := by simp
      rw [h1, parseVal_brace]
      rw [skipWs_cons _ (by decide)]
      simp
    | .obj (p :: kvs) =>
      have hs : ser (.obj (p :: kvs)) = obr :: (serFields (p :: kvs) ++ [cbr]) := by
        simp [ser]
      rw [hs]
      simp only [List.cons_append, List.append_assoc, List.nil_append]
      rw [parseVal_brace]
      obtain ⟨t1, ht1⟩ := serFields_head p kvs
      have hskip : skipWs (serFields (p :: kvs) ++ cbr :: rest) =
          '"' :: (t1 ++ cbr :: rest) := by
        rw [ht1]
        simp only [List.cons_append]
        rw [skipWs_cons _ (by decide)]
      rw [hskip]
      simp only [if_neg (by decide : ¬ ('"' : Char) = cbr)]
      have hback : '"' :: (t1 ++ cbr :: rest) = serFields (p :: kvs) ++ cbr :: rest := by
        rw [ht1]
        simp
      rw [hback]
      have hck2 : nodupKeys (p :: kvs) = true ∧ canonKeysF (p :: kvs) = true := by
        have : canonKeys (.obj (p :: kvs)) =
            (nodupKeys (p :: kvs) && canonKeysF (p :: kvs)) := rfl
        rw [this, Bool.and_eq_true] at hck
        exact hck
      have hobj : sizeJ (.obj (p :: kvs)) = sizeF (p :: kvs) + 1 := rfl
      have hsizes : sizeF (p :: kvs) + 1 ≤ f2 + 1 := by rw [← hobj]; exact hf
      have hsizesN : sizeF (p :: kvs) + 1 ≤ N + 1 := by rw [← hobj]; exact hN
      have hmembers := parseMembers1_ser (parseVal f2) (p :: kvs) f2 rest (by simp)
        (by
          have h1 := len_le_sizeF (p :: kvs)
          omega)
        (fun z hz r2 hr2 => by
          obtain ⟨zk, zv⟩ := z
          have hsz : sizeJ zv ≤ sizeF (p :: kvs) := sizeJ_le_sizeF hz
          have hckz : canonKeys zv = true := canonKeysF_mem hz hck2.2
          exact IH zv (by omega) f2 hckz (by omega) r2 hr2)
        hrest
      rw [hmembers]
      simp only [Option.map_some']
      rw [dictOf_eq_self _ hck2.1]

theorem parseVal_ser (j : Json) (f : Nat) (hck : canonKeys j = true) (hf : sizeJ j ≤ f)
    (rest : Chars) (hrest : NonDigitHead rest) :
    parseVal f (ser j ++ rest) = some (j, rest) :=
  parseVal_ser_aux (sizeJ j) j le_rfl f hck hf rest hrest

theorem serElems_len_ge : ∀ xs : List Json,
    (∀ x ∈ xs, sizeJ x ≤ (ser x).length) → sizeL xs ≤ (serElems xs).length + 1
  | [], _ => by simp [sizeL]
  | [x], h => by
    have := h x (by simp)
    simp only [sizeL, serElems, sizeL]
    omega
  | x :: y :: ys, h => by
    have h1 := h x (by simp)
    have h2 := serElems_len_ge (y :: ys) (fun z hz => h z (by simp [hz]))
    have hlen : (serElems (x :: y :: ys)).length =
        (ser x).length + 1 + (serElems (y :: ys)).length := by
      simp [serElems]
      omega
    simp only [sizeL] at h2 ⊢
    omega

theorem serFields_len_ge : ∀ kvs : List (Chars × Json),
    (∀ p ∈ kvs, sizeJ p.2 ≤ (ser p.2).length) → sizeF kvs ≤ (serFields kvs).length + 1
  | [], _ => by simp [sizeF]
  | [(k, v)], h => by
    have h0 : sizeJ v ≤ (ser v).length := h (k, v) (by simp)
    have hlen : (serFields [(k, v)]).length = (escStr k).length + 3 + (ser v).length := by
      simp [serFields]
      omega
    simp only [sizeF, sizeF]
    omega
  | (k, v) :: q :: qs, h => by
    have h1 : sizeJ v ≤ (ser v).length := h (k, v) (by simp)
    have h2 := serFields_len_ge (q :: qs) (fun z hz => h z (by simp [hz]))
    have hlen : (serFields ((k, v) :: q :: qs)).length =
        (escStr k).length + 3 + (ser v).length + 1 + (serFields (q :: qs)).length := by
      simp [serFields]
      omega
    simp only [sizeF] at h2 ⊢
    omega

theorem sizeJ_le_serLen_aux : ∀ (N : Nat) (j : Json), sizeJ j ≤ N →
    sizeJ j ≤ (ser j).length := by
  intro N
  induction N with
  | zero =>
    intro j hj
    have := sizeJ_pos j
    omega
  | succ N IH =>
    intro j hN
    match j with
    | .null => simp [ser, sizeJ]
    | .bool true => simp [ser, sizeJ]
    | .bool false => simp [ser, sizeJ]
    | .str s => simp [ser, sizeJ]
    | .num n =>
      by_cases hneg : n < 0
      · obtain ⟨c, t, hct, _⟩ := natChars_shape n.natAbs
        simp [ser, sizeJ, intChars, hneg, hct]
      · obtain ⟨c, t, hct, _⟩ := natChars_shape n.toNat
        simp [ser, sizeJ, intChars, hneg, hct]
    | .arr xs =>
      have harr : sizeJ (.arr xs) = sizeL xs + 1 := rfl
      have hN2 : sizeL xs + 1 ≤ N + 1 := by rw [← harr]; exact hN
      have hlist := serElems_len_ge xs (fun x hx => by
        have := sizeJ_le_sizeL hx
        exact IH x (by omega))
      have hlen : (ser (.arr xs)).length = (serElems xs).length + 2 := by
        simp [ser]
      rw [harr, hlen]
      omega
    | .obj kvs =>
      have hobj : sizeJ (.obj kvs) = sizeF kvs + 1 := rfl
      have hN2 : sizeF kvs + 1 ≤ N + 1 := by rw [← hobj]; exact hN
      have hlist := serFields_len_ge kvs (fun p hp => by
        have := sizeJ_le_sizeF hp
        exact IH p.2 (by omega))
      have hlen : (ser (.obj kvs)).length = (serFields kvs).length + 2 := by
        simp [ser]
      rw [hobj, hlen]
      omega

theorem sizeJ_le_serLen (j : Json) : sizeJ j ≤ (ser j).length :=
  sizeJ_le_serLen_aux (sizeJ j) j le_rfl

/-- `json.loads` inverts the canonical serialiser. -/
theorem loads_ser (j : Json) (hck : canonKeys j = true) : loads (ser j) = some j := by
  obtain ⟨c, t, hct, hws, _, _⟩ := ser_head j
  have hskip : skipWs (ser j) = ser j := by
    rw [hct]
    exact skipWs_cons _ hws
  have hfuel : sizeJ j ≤ (ser j).length + 1 := by
    have := sizeJ_le_serLen j
    omega
  have hp := parseVal_ser j ((ser j).length + 1) hck hfuel [] NonDigitHead_nil
  rw [List.append_nil] at hp
  rw [loads, hskip, hp]
  simp [skipWs]

/-! ## The Report Loader (`load_json_file`)

Model of `load_json_file` from `import_to_opensearch.py`: strict parse,
then the two regex repair substitutions, then the split-and-patch
fallback.  `re.sub(r'\],\s*\n\s*\x7b', r',\n  \x7b', content)` is modelled
by `subSeam obr ...`; the bracket variant by `subSeam '[' ...`;
`re.split` on the brace pattern by `splitSeam`. -/

/-- Python regex `\s` (ASCII portion), also the `str.strip` default set. -/
def isPyWs (c : Char) : Bool :=
  c = ' ' || c = '\t' || c = '\n' || c = '\r' || c = '\x0b' || c = '\x0c'

/-- Python `str.lstrip()`. -/
def pyLstrip : Chars → Chars
  | [] => []
  | c :: t => if isPyWs c then pyLstrip t else c :: t

/-- Python `str.rstrip()`. -/
def pyRstrip (s : Chars) : Chars := (pyLstrip s.reverse).reverse

/-- Python `str.strip()`. -/
def pyStrip (s : Chars) : Chars := pyRstrip (pyLstrip s)

/-- Attempt to match the tail of the seam pattern `\],\s*\n\s*<opn>` right
after the characters `],`: a whitespace run containing a newline, then the
opening character.  Returns the remainder after the match. -/
def seamMatch (opn : Char) (t : Chars) : Option Chars :=
  let run := t.takeWhile isPyWs
  let rest := t.dropWhile isPyWs
  if '\n' ∈ run then
    match rest with
    | [] => none
    | c :: r => if c = opn then some r else none
  else none

/-- One left-to-right pass of `re.sub` for the seam pattern with opening
character `opn`, replacing every non-overlapping match by `repl`
(fuel-based). -/
def subSeamF (opn : Char) (repl : Chars) : Nat → Chars → Chars
  | 0, s => s
  | _ + 1, [] => []
  | f + 1, c :: t =>
    if c = ']' then
      match t with
      | [] => [']']
      | d :: t2 =>
        if d = ',' then
          match seamMatch opn t2 with
          | some r => repl ++ subSeamF opn repl f r
          | none => ']' :: subSeamF opn repl f t
        else ']' :: subSeamF opn repl f t
    else c :: subSeamF opn repl f t

def subSeam (opn : Char) (repl : Chars) (s : Chars) : Chars :=
  subSeamF opn repl (s.length + 1) s

/-- `re.split` on the brace seam pattern, accumulating the current part in
reverse (fuel-based). -/
def splitGo (opn : Char) : Nat → Chars → Chars → List Chars
  | 0, acc, s => [acc.reverse ++ s]
  | _ + 1, acc, [] => [acc.reverse]
  | f + 1, acc, c :: t =>
    if c = ']' then
      match t with
      | [] => [(']' :: acc).reverse]
      | d :: t2 =>
        if d = ',' then
          match seamMatch opn t2 with
          | some r => acc.reverse :: splitGo opn f [] r
          | none => splitGo opn f (']' :: acc) t
        else splitGo opn f (']' :: acc) t
    else splitGo opn f (c :: acc) t

def splitSeam (opn : Char) (s : Chars) : List Chars := splitGo opn (s.length + 1) [] s

/-- The replacement text `r',\n  \x7b'` (comma, newline, two spaces, brace). -/
def replBrace : Chars := [',', '\n', ' ', ' ', obr]

/-- The replacement text `r',\n  ['`. -/
def replBracket : Chars := [',', '\n', ' ', ' ', '[']

/-- The repaired content: both substitution passes, brace pattern first. -/
def fixedContent (content : Chars) : Chars :=
  subSeam '[' replBracket (subSeam obr replBrace content)

/-- The patch-up loop over split parts (`parts[0].rstrip() + ']'`; every
later part is prefixed with `[\x7b` and, if it does not already end with a
bracket, rstripped and closed with `]\x7d`). -/
def patchParts : List Chars → List Chars
  | [] => []
  | p0 :: rest =>
    (pyRstrip p0 ++ [']']) ::
      rest.map (fun p =>
        let q := '[' :: obr :: p
        if (pyRstrip q).getLast? = some ']' then q else pyRstrip q ++ [']', cbr])

/-- The per-part parse loop: strip, skip empties, extend with arrays,
append objects, silently drop anything else. -/
def collectParts (parts : List Chars) : List Json :=
  parts.foldl
    (fun acc part =>
      let p2 := pyStrip part
      if p2 = [] then acc
      else
        match loads p2 with
        | some (.arr l) => acc ++ l
        | some (.obj kvs) => acc ++ [.obj kvs]
        | _ => acc)
    []

/-- The body of `load_json_file` applied to the text of a readable file. -/
def loadContent (raw : Chars) : List Json :=
  let content := pyStrip raw
  match loads content with
  | some (.arr l) => l
  | some (.obj kvs) => [.obj kvs]
  | some _ => []
  | none =>
    match loads (fixedContent content) with
    | some (.arr l) => l
    | some (.obj kvs) => [.obj kvs]
    | some _ => []
    | none =>
      let parts := splitSeam obr content
      if 1 < parts.length then collectParts (patchParts parts) else []

/-- The state of the input file as the loader can encounter it: absent,
present but unreadable (`open` raises), or readable with some text. -/
inductive FileState where
  | missing : FileState
  | unreadable : FileState
  | readable (content : Chars) : FileState

/-- Python exceptions that the embedded fragments can raise. -/
inductive PyErr where
  | attributeError : PyErr
  | typeError : PyErr
  | ioError : PyErr
deriving DecidableEq

/-- `load_json_file`: a missing file returns `[]` before any read; an
existing file is opened and read (`open` raises on an unreadable file —
there is no try/except around it); readable content is parsed by
`loadContent`, which catches every `JSONDecodeError` internally. -/
def load_json_file : FileState → Except PyErr (List Json)
  | .missing => .ok []
  | .unreadable => .error .ioError
  | .readable content => .ok (loadContent content)

/-! ## Serialised values contain no newline -/

theorem nl_not_mem_escChar (c : Char) : '\n' ∉ escChar c := by
  rw [escChar]
  by_cases hq : c = '"'
  · simp [hq]
  · rw [if_neg hq]
    by_cases hb : c = '\\'
    · simp [hb]
    · rw [if_neg hb]
      by_cases h32 : c.toNat < 32
      · rw [if_pos h32]
        have hx : ∀ d : Fin 16, hexChar d.val ≠ '\n' := by decide
        have h1 := hx ⟨c.toNat / 16, by omega⟩
        have h2 := hx ⟨c.toNat % 16, Nat.mod_lt _ (by omega)⟩
        simp only [List.mem_cons, List.not_mem_nil]
        push_neg
        refine ⟨by decide, by decide, by decide, by decide, ?_, ?_, fun h => h⟩
        · intro he
          exact h1 he.symm
        · intro he
          exact h2 he.symm
      · rw [if_neg h32]
        simp only [List.mem_singleton]
        intro he
        cases he
        exact h32 (by decide)

theorem nl_not_mem_escStr (s : Chars) : '\n' ∉ escStr s := by
  rw [escStr]
  intro h
  obtain ⟨c, _, hc⟩ := List.mem_flatMap.mp h
  exact nl_not_mem_escChar c hc

theorem nl_not_mem_natChars (n : Nat) : '\n' ∉ natChars n := by
  obtain ⟨ds, heq, _, _, hdig, _⟩ := natCharsGo_spec n (n + 1) [] (by omega)
  rw [List.append_nil] at heq
  rw [natChars, heq]
  intro h
  have := (isDigitC_iff _).mp (hdig _ h)
  have h10 : ('\n').toNat = 10 := rfl
  omega

theorem nl_not_mem_serElems_aux : ∀ xs : List Json,
    (∀ x ∈ xs, '\n' ∉ ser x) → '\n' ∉ serElems xs
  | [], _ => by simp [serElems]
  | [x], h => by
    rw [serElems]
    exact h x (by simp)
  | x :: y :: ys, h => by
    rw [serElems]
    have h1 := h x (by simp)
    have h2 := nl_not_mem_serElems_aux (y :: ys) (fun z hz => h z (by simp [hz]))
    simp [h1, h2, Char.reduceEq]

theorem nl_not_mem_serFields_aux : ∀ kvs : List (Chars × Json),
    (∀ p ∈ kvs, '\n' ∉ ser p.2) → '\n' ∉ serFields kvs
  | [], _ => by simp [serFields]
  | [(k, v)], h => by
    have hv : '\n' ∉ ser v := h (k, v) (by simp)
    rw [serFields]
    simp [nl_not_mem_escStr k, hv, Char.reduceEq]
  | (k, v) :: q :: qs, h => by
    have hv : '\n' ∉ ser v := h (k, v) (by simp)
    have hrest := nl_not_mem_serFields_aux (q :: qs) (fun z hz => h z (by simp [hz]))
    rw [serFields]
    simp [nl_not_mem_escStr k, hv, hrest, Char.reduceEq]

theorem nl_not_mem_ser_aux : ∀ (N : Nat) (j : Json), sizeJ j ≤ N → '\n' ∉ ser j := by
  intro N
  induction N with
  | zero =>
    intro j hj
    have := sizeJ_pos j
    omega
  | succ N IH =>
    intro j hN
    match j with
    | .null => decide
    | .bool true => decide
    | .bool false => decide
    | .str s =>
      rw [ser]
      simp [nl_not_mem_escStr s, Char.reduceEq]
    | .num n =>
      rw [ser, intChars]
      by_cases hneg : n < 0
      · rw [if_pos hneg]
        simp only [List.mem_cons]
        push_neg
        exact ⟨by decide, nl_not_mem_natChars _⟩
      · rw [if_neg hneg]
        exact nl_not_mem_natChars _
    | .arr xs =>
      have harr : sizeJ (.arr xs) = sizeL xs + 1 := rfl
      have hN2 : sizeL xs + 1 ≤ N + 1 := by rw [← harr]; exact hN
      have hlist := nl_not_mem_serElems_aux xs (fun x hx => by
        have := sizeJ_le_sizeL hx
        exact IH x (by omega))
      rw [ser]
      simp [hlist, Char.reduceEq]
    | .obj kvs =>
      have hobj : sizeJ (.obj kvs) = sizeF kvs + 1 := rfl
      have hN2 : sizeF kvs + 1 ≤ N + 1 := by rw [← hobj]; exact hN
      have hlist := nl_not_mem_serFields_aux kvs (fun p hp => by
        have := sizeJ_le_sizeF hp
        exact IH p.2 (by omega))
      rw [ser]
      have h1 : ('\n') ≠ obr := by decide
      have h2 : ('\n') ≠ cbr := by decide
      simp [hlist, h1, h2]

theorem nl_not_mem_ser (j : Json) : '\n' ∉ ser j :=
  nl_not_mem_ser_aux (sizeJ j) j le_rfl

theorem nl_not_mem_serElems (xs : List Json) : '\n' ∉ serElems xs :=
  nl_not_mem_serElems_aux xs (fun x _ => nl_not_mem_ser x)

/-! ## Behaviour of the repair substitutions on seam-shaped content -/

theorem takeWhile_append_stop {p : Char → Bool} {stop : Char} (hstop : p stop = false) :
    ∀ (A B : Chars), (A ++ stop :: B).takeWhile p = A.takeWhile p
  | [], B => by simp [List.takeWhile_cons, hstop]
  | a :: A, B => by
    by_cases ha : p a
    · simp [List.takeWhile_cons, ha, takeWhile_append_stop hstop A B]
    · simp [List.takeWhile_cons, ha]

theorem nl_not_mem_takeWhile {A : Chars} (hA : '\n' ∉ A) {p : Char → Bool} :
    '\n' ∉ A.takeWhile p := by
  intro h
  exact hA ((List.takeWhile_sublist p).subset h)

/-- Inside newline-free text capped by a non-whitespace character, the seam
tail never matches. -/
theorem seamMatch_none (opn : Char) {A B : Chars} {stop : Char}
    (hA : '\n' ∉ A) (hstop : isPyWs stop = false) :
    seamMatch opn (A ++ stop :: B) = none := by
  rw [seamMatch]
  have hrun : (A ++ stop :: B).takeWhile isPyWs = A.takeWhile isPyWs :=
    takeWhile_append_stop hstop A B
  simp only [hrun]
  rw [if_neg (nl_not_mem_takeWhile hA)]

/-- The seam tail does match when the whitespace is exactly one newline
followed by the opening character. -/
theorem seamMatch_hit (opn : Char) (Q : Chars) (hopn : isPyWs opn = false) :
    seamMatch opn ('\n' :: opn :: Q) = some Q := by
  rw [seamMatch]
  have h1 : ('\n' :: opn :: Q).takeWhile isPyWs = '\n' :: (opn :: Q).takeWhile isPyWs := by
    simp [List.takeWhile_cons]
    decide
  have h2 : (opn :: Q).takeWhile isPyWs = [] := by
    simp [List.takeWhile_cons, hopn]
  have h3 : ('\n' :: opn :: Q).dropWhile isPyWs = opn :: Q := by
    rw [List.dropWhile_cons]
    rw [if_pos (by decide)]
    rw [List.dropWhile_cons, if_neg (by simp [hopn])]
  simp only [h1, h2, h3]
  rw [if_pos (by simp)]
  simp

theorem subSeamF_cons (opn : Char) (repl : Chars) (f : Nat) (c : Char) (t : Chars) :
    subSeamF opn repl (f + 1) (c :: t) =
      (if c = ']' then
        match t with
        | [] => [']']
        | d :: t2 =>
          if d = ',' then
            match seamMatch opn t2 with
            | some r => repl ++ subSeamF opn repl f r
            | none => ']' :: subSeamF opn repl f t
          else ']' :: subSeamF opn repl f t
      else c :: subSeamF opn repl f t) := by
  conv_lhs => rw [subSeamF.eq_def]
  rfl

theorem subSeamF_other {c : Char} (opn : Char) (repl : Chars) (f : Nat) (t : Chars)
    (hc : c ≠ ']') : subSeamF opn repl (f + 1) (c :: t) = c :: subSeamF opn repl f t := by
  rw [subSeamF_cons, if_neg hc]

theorem subSeamF_brk_nil (opn : Char) (repl : Chars) (f : Nat) :
    subSeamF opn repl (f + 1) [']'] = [']'] := by
  rw [subSeamF_cons]
  simp

theorem subSeamF_brk_other {d : Char} (opn : Char) (repl : Chars) (f : Nat) (t2 : Chars)
    (hd : d ≠ ',') :
    subSeamF opn repl (f + 1) (']' :: d :: t2) = ']' :: subSeamF opn repl f (d :: t2) := by
  rw [subSeamF_cons]
  simp [hd]

theorem subSeamF_hit (opn : Char) (repl : Chars) (f : Nat) {t2 r : Chars}
    (hm : seamMatch opn t2 = some r) :
    subSeamF opn repl (f + 1) (']' :: ',' :: t2) = repl ++ subSeamF opn repl f r := by
  rw [subSeamF_cons]
  simp [hm, Char.reduceEq]

theorem subSeamF_miss (opn : Char) (repl : Chars) (f : Nat) {t2 : Chars}
    (hm : seamMatch opn t2 = none) :
    subSeamF opn repl (f + 1) (']' :: ',' :: t2) = ']' :: subSeamF opn repl f (',' :: t2) := by
  rw [subSeamF_cons]
  simp [hm, Char.reduceEq]

theorem subSeamF_no_nl (opn : Char) (repl : Chars) :
    ∀ (f : Nat) (s : Chars), '\n' ∉ s → s.length ≤ f → subSeamF opn repl f s = s := by
  intro f
  induction f with
  | zero =>
    intro s _ hl
    match s, hl with
    | [], _ => rfl
  | succ f IH =>
    intro s hnl hl
    match s with
    | [] => rfl
    | c :: t =>
      have hnlt : '\n' ∉ t := fun h => hnl (by simp [h])
      by_cases hc : c = ']'
      · subst hc
        match t with
        | [] => exact subSeamF_brk_nil opn repl f
        | d :: t2 =>
          by_cases hd : d = ','
          · subst hd
            have hm : seamMatch opn t2 = none := by
              rw [seamMatch]
              rw [if_neg (nl_not_mem_takeWhile (fun h => hnlt (by simp [h])))]
            rw [subSeamF_miss opn repl f hm]
            rw [IH (',' :: t2) hnlt (by simpa using Nat.lt_succ_iff.mp hl)]
          · rw [subSeamF_brk_other opn repl f t2 hd]
            rw [IH (d :: t2) hnlt (by simp at hl ⊢; omega)]
      · rw [subSeamF_other opn repl f t hc]
        rw [IH t hnlt (by simp at hl ⊢; omega)]

/-- The brace-seam substitution on content that is newline-free except for
exactly one seam replaces that seam and nothing else. -/
theorem subSeamF_through (opn : Char) (repl : Chars) (hopn : isPyWs opn = false) :
    ∀ (P : Chars) (Q : Chars) (f : Nat), '\n' ∉ P → '\n' ∉ Q →
      P.length + Q.length + 4 ≤ f →
      subSeamF opn repl f (P ++ ']' :: ',' :: '\n' :: opn :: Q) = P ++ repl ++ Q := by
  intro P
  induction P with
  | nil =>
    intro Q f _ hQ hf
    match f, hf with
    | f + 1, hf =>
      simp only [List.nil_append]
      rw [subSeamF_hit opn repl f (seamMatch_hit opn Q hopn)]
      rw [subSeamF_no_nl opn repl f Q hQ (by simp at hf; omega)]
  | cons a P IH =>
    intro Q f hP hQ hf
    have hPt : '\n' ∉ P := fun h => hP (by simp [h])
    match f, hf with
    | f + 1, hf =>
      simp only [List.cons_append]
      by_cases ha : a = ']'
      · subst ha
        match P, hPt, hf with
        | [], _, hf =>
          simp only [List.nil_append]
          rw [subSeamF_brk_other opn repl f _ (by decide : (']' : Char) ≠ ',')]
          have := IH Q f (by simp) hQ (by simp at hf ⊢; omega)
          simp only [List.nil_append] at this
          rw [this]
        | d :: P2, hPt, hf =>
          simp only [List.cons_append]
          by_cases hd : d = ','
          · subst hd
            have hnlP2 : '\n' ∉ P2 := fun h => hPt (by simp [h])
            have hm : seamMatch opn (P2 ++ ']' :: ',' :: '\n' :: opn :: Q) = none :=
              seamMatch_none opn hnlP2 (by decide)
            rw [subSeamF_miss opn repl f hm]
            have := IH Q f hPt hQ (by simp at hf ⊢; omega)
            simp only [List.cons_append] at this
            rw [this]
          · rw [subSeamF_brk_other opn repl f _ hd]
            have := IH Q f hPt hQ (by simp at hf ⊢; omega)
            simp only [List.cons_append] at this
            rw [this]
      · rw [subSeamF_other opn repl f _ ha]
        rw [IH Q f hPt hQ (by simp at hf ⊢; omega)]

/-- The second (bracket) substitution leaves once-repaired content alone:
its only newline is followed by two spaces and a character that is neither
whitespace nor the bracket. -/
theorem subSeamF_skip (opn : Char) (repl : Chars) (opnC : Char)
    (h1 : opnC ≠ opn) (h2 : opnC ≠ ']') (h3 : isPyWs opnC = false) :
    ∀ (X Y : Chars) (f : Nat), '\n' ∉ X → '\n' ∉ Y →
      X.length + Y.length + 5 ≤ f →
      subSeamF opn repl f (X ++ ',' :: '\n' :: ' ' :: ' ' :: opnC :: Y) =
        X ++ ',' :: '\n' :: ' ' :: ' ' :: opnC :: Y := by
  intro X
  induction X with
  | nil =>
    intro Y f _ hY hf
    match f, hf with
    | f + 4 + 1, hf =>
      simp only [List.nil_append]
      rw [subSeamF_other opn repl _ _ (by decide : (',' : Char) ≠ ']')]
      rw [subSeamF_other opn repl _ _ (by decide : ('\n' : Char) ≠ ']')]
      rw [subSeamF_other opn repl _ _ (by decide : (' ' : Char) ≠ ']')]
      rw [subSeamF_other opn repl _ _ (by decide : (' ' : Char) ≠ ']')]
      rw [subSeamF_other opn repl _ _ h2]
      rw [subSeamF_no_nl opn repl f Y hY (by simp at hf; omega)]
  | cons a X IH =>
    intro Y f hX hY hf
    have hXt : '\n' ∉ X := fun h => hX (by simp [h])
    match f, hf with
    | f + 1, hf =>
      simp only [List.cons_append]
      by_cases ha : a = ']'
      · subst ha
        match X, hXt, hf with
        | [], _, hf =>
          simp only [List.nil_append]
          have hm : seamMatch opn ('\n' :: ' ' :: ' ' :: opnC :: Y) = none := by
            rw [seamMatch]
            have hdrop : ('\n' :: ' ' :: ' ' :: opnC :: Y).dropWhile isPyWs = opnC :: Y := by
              rw [List.dropWhile_cons, if_pos (by decide)]
              rw [List.dropWhile_cons, if_pos (by decide)]
              rw [List.dropWhile_cons, if_pos (by decide)]
              rw [List.dropWhile_cons, if_neg (by simp [h3])]
            rw [hdrop]
            by_cases hin : '\n' ∈ ('\n' :: ' ' :: ' ' :: opnC :: Y).takeWhile isPyWs
            · rw [if_pos hin]
              simp [h1]
            · rw [if_neg hin]
          rw [subSeamF_miss opn repl f hm]
          have := IH Y f (by simp) hY (by simp at hf ⊢; omega)
          simp only [List.nil_append] at this
          rw [this]
        | d :: X2, hXt, hf =>
          simp only [List.cons_append]
          by_cases hd : d = ','
          · subst hd
            have hnlX2 : '\n' ∉ X2 := fun h => hXt (by simp [h])
            have hm : seamMatch opn (X2 ++ ',' :: '\n' :: ' ' :: ' ' :: opnC :: Y) = none :=
              seamMatch_none opn hnlX2 (by decide)
            rw [subSeamF_miss opn repl f hm]
            have := IH Y f hXt hY (by simp at hf ⊢; omega)
            simp only [List.cons_append] at this
            rw [this]
          · rw [subSeamF_brk_other opn repl f _ hd]
            have := IH Y f hXt hY (by simp at hf ⊢; omega)
            simp only [List.cons_append] at this
            rw [this]
      · rw [subSeamF_other opn repl f _ ha]
        rw [IH Y f hXt hY (by simp at hf ⊢; omega)]

theorem splitGo_cons (opn : Char) (f : Nat) (acc : Chars) (c : Char) (t : Chars) :
    splitGo opn (f + 1) acc (c :: t) =
      (if c = ']' then
        match t with
        | [] => [(']' :: acc).reverse]
        | d :: t2 =>
          if d = ',' then
            match seamMatch opn t2 with
            | some r => acc.reverse :: splitGo opn f [] r
            | none => splitGo opn f (']' :: acc) t
          else splitGo opn f (']' :: acc) t
      else splitGo opn f (c :: acc) t) := by
  conv_lhs => rw [splitGo.eq_def]
  rfl

theorem splitGo_other {c : Char} (opn : Char) (f : Nat) (acc t : Chars) (hc : c ≠ ']') :
    splitGo opn (f + 1) acc (c :: t) = splitGo opn f (c :: acc) t := by
  rw [splitGo_cons, if_neg hc]

theorem splitGo_brk_nil (opn : Char) (f : Nat) (acc : Chars) :
    splitGo opn (f + 1) acc [']'] = [(']' :: acc).reverse] := by
  rw [splitGo_cons]
  simp

theorem splitGo_brk_other {d : Char} (opn : Char) (f : Nat) (acc t2 : Chars) (hd : d ≠ ',') :
    splitGo opn (f + 1) acc (']' :: d :: t2) = splitGo opn f (']' :: acc) (d :: t2) := by
  rw [splitGo_cons]
  simp [hd]

theorem splitGo_hit (opn : Char) (f : Nat) (acc : Chars) {t2 r : Chars}
    (hm : seamMatch opn t2 = some r) :
    splitGo opn (f + 1) acc (']' :: ',' :: t2) = acc.reverse :: splitGo opn f [] r := by
  rw [splitGo_cons]
  simp [hm, Char.reduceEq]

theorem splitGo_miss (opn : Char) (f : Nat) (acc : Chars) {t2 : Chars}
    (hm : seamMatch opn t2 = none) :
    splitGo opn (f + 1) acc (']' :: ',' :: t2) = splitGo opn f (']' :: acc) (',' :: t2) := by
  rw [splitGo_cons]
  simp [hm, Char.reduceEq]

theorem splitGo_no_nl (opn : Char) :
    ∀ (f : Nat) (s acc : Chars), '\n' ∉ s → s.length ≤ f →
      splitGo opn f acc s = [acc.reverse ++ s] := by
  intro f
  induction f with
  | zero =>
    intro s acc _ hl
    match s, hl with
    | [], _ => simp [splitGo]
  | succ f IH =>
    intro s acc hnl hl
    match s with
    | [] => simp [splitGo]
    | c :: t =>
      have hnlt : '\n' ∉ t := fun h => hnl (by simp [h])
      by_cases hc : c = ']'
      · subst hc
        match t with
        | [] =>
          rw [splitGo_brk_nil]
          simp
        | d :: t2 =>
          by_cases hd : d = ','
          · subst hd
            have hm : seamMatch opn t2 = none := by
              rw [seamMatch]
              rw [if_neg (nl_not_mem_takeWhile (fun h => hnlt (by simp [h])))]
            rw [splitGo_miss opn f acc hm]
            rw [IH (',' :: t2) (']' :: acc) hnlt (by simpa using Nat.lt_succ_iff.mp hl)]
            simp
          · rw [splitGo_brk_other opn f acc t2 hd]
            rw [IH (d :: t2) (']' :: acc) hnlt (by simp at hl ⊢; omega)]
            simp
      · rw [splitGo_other opn f acc t hc]
        rw [IH t (c :: acc) hnlt (by simp at hl ⊢; omega)]
        simp

theorem splitGo_through (opn : Char) (hopn : isPyWs opn = false) :
    ∀ (P : Chars) (Q acc : Chars) (f : Nat), '\n' ∉ P → '\n' ∉ Q →
      P.length + Q.length + 4 ≤ f →
      splitGo opn f acc (P ++ ']' :: ',' :: '\n' :: opn :: Q) =
        [acc.reverse ++ P, Q] := by
  intro P
  induction P with
  | nil =>
    intro Q acc f _ hQ hf
    match f, hf with
    | f + 1, hf =>
      simp only [List.nil_append]
      rw [splitGo_hit opn f acc (seamMatch_hit opn Q hopn)]
      rw [splitGo_no_nl opn f Q [] hQ (by simp at hf; omega)]
      simp
  | cons a P IH =>
    intro Q acc f hP hQ hf
    have hPt : '\n' ∉ P := fun h => hP (by simp [h])
    match f, hf with
    | f + 1, hf =>
      simp only [List.cons_append]
      by_cases ha : a = ']'
      · subst ha
        match P, hPt, hf with
        | [], _, hf =>
          simp only [List.nil_append]
          rw [splitGo_brk_other opn f acc _ (by decide : (']' : Char) ≠ ',')]
          have := IH Q (']' :: acc) f (by simp) hQ (by simp at hf ⊢; omega)
          simp only [List.nil_append] at this
          rw [this]
          simp
        | d :: P2, hPt, hf =>
          simp only [List.cons_append]
          by_cases hd : d = ','
          · subst hd
            have hnlP2 : '\n' ∉ P2 := fun h => hPt (by simp [h])
            have hm : seamMatch opn (P2 ++ ']' :: ',' :: '\n' :: opn :: Q) = none :=
              seamMatch_none opn hnlP2 (by decide)
            rw [splitGo_miss opn f acc hm]
            have := IH Q (']' :: acc) f hPt hQ (by simp at hf ⊢; omega)
            simp only [List.cons_append] at this
            rw [this]
            simp
          · rw [splitGo_brk_other opn f acc _ hd]
            have := IH Q (']' :: acc) f hPt hQ (by simp at hf ⊢; omega)
            simp only [List.cons_append] at this
            rw [this]
            simp
      · rw [splitGo_other opn f acc _ ha]
        rw [IH Q (a :: acc) f hPt hQ (by simp at hf ⊢; omega)]
        simp

/-! ## Loader correctness on seam-concatenated canonical arrays -/

theorem pyLstrip_cons {c : Char} (t : Chars) (h : isPyWs c = false) :
    pyLstrip (c :: t) = c :: t := by
  simp [pyLstrip, h]

theorem pyRstrip_concat {c : Char} (t : Chars) (h : isPyWs c = false) :
    pyRstrip (t ++ [c]) = t ++ [c] := by
  rw [pyRstrip, List.reverse_append]
  simp only [List.reverse_cons, List.reverse_nil, List.nil_append, List.cons_append,
    List.nil_append]
  rw [pyLstrip_cons _ h]
  simp

theorem pyStrip_sandwich {a b : Char} (m : Chars) (ha : isPyWs a = false)
    (hb : isPyWs b = false) : pyStrip (a :: (m ++ [b])) = a :: (m ++ [b]) := by
  rw [pyStrip, pyLstrip_cons _ ha]
  have : a :: (m ++ [b]) = (a :: m) ++ [b] := by simp
  rw [this, pyRstrip_concat _ hb]

theorem skipWs_ws_append {W : Chars} (Z : Chars) (hW : ∀ c ∈ W, isJWs c = true) :
    skipWs (W ++ Z) = skipWs Z := by
  induction W with
  | nil => simp
  | cons c W ih =>
    simp only [List.cons_append, skipWs]
    rw [if_pos (hW c (by simp))]
    exact ih (fun x hx => hW x (by simp [hx]))

/-- `json.loads` fails on a serialised value followed by a comma and more
text: the trailing text is not whitespace. -/
theorem loads_ser_comma (j : Json) (hck : canonKeys j = true) (rest2 : Chars) :
    loads (ser j ++ ',' :: rest2) = none := by
  obtain ⟨c, t, hct, hws, _, _⟩ := ser_head j
  have hskip : skipWs (ser j ++ ',' :: rest2) = ser j ++ ',' :: rest2 := by
    rw [hct]
    simp only [List.cons_append]
    rw [skipWs_cons _ hws]
  have hfuel : sizeJ j ≤ (ser j ++ ',' :: rest2).length + 1 := by
    have h1 := sizeJ_le_serLen j
    simp only [List.length_append, List.length_cons]
    omega
  have hp := parseVal_ser j ((ser j ++ ',' :: rest2).length + 1) hck hfuel
    (',' :: rest2) (NonDigitHead_cons _ (by decide))
  have h2 : skipWs (',' :: rest2) = ',' :: rest2 := skipWs_cons _ (by decide)
  rw [loads, hskip, hp]
  simp [h2]

theorem parseVal_comma (f : Nat) (r : Chars) : parseVal f (',' :: r) = none := by
  match f with
  | 0 => rfl
  | f + 1 =>
    have hobr : ¬ ((',' : Char) = obr) := by decide
    have hdig : isDigitC ',' = false := by decide
    simp [parseVal, Char.reduceEq, hobr, hdig]

theorem parseItems1_comma (pv : Chars → Option (Json × Chars)) (g : Nat) (r : Chars)
    (hpv : pv (',' :: r) = none) : parseItems1 pv g (',' :: r) = none := by
  match g with
  | 0 => rfl
  | g + 1 => simp only [parseItems1, hpv]

/-- Parsing two serialised element lists glued by a comma and whitespace
(the shape the repair pass produces) yields the concatenation. -/
theorem parseItems1_glue (pv : Chars → Option (Json × Chars)) :
    ∀ (xs : List Json) (ys : List Json) (W : Chars) (g : Nat) (rest : Chars),
      xs ≠ [] → ys ≠ [] → (∀ c ∈ W, isJWs c = true) →
      xs.length + ys.length ≤ g →
      (∀ x ∈ xs ++ ys, ∀ r2 : Chars, NonDigitHead r2 → pv (ser x ++ r2) = some (x, r2)) →
      NonDigitHead rest →
      parseItems1 pv g (serElems xs ++ ',' :: (W ++ (serElems ys ++ ']' :: rest))) =
        some (xs ++ ys, rest) := by
  intro xs
  induction xs with
  | nil =>
    intro ys W g rest h
    exact absurd rfl h
  | cons x xs ih =>
    intro ys W g rest _ hys hW hlen hpv hrest
    match g with
    | 0 =>
      exfalso
      simp only [List.length_cons] at hlen
      omega
    | g + 1 =>
      cases xs with
      | nil =>
        have hse : serElems [x] = ser x := rfl
        rw [hse]
        have h1 := hpv x (by simp) (',' :: (W ++ (serElems ys ++ ']' :: rest)))
          (NonDigitHead_cons _ (by decide))
        have h2 : skipWs (',' :: (W ++ (serElems ys ++ ']' :: rest))) =
            ',' :: (W ++ (serElems ys ++ ']' :: rest)) := skipWs_cons _ (by decide)
        obtain ⟨y, ys2, rfl⟩ := List.exists_cons_of_ne_nil hys
        obtain ⟨c0, t0, hc0, hws0, _⟩ := serElems_head y ys2
        have hskip : skipWs (W ++ (serElems (y :: ys2) ++ ']' :: rest)) =
            serElems (y :: ys2) ++ ']' :: rest := by
          rw [skipWs_ws_append _ hW, hc0]
          simp only [List.cons_append]
          rw [skipWs_cons _ hws0]
        have h3 := parseItems1_ser pv (y :: ys2) g rest (by simp)
          (by simp only [List.length_cons] at hlen ⊢; omega)
          (fun z hz => hpv z (by simp [hz])) hrest
        simp only [parseItems1, h1, h2, hskip, h3, List.singleton_append]
      | cons x2 xs2 =>
        have hse : serElems (x :: x2 :: xs2) = ser x ++ ',' :: serElems (x2 :: xs2) := rfl
        rw [hse, List.append_assoc]
        have h1 := hpv x (by simp)
          (',' :: (serElems (x2 :: xs2) ++ ',' :: (W ++ (serElems ys ++ ']' :: rest))))
          (NonDigitHead_cons _ (by decide))
        have h2 : skipWs
            (',' :: (serElems (x2 :: xs2) ++ ',' :: (W ++ (serElems ys ++ ']' :: rest)))) =
            ',' :: (serElems (x2 :: xs2) ++ ',' :: (W ++ (serElems ys ++ ']' :: rest))) :=
          skipWs_cons _ (by decide)
        obtain ⟨c0, t0, hc0, hws0, _⟩ := serElems_head x2 xs2
        have hskip : skipWs (serElems (x2 :: xs2) ++ ',' :: (W ++ (serElems ys ++ ']' :: rest))) =
            serElems (x2 :: xs2) ++ ',' :: (W ++ (serElems ys ++ ']' :: rest)) := by
          rw [hc0]
          simp only [List.cons_append]
          rw [skipWs_cons _ hws0]
        have h3 := ih ys W g rest (by simp) hys hW
          (by simp only [List.length_cons] at hlen ⊢; omega)
          (fun z hz => hpv z (by
            simp only [List.mem_append, List.mem_cons] at hz ⊢
            tauto)) hrest
        simp only [List.cons_append, parseItems1, h1, h2, hskip, h3]

theorem getLast?_concat_single {c : Char} (t : Chars) : (t ++ [c]).getLast? = some c := by
  induction t with
  | nil => rfl
  | cons a t ih =>
    cases t with
    | nil => rfl
    | cons b t => simpa using ih

/-- The second array of a repaired file parses when prefixed with `[` and
glued whitespace: repaired content parses as the single merged array. -/
theorem loads_arr_glue (xs ys : List Json) (hx : xs ≠ []) (hy : ys ≠ [])
    (hckx : canonKeys (.arr xs) = true) (hcky : canonKeys (.arr ys) = true) :
    loads ('[' :: (serElems xs ++ ',' :: (['\n', ' ', ' '] ++ (serElems ys ++ ']' :: [])))) =
      some (.arr (xs ++ ys)) := by
  obtain ⟨x, xs', rfl⟩ := List.exists_cons_of_ne_nil hx
  obtain ⟨y, ys', rfl⟩ := List.exists_cons_of_ne_nil hy
  obtain ⟨c0, t0, hc0, hws0, hbr0⟩ := serElems_head x xs'
  have hckxL : canonKeysL (x :: xs') = true := hckx
  have hckyL : canonKeysL (y :: ys') = true := hcky
  have hsx := serElems_len_ge (x :: xs') (fun z _ => sizeJ_le_serLen z)
  have hsy := serElems_len_ge (y :: ys') (fun z _ => sizeJ_le_serLen z)
  have hlx := len_le_sizeL (x :: xs')
  have hly := len_le_sizeL (y :: ys')
  have hskipS : skipWs ('[' :: (serElems (x :: xs') ++ ',' ::
      (['\n', ' ', ' '] ++ (serElems (y :: ys') ++ ']' :: [])))) =
      '[' :: (serElems (x :: xs') ++ ',' ::
      (['\n', ' ', ' '] ++ (serElems (y :: ys') ++ ']' :: []))) := skipWs_cons _ (by decide)
  have hskipI : skipWs (serElems (x :: xs') ++ ',' ::
      (['\n', ' ', ' '] ++ (serElems (y :: ys') ++ ']' :: []))) =
      serElems (x :: xs') ++ ',' ::
      (['\n', ' ', ' '] ++ (serElems (y :: ys') ++ ']' :: [])) := by
    rw [hc0]
    simp only [List.cons_append]
    rw [skipWs_cons _ hws0]
  have hconsI : serElems (x :: xs') ++ ',' ::
      (['\n', ' ', ' '] ++ (serElems (y :: ys') ++ ']' :: [])) =
      c0 :: (t0 ++ ',' :: (['\n', ' ', ' '] ++ (serElems (y :: ys') ++ ']' :: []))) := by
    rw [hc0]
    simp
  have hglue := parseItems1_glue
    (parseVal (('[' :: (serElems (x :: xs') ++ ',' ::
      (['\n', ' ', ' '] ++ (serElems (y :: ys') ++ ']' :: [])))).length))
    (x :: xs') (y :: ys') ['\n', ' ', ' ']
    (('[' :: (serElems (x :: xs') ++ ',' ::
      (['\n', ' ', ' '] ++ (serElems (y :: ys') ++ ']' :: [])))).length)
    [] (by simp) (by simp) (by decide)
    (by
      simp only [List.length_cons, List.length_append, List.length_nil] at hlx hly ⊢
      omega)
    (fun z hz r2 hr2 => by
      rcases List.mem_append.mp hz with h | h
      · exact parseVal_ser z _ (canonKeysL_mem h hckxL)
          (by
            have h1 : sizeJ z ≤ sizeL (x :: xs') := sizeJ_le_sizeL h
            simp only [List.length_cons, List.length_append, List.length_nil]
            omega) r2 hr2
      · exact parseVal_ser z _ (canonKeysL_mem h hckyL)
          (by
            have h1 : sizeJ z ≤ sizeL (y :: ys') := sizeJ_le_sizeL h
            simp only [List.length_cons, List.length_append, List.length_nil]
            omega) r2 hr2)
    NonDigitHead_nil
  rw [loads, hskipS, parseVal_bracket]
  simp only [hskipI]
  simp only [hconsI]
  rw [if_neg hbr0]
  rw [← hconsI, hglue]
  simp [skipWs]

/-- A lone `[` followed by the once-repaired seam text does not parse. -/
theorem loads_fixed_empty (Q : Chars) :
    loads ('[' :: ',' :: '\n' :: ' ' :: ' ' :: obr :: Q) = none := by
  have h0 : skipWs ('[' :: ',' :: '\n' :: ' ' :: ' ' :: obr :: Q) =
      '[' :: ',' :: '\n' :: ' ' :: ' ' :: obr :: Q := skipWs_cons _ (by decide)
  have hpv : parseVal (('[' :: ',' :: '\n' :: ' ' :: ' ' :: obr :: Q).length + 1)
      ('[' :: ',' :: '\n' :: ' ' :: ' ' :: obr :: Q) = none := by
    rw [parseVal_bracket]
    have h1 : skipWs (',' :: '\n' :: ' ' :: ' ' :: obr :: Q) =
        ',' :: '\n' :: ' ' :: ' ' :: obr :: Q := skipWs_cons _ (by decide)
    simp only [h1]
    rw [if_neg (by decide : ¬ (',' : Char) = ']')]
    rw [parseItems1_comma _ _ _ (parseVal_comma _ _)]
    rfl
  rw [loads, h0, hpv]

/-- Core loader equation: the canonical text of one JSON array, a `,\n`
seam, and the text of a second array with its opening bracket dropped (its
first element an object) load as the concatenation of the two arrays'
elements. -/
theorem loadContent_seam (xs : List Json) (o : List (Chars × Json)) (ys' : List Json)
    (hckx : canonKeys (.arr xs) = true)
    (hcky : canonKeys (.arr (.obj o :: ys')) = true) :
    loadContent (ser (.arr xs) ++ ',' :: '\n' :: (ser (.arr (.obj o :: ys'))).drop 1) =
      xs ++ (Json.obj o :: ys') := by
  obtain ⟨R, hR⟩ : ∃ R, serElems (Json.obj o :: ys') = obr :: R := by
    cases ys' with
    | nil => exact ⟨serFields o ++ [cbr], rfl⟩
    | cons z zs =>
      refine ⟨(serFields o ++ [cbr]) ++ ',' :: serElems (z :: zs), ?_⟩
      show ser (Json.obj o) ++ ',' :: serElems (z :: zs) = _
      rw [show ser (Json.obj o) = obr :: (serFields o ++ [cbr]) from rfl]
      simp
  have hnlR : '\n' ∉ R := fun h =>
    nl_not_mem_serElems (Json.obj o :: ys') (by rw [hR]; simp [h])
  have hnlP : '\n' ∉ '[' :: serElems xs := by
    intro h
    rcases List.mem_cons.mp h with h1 | h1
    · exact absurd h1 (by decide)
    · exact nl_not_mem_serElems xs h1
  have hnlQ : '\n' ∉ R ++ [']'] := by
    intro h
    rcases List.mem_append.mp h with h1 | h1
    · exact hnlR h1
    · exact absurd (List.mem_singleton.mp h1) (by decide)
  have hcontent : ser (Json.arr xs) ++ ',' :: '\n' :: (ser (Json.arr (Json.obj o :: ys'))).drop 1 =
      ('[' :: serElems xs) ++ ']' :: ',' :: '\n' :: obr :: (R ++ [']']) := by
    rw [show ser (Json.arr xs) = '[' :: (serElems xs ++ [']']) from rfl,
      show ser (Json.arr (Json.obj o :: ys')) = '[' :: (serElems (Json.obj o :: ys') ++ [']']) from rfl,
      hR]
    simp
  rw [hcontent]
  have h1 : pyStrip (('[' :: serElems xs) ++ ']' :: ',' :: '\n' :: obr :: (R ++ [']'])) =
      ('[' :: serElems xs) ++ ']' :: ',' :: '\n' :: obr :: (R ++ [']']) := by
    have hm : ('[' :: serElems xs) ++ ']' :: ',' :: '\n' :: obr :: (R ++ [']']) =
        '[' :: ((serElems xs ++ ']' :: ',' :: '\n' :: obr :: R) ++ [']']) := by simp
    rw [hm, pyStrip_sandwich _ (by decide) (by decide)]
  have h2 : loads (('[' :: serElems xs) ++ ']' :: ',' :: '\n' :: obr :: (R ++ [']'])) = none := by
    have he : ser (Json.arr xs) ++ ',' :: '\n' :: obr :: (R ++ [']']) =
        ('[' :: serElems xs) ++ ']' :: ',' :: '\n' :: obr :: (R ++ [']']) := by
      rw [show ser (Json.arr xs) = '[' :: (serElems xs ++ [']']) from rfl]
      simp
    rw [← he]
    exact loads_ser_comma (.arr xs) hckx ('\n' :: obr :: (R ++ [']']))
  have h3 : fixedContent (('[' :: serElems xs) ++ ']' :: ',' :: '\n' :: obr :: (R ++ [']'])) =
      ('[' :: serElems xs) ++ ',' :: '\n' :: ' ' :: ' ' :: obr :: (R ++ [']']) := by
    rw [fixedContent]
    have hsub1 : subSeam obr replBrace
        (('[' :: serElems xs) ++ ']' :: ',' :: '\n' :: obr :: (R ++ [']'])) =
        ('[' :: serElems xs) ++ ',' :: '\n' :: ' ' :: ' ' :: obr :: (R ++ [']']) := by
      rw [subSeam]
      rw [subSeamF_through obr replBrace (by decide) ('[' :: serElems xs) (R ++ [']']) _
        hnlP hnlQ (by simp only [List.length_cons, List.length_append, List.length_nil]; omega)]
      simp [replBrace]
    rw [hsub1, subSeam]
    exact subSeamF_skip '[' replBracket obr (by decide) (by decide) (by decide)
      ('[' :: serElems xs) (R ++ [']']) _ hnlP hnlQ
      (by simp only [List.length_cons, List.length_append, List.length_nil]; omega)
  cases xs with
  | nil =>
    show loadContent (['['] ++ ']' :: ',' :: '\n' :: obr :: (R ++ [']'])) = Json.obj o :: ys'
    have h1' : pyStrip (['['] ++ ']' :: ',' :: '\n' :: obr :: (R ++ [']'])) =
        ['['] ++ ']' :: ',' :: '\n' :: obr :: (R ++ [']']) := h1
    have h2' : loads (['['] ++ ']' :: ',' :: '\n' :: obr :: (R ++ [']'])) = none := h2
    have h4 : loads (fixedContent (['['] ++ ']' :: ',' :: '\n' :: obr :: (R ++ [']']))) = none := by
      have h3' : fixedContent (['['] ++ ']' :: ',' :: '\n' :: obr :: (R ++ [']'])) =
          '[' :: ',' :: '\n' :: ' ' :: ' ' :: obr :: (R ++ [']']) := h3
      rw [h3']
      exact loads_fixed_empty (R ++ [']'])
    have h5 : splitSeam obr (['['] ++ ']' :: ',' :: '\n' :: obr :: (R ++ [']'])) =
        [['['], R ++ [']']] := by
      rw [splitSeam]
      have := splitGo_through obr (by decide) ['['] (R ++ [']']) []
        ((['['] ++ ']' :: ',' :: '\n' :: obr :: (R ++ [']'])).length + 1)
        (by decide) hnlQ
        (by simp only [List.length_cons, List.length_append, List.length_nil]; omega)
      simpa using this
    have hpatch : patchParts [['['], R ++ [']']] =
        [['[', ']'], '[' :: obr :: (R ++ [']'])] := by
      have hr0 : pyRstrip ['['] = ['['] := pyRstrip_concat [] (by decide)
      have hrq : pyRstrip ('[' :: obr :: (R ++ [']'])) = '[' :: obr :: (R ++ [']']) :=
        pyRstrip_concat ('[' :: obr :: R) (by decide)
      have hlast : ('[' :: obr :: (R ++ [']'])).getLast? = some ']' :=
        getLast?_concat_single ('[' :: obr :: R)
      simp only [patchParts, List.map, hr0, hrq, hlast]
      simp
    have hcollect : collectParts [['[', ']'], '[' :: obr :: (R ++ [']'])] =
        Json.obj o :: ys' := by
      have hs1 : pyStrip ['[', ']'] = ['[', ']'] :=
        pyStrip_sandwich [] (by decide) (by decide)
      have hs2 : pyStrip ('[' :: obr :: (R ++ [']'])) = '[' :: obr :: (R ++ [']']) :=
        pyStrip_sandwich (obr :: R) (by decide) (by decide)
      have hl1 : loads ['[', ']'] = some (.arr []) := loads_ser (.arr []) rfl
      have hl2 : loads ('[' :: obr :: (R ++ [']'])) =
          some (.arr (Json.obj o :: ys')) := by
        have he2 : ('[' : Char) :: obr :: (R ++ [']']) =
            ser (.arr (Json.obj o :: ys')) := by
          rw [show ser (Json.arr (Json.obj o :: ys')) =
            '[' :: (serElems (Json.obj o :: ys') ++ [']']) from rfl, hR]
          simp
        rw [he2]
        exact loads_ser _ hcky
      simp only [collectParts, List.foldl, hs1, hs2, hl1, hl2]
      simp
    simp only [loadContent, h1', h2', h4, h5, hpatch, hcollect, List.length_cons,
      List.length_nil]
    simp
  | cons x xs' =>
    have h4 : loads (fixedContent (('[' :: serElems (x :: xs')) ++
        ']' :: ',' :: '\n' :: obr :: (R ++ [']']))) =
        some (.arr ((x :: xs') ++ (Json.obj o :: ys'))) := by
      rw [h3]
      have hshape : ('[' :: serElems (x :: xs')) ++
          ',' :: '\n' :: ' ' :: ' ' :: obr :: (R ++ [']']) =
          '[' :: (serElems (x :: xs') ++ ',' ::
            (['\n', ' ', ' '] ++ (serElems (Json.obj o :: ys') ++ ']' :: []))) := by
        rw [hR]
        simp
      rw [hshape]
      exact loads_arr_glue (x :: xs') (Json.obj o :: ys') (by simp) (by simp) hckx hcky
    simp only [loadContent, h1, h2, h4]

/-! ## Claims C2 and C3 -/

/-- C2 (amended): the Report Loader returns an empty sequence for a missing
file, and returns normally (never raises past its boundary) for every file
it can read; the parse step catches every `JSONDecodeError` internally.
(The original claim also covered unreadable files; see the counterexample:
`open` sits outside every `try`, so an unreadable file raises `IOError`.) -/
theorem C2_loader_boundary :
    load_json_file .missing = .ok [] ∧
    ∀ content : Chars, ∃ reports, load_json_file (.readable content) = .ok reports :=
  ⟨rfl, fun content => ⟨loadContent content, rfl⟩⟩

/-- C2 counterexample: an existing but unreadable file makes `open` raise
`IOError`, and no `try` in `load_json_file` guards the `open` call, so the
error escapes the loader's boundary instead of yielding `[]`. -/
theorem C2_counterexample : load_json_file .unreadable = .error .ioError := rfl

/-- C3 (amended): for a file whose content is the compact canonical text of
one JSON array, the seam `,\n`, and the text of a second canonical array
with its leading `[` dropped (so the file contains the seam pattern
`],\n\x7b`), where the second array starts with an object and all object keys
are duplicate-free, the loader returns the elements of the first array
followed by the elements of the second, order preserved. -/
theorem C3_seam_concatenation (xs ys : List Json) (o : List (Chars × Json)) (ys' : List Json)
    (hys : ys = .obj o :: ys')
    (hckx : canonKeys (.arr xs) = true) (hcky : canonKeys (.arr ys) = true) :
    load_json_file (.readable (ser (.arr xs) ++ ',' :: '\n' :: (ser (.arr ys)).drop 1)) =
      .ok (xs ++ ys) := by
  subst hys
  simp only [load_json_file]
  rw [loadContent_seam xs o ys' hckx hcky]

theorem C3_seam_concatenation_witness :
    load_json_file (.readable (ser (.arr [.num 1]) ++ ',' :: '\n' ::
      (ser (.arr [.obj [(cs "y", .num 3)]])).drop 1)) =
      .ok ([.num 1] ++ [.obj [(cs "y", .num 3)]]) :=
  C3_seam_concatenation [.num 1] [.obj [(cs "y", .num 3)]] [(cs "y", .num 3)] [] rfl
    (by decide) (by decide)

/-- C3 counterexample to the unrestricted claim: the file
`[[1],\n\x7b"x":2\x7d],\n\x7b"y":3\x7d]` is two valid JSON arrays
(`[[1],\n\x7b"x":2\x7d]` and `[\x7b"y":3\x7d]`) concatenated with the seam
pattern `],\n\x7b`, yet the loader returns only the second array's element:
the first array's own internal `],\n\x7b` seam derails both repair passes. -/
theorem C3_counterexample :
    load_json_file (.readable (cs "[[1],\n\x7b\"x\":2\x7d],\n\x7b\"y\":3\x7d]")) =
      .ok [.obj [(cs "y", .num 3)]] ∧
    [Json.obj [(cs "y", .num 3)]] ≠
      [.arr [.num 1], .obj [(cs "x", .num 2)], .obj [(cs "y", .num 3)]] :=
  ⟨rfl, by decide⟩

/-! ## Dates: the `datetime` values the scripts handle

`DT` is a naive `datetime.datetime` (year down to microsecond).  The two
library entry points the scripts use, `strptime` (for the two fixed formats)
and `fromisoformat`, are embedded below following CPython's `_strptime`
regexes and the ISO grammar fragment these scripts can produce. -/

structure DT where
  year : Nat
  month : Nat
  day : Nat
  hour : Nat
  minute : Nat
  second : Nat
  micro : Nat
deriving DecidableEq

def isLeap (y : Nat) : Bool := (y % 4 == 0 && y % 100 != 0) || y % 400 == 0

def daysInMonth (y m : Nat) : Nat :=
  if m = 2 then (if isLeap y then 29 else 28)
  else if m = 4 || m = 6 || m = 9 || m = 11 then 30
  else 31

/-- The constructor checks of `datetime.datetime` (`MINYEAR = 1`,
`MAXYEAR = 9999`, real calendar days, second below 60). -/
def validDT (d : DT) : Bool :=
  1 ≤ d.year && d.year ≤ 9999 && 1 ≤ d.month && d.month ≤ 12 &&
  1 ≤ d.day && d.day ≤ daysInMonth d.year d.month &&
  d.hour ≤ 23 && d.minute ≤ 59 && d.second ≤ 59 && d.micro ≤ 999999

/-- Zero-padded decimal rendering of width `w`. -/
def padNat (w n : Nat) : Chars :=
  List.replicate (w - (natChars n).length) '0' ++ natChars n

/-- `datetime.isoformat()`: `YYYY-MM-DDTHH:MM:SS`, with `.ffffff` appended
exactly when the microsecond field is nonzero. -/
def isoDT (d : DT) : Chars :=
  padNat 4 d.year ++ '-' :: (padNat 2 d.month ++ '-' :: (padNat 2 d.day ++ 'T' ::
    (padNat 2 d.hour ++ ':' :: (padNat 2 d.minute ++ ':' :: (padNat 2 d.second ++
      (if d.micro = 0 then [] else '.' :: padNat 6 d.micro))))))

/-- `strftime("%Y.%m")`, as the import script names its monthly indices. -/
def strftimeYM (d : DT) : Chars := padNat 4 d.year ++ '.' :: padNat 2 d.month

/-- `strftime("%Y-%m-%dT%H:%M:%SZ")`, the classifier's range bound. -/
def strftimeQ (d : DT) : Chars :=
  padNat 4 d.year ++ '-' :: (padNat 2 d.month ++ '-' :: (padNat 2 d.day ++ 'T' ::
    (padNat 2 d.hour ++ ':' :: (padNat 2 d.minute ++ ':' :: (padNat 2 d.second ++ ['Z'])))))

def digitVal (c : Char) : Nat := c.toNat - 48

/-- Exactly four digits: the `%Y` directive of `_strptime`. -/
def p4d : Chars → Option (Nat × Chars)
  | a :: b :: c :: d :: r =>
    if isDigitC a && isDigitC b && isDigitC c && isDigitC d then
      some (1000 * digitVal a + 100 * digitVal b + 10 * digitVal c + digitVal d, r)
    else none
  | _ => none

/-- Exactly two digits, as `fromisoformat` requires of every field after
the year. -/
def p2d : Chars → Option (Nat × Chars)
  | a :: b :: r =>
    if isDigitC a && isDigitC b then some (10 * digitVal a + digitVal b, r) else none
  | _ => none

/-- One or two digits as `_strptime`'s numeric directives match them: a
two-digit match must satisfy `twoOK` (the union of the regex's two-digit
alternatives), otherwise a single digit satisfying `oneOK` is taken.  No
backtracking is needed: after a one-digit match the next character must be
the format's separator, which a digit never is. -/
def p2or1 (twoOK oneOK : Nat → Bool) : Chars → Option (Nat × Chars)
  | a :: b :: r =>
    if isDigitC a then
      if isDigitC b && twoOK (10 * digitVal a + digitVal b) then
        some (10 * digitVal a + digitVal b, r)
      else if oneOK (digitVal a) then some (digitVal a, b :: r)
      else none
    else none
  | [a] => if isDigitC a && oneOK (digitVal a) then some (digitVal a, []) else none
  | [] => none

def expectC (c : Char) : Chars → Option Chars
  | d :: r => if d = c then some r else none
  | [] => none

/-- `datetime.strptime(s, "%Y-%m-%d %H:%M:%S")`.  `%S`'s regex also admits
the leap seconds 60 and 61, which the `datetime` constructor then rejects
with the same `ValueError` a match failure raises, so they are folded into
the match here. -/
def strptimeFmt1 (s : Chars) : Option DT := do
  let (y, r1) ← p4d s
  let r2 ← expectC '-' r1
  let (mo, r3) ← p2or1 (fun v => 1 ≤ v && v ≤ 12) (fun v => 1 ≤ v && v ≤ 9) r2
  let r4 ← expectC '-' r3
  let (dy, r5) ← p2or1 (fun v => 1 ≤ v && v ≤ 31) (fun v => 1 ≤ v && v ≤ 9) r4
  let r6 ← expectC ' ' r5
  let (h, r7) ← p2or1 (fun v => v ≤ 23) (fun _ => true) r6
  let r8 ← expectC ':' r7
  let (mi, r9) ← p2or1 (fun v => v ≤ 59) (fun _ => true) r8
  let r10 ← expectC ':' r9
  let (se, r11) ← p2or1 (fun v => v ≤ 59) (fun _ => true) r10
  if r11 = [] then
    let d : DT := ⟨y, mo, dy, h, mi, se, 0⟩
    if validDT d then some d else none
  else none

/-- `datetime.strptime(s, "%Y-%m-%d")`, used on `begin_date.split()[0]` when
naming the destination index. -/
def strptimeDateOnly (s : Chars) : Option DT := do
  let (y, r1) ← p4d s
  let r2 ← expectC '-' r1
  let (mo, r3) ← p2or1 (fun v => 1 ≤ v && v ≤ 12) (fun v => 1 ≤ v && v ≤ 9) r2
  let r4 ← expectC '-' r3
  let (dy, r5) ← p2or1 (fun v => 1 ≤ v && v ≤ 31) (fun v => 1 ≤ v && v ≤ 9) r4
  if r5 = [] then
    let d : DT := ⟨y, mo, dy, 0, 0, 0, 0⟩
    if validDT d then some d else none
  else none

/-- One to six fractional-second digits, returning the remainder. -/
def pFrac (s : Chars) : Option Chars :=
  let ds := s.takeWhile isDigitC
  if ds.length = 0 || 6 < ds.length then none else some (s.dropWhile isDigitC)

/-- The `HH[:MM[:SS[.f]]]` core of an ISO time. -/
def pTimeCore (s : Chars) : Option ((Nat × Nat × Nat) × Chars) := do
  let (h, r1) ← p2d s
  match expectC ':' r1 with
  | none => some ((h, 0, 0), r1)
  | some r2 => do
    let (mi, r3) ← p2d r2
    match expectC ':' r3 with
    | none => some ((h, mi, 0), r3)
    | some r4 => do
      let (se, r5) ← p2d r4
      match r5 with
      | '.' :: r6 => do
        let r7 ← pFrac r6
        some ((h, mi, se), r7)
      | _ => some ((h, mi, se), r5)

/-- An optional `±HH:MM[:SS]` timezone suffix. -/
def pTzSuffix : Chars → Option Chars
  | [] => some []
  | c :: r1 =>
    if c = '+' || c = '-' then
      match p2d r1 with
      | none => none
      | some (oh, r2) =>
        match expectC ':' r2 with
        | none => none
        | some r3 =>
          match p2d r3 with
          | none => none
          | some (om, r4) =>
            if oh ≤ 23 && om ≤ 59 then
              match expectC ':' r4 with
              | none => some r4
              | some r5 =>
                match p2d r5 with
                | none => none
                | some (osec, r6) => if osec ≤ 59 then some r6 else none
            else none
    else none

/-- `datetime.fromisoformat`, restricted to the grammar
`YYYY-MM-DD[<sep>HH[:MM[:SS[.f(1-6)]]][±HH:MM[:SS]]]` with any single
separator character and real calendar validation: the fragment of the
accepted language that this repository's strings exercise. -/
def fromisoOK (s : Chars) : Bool :=
  (do
    let (y, r1) ← p4d s
    let r2 ← expectC '-' r1
    let (mo, r3) ← p2d r2
    let r4 ← expectC '-' r3
    let (dy, r5) ← p2d r4
    match r5 with
    | [] => if validDT ⟨y, mo, dy, 0, 0, 0, 0⟩ then some () else none
    | _ :: rt => do
      let ((h, mi, se), r6) ← pTimeCore rt
      let rEnd ← pTzSuffix r6
      if rEnd = [] && validDT ⟨y, mo, dy, h, mi, se, 0⟩ then some () else none :
    Option Unit).isSome

/-- `date_str.replace('Z', '+00:00')`: every occurrence. -/
def replaceZ : Chars → Chars
  | [] => []
  | c :: t =>
    if c = 'Z' then '+' :: '0' :: '0' :: ':' :: '0' :: '0' :: replaceZ t
    else c :: replaceZ t

/-- `normalize_date`, with the wall clock passed explicitly: an empty
string or any unparseable string becomes `now.isoformat()`; a
`%Y-%m-%d %H:%M:%S` string is re-rendered with `isoformat()`; a string
`fromisoformat` accepts (after `Z` replacement) is returned verbatim. -/
def normalize_date (now : DT) (s : Chars) : Chars :=
  if s = [] then isoDT now
  else
    match strptimeFmt1 s with
    | some d => isoDT d
    | none => if fromisoOK (replaceZ s) then s else isoDT now

/-! ## Transformers -/

/-- First binding of `k` in an association list (Python dicts hold each key
once, so first and last agree on dict-shaped data). -/
def assocFind (kvs : List (Chars × Json)) (k : Chars) : Option Json :=
  match kvs.find? (fun p => p.1 == k) with
  | some p => some p.2
  | none => none

/-- `d.get(k, default)`: a dictionary lookup with default; any non-dict
receiver raises `AttributeError` (it has no `.get`). -/
def pyGet (d : Json) (k : Chars) (dflt : Json) : Except PyErr Json :=
  match d with
  | .obj kvs => .ok ((assocFind kvs k).getD dflt)
  | _ => .error .attributeError

/-- Python truthiness of a JSON value (`if not x`). -/
def falsy : Json → Bool
  | .null => true
  | .bool b => !b
  | .num n => n == 0
  | .str s => s.isEmpty
  | .arr xs => xs.isEmpty
  | .obj kvs => kvs.isEmpty

/-- `normalize_date` applied to whatever `.get` returned: falsy values
(including the `""` default) take the current time, strings are
normalised, and any other truthy value makes `strptime` raise a
`TypeError` that nothing catches (`normalize_date` only catches
`ValueError`). -/
def normalizeJ (now : DT) (j : Json) : Except PyErr Chars :=
  if falsy j then .ok (isoDT now)
  else
    match j with
    | .str s => .ok (normalize_date now s)
    | _ => .error .typeError

/-- `transform_aggregate_record`, with the wall clock explicit and the
built document as an association list in the source's key order. -/
def transform_aggregate_record (now : DT) (report record : Json) :
    Except PyErr (List (Chars × Json)) := do
  let metadata ← pyGet report (cs "report_metadata") (.obj [])
  let policy ← pyGet report (cs "policy_published") (.obj [])
  let source ← pyGet record (cs "source") (.obj [])
  let alignment ← pyGet record (cs "alignment") (.obj [])
  let policy_eval ← pyGet record (cs "policy_evaluated") (.obj [])
  let identifiers ← pyGet record (cs "identifiers") (.obj [])
  let bd1 ← pyGet metadata (cs "begin_date") (.str [])
  let ts ← normalizeJ now bd1
  let report_id ← pyGet metadata (cs "report_id") .null
  let domain ← pyGet policy (cs "domain") .null
  let bd2 ← pyGet metadata (cs "begin_date") (.str [])
  let begin_date ← normalizeJ now bd2
  let ed ← pyGet metadata (cs "end_date") (.str [])
  let end_date ← normalizeJ now ed
  let org_name ← pyGet metadata (cs "org_name") .null
  let org_email ← pyGet metadata (cs "org_email") .null
  let source_ip ← pyGet source (cs "ip_address") .null
  let source_reverse_dns ← pyGet source (cs "reverse_dns") .null
  let source_country ← pyGet source (cs "country") .null
  let source_base_domain ← pyGet source (cs "base_domain") .null
  let source_name ← pyGet source (cs "name") .null
  let source_type ← pyGet source (cs "type") .null
  let count ← pyGet record (cs "count") (.num 0)
  let spf_aligned ← pyGet alignment (cs "spf") (.bool false)
  let dkim_aligned ← pyGet alignment (cs "dkim") (.bool false)
  let dmarc_aligned ← pyGet alignment (cs "dmarc") (.bool false)
  let disposition ← pyGet policy_eval (cs "disposition") .null
  let dkim_result ← pyGet policy_eval (cs "dkim") .null
  let spf_result ← pyGet policy_eval (cs "spf") .null
  let header_from ← pyGet identifiers (cs "header_from") .null
  let envelope_from ← pyGet identifiers (cs "envelope_from") .null
  let envelope_to ← pyGet identifiers (cs "envelope_to") .null
  let ib ← pyGet record (cs "interval_begin") (.str [])
  let interval_begin ← normalizeJ now ib
  let ie ← pyGet record (cs "interval_end") (.str [])
  let interval_end ← normalizeJ now ie
  return [
    (cs "@timestamp", .str ts),
    (cs "report_id", report_id),
    (cs "report_type", .str (cs "aggregate")),
    (cs "domain", domain),
    (cs "begin_date", .str begin_date),
    (cs "end_date", .str end_date),
    (cs "org_name", org_name),
    (cs "org_email", org_email),
    (cs "source_ip", source_ip),
    (cs "source_reverse_dns", source_reverse_dns),
    (cs "source_country", source_country),
    (cs "source_base_domain", source_base_domain),
    (cs "source_name", source_name),
    (cs "source_type", source_type),
    (cs "count", count),
    (cs "spf_aligned", spf_aligned),
    (cs "dkim_aligned", dkim_aligned),
    (cs "dmarc_aligned", dmarc_aligned),
    (cs "disposition", disposition),
    (cs "dkim_result", dkim_result),
    (cs "spf_result", spf_result),
    (cs "header_from", header_from),
    (cs "envelope_from", envelope_from),
    (cs "envelope_to", envelope_to),
    (cs "interval_begin", .str interval_begin),
    (cs "interval_end", .str interval_end),
    (cs "_source_full", .obj [(cs "report", report), (cs "record", record)])]

/-- `transform_forensic_record`, likewise. -/
def transform_forensic_record (now : DT) (report : Json) :
    Except PyErr (List (Chars × Json)) := do
  let metadata ← pyGet report (cs "report_metadata") (.obj [])
  let policy ← pyGet report (cs "policy_published") (.obj [])
  let ad1 ← pyGet metadata (cs "arrival_date") (.str [])
  let ts ← normalizeJ now ad1
  let report_id ← pyGet metadata (cs "report_id") .null
  let domain ← pyGet policy (cs "domain") .null
  let bd ← pyGet metadata (cs "begin_date") (.str [])
  let begin_date ← normalizeJ now bd
  let ed ← pyGet metadata (cs "end_date") (.str [])
  let end_date ← normalizeJ now ed
  let org_name ← pyGet metadata (cs "org_name") .null
  let org_email ← pyGet metadata (cs "org_email") .null
  let ad2 ← pyGet metadata (cs "arrival_date") (.str [])
  let arrival_date ← normalizeJ now ad2
  let subject ← pyGet report (cs "subject") .null
  let «from» ← pyGet report (cs "from") .null
  let «to» ← pyGet report (cs "to") .null
  let reply_to ← pyGet report (cs "reply_to") .null
  let message_id ← pyGet report (cs "message_id") .null
  let source_ip ← pyGet report (cs "source_ip") .null
  let count ← pyGet report (cs "count") (.num 1)
  let disposition ← pyGet report (cs "disposition") .null
  let dkim ← pyGet report (cs "dkim") .null
  let dkim_result ← (match dkim with
    | .obj kvs => pyGet (.obj kvs) (cs "result") .null
    | _ => pure .null)
  let spf ← pyGet report (cs "spf") .null
  let spf_result ← (match spf with
    | .obj kvs => pyGet (.obj kvs) (cs "result") .null
    | _ => pure .null)
  return [
    (cs "@timestamp", .str ts),
    (cs "report_id", report_id),
    (cs "report_type", .str (cs "forensic")),
    (cs "domain", domain),
    (cs "begin_date", .str begin_date),
    (cs "end_date", .str end_date),
    (cs "org_name", org_name),
    (cs "org_email", org_email),
    (cs "arrival_date", .str arrival_date),
    (cs "subject", subject),
    (cs "from", «from»),
    (cs "to", «to»),
    (cs "reply_to", reply_to),
    (cs "message_id", message_id),
    (cs "source_ip", source_ip),
    (cs "count", count),
    (cs "disposition", disposition),
    (cs "dkim_result", dkim_result),
    (cs "spf_result", spf_result),
    (cs "_source_full", report)]

/-! ## Index naming and the import plan -/

/-- Python `str.split()` with no separator: split on whitespace runs,
dropping empty parts (fuel-based). -/
def splitWsGo : Nat → Chars → List Chars
  | 0, _ => []
  | f + 1, s =>
    match s.dropWhile isPyWs with
    | [] => []
    | c :: t =>
      ((c :: t).takeWhile (fun d => !isPyWs d)) ::
        splitWsGo f ((c :: t).dropWhile (fun d => !isPyWs d))

def splitWs (s : Chars) : List Chars := splitWsGo (s.length + 1) s

/-- The index-name computation of `import_aggregate_reports`: the first
report's `begin_date`, first whitespace-separated token, `%Y-%m-%d`-parsed
and rendered as `prefix-%Y.%m`; every failure inside the `try` (a bare
`except`) and a falsy `begin_date` fall back to the current month. -/
def index_name_for (now : DT) (pre : Chars) (first_report : Json) :
    Except PyErr Chars := do
  let md ← pyGet first_report (cs "report_metadata") (.obj [])
  let bd ← pyGet md (cs "begin_date") (.str [])
  if falsy bd then
    return pre ++ '-' :: strftimeYM now
  else
    match bd with
    | .str s =>
      match splitWs s with
      | [] => return pre ++ '-' :: strftimeYM now
      | w :: _ =>
        match strptimeDateOnly w with
        | some d => return pre ++ '-' :: strftimeYM d
        | none => return pre ++ '-' :: strftimeYM now
    | _ => return pre ++ '-' :: strftimeYM now

/-- A report's `records` list (`report.get("records", [])`).  Model
restriction: iterating a truthy non-list value is folded into a
`TypeError` (the claims quantify over reports whose `records` are lists). -/
def recordsOf (report : Json) : Except PyErr (List Json) := do
  let rs ← pyGet report (cs "records") (.arr [])
  match rs with
  | .arr l => .ok l
  | _ => .error .typeError

/-- The bulk actions `import_aggregate_reports` builds: one
`(_index, _source)` pair per record of every report, the index name taken
from the first report alone. -/
def import_aggregate_reports (now : DT) (pre : Chars) (reports : List Json) :
    Except PyErr (List (Chars × List (Chars × Json))) := do
  match reports with
  | [] => return []
  | first :: _ =>
    let iname ← index_name_for now pre first
    reports.foldlM
      (fun acc report => do
        let recs ← recordsOf report
        recs.foldlM
          (fun acc2 record => do
            let doc ← transform_aggregate_record now report record
            return acc2 ++ [(iname, doc)])
          acc)
      []

/-! ## The index manager -/

def mappingEntry (t : String) : Json := .obj [(cs "type", .str (cs t))]

/-- The mapping properties shared by both document types. -/
def baseProperties : List (Chars × Json) := [
  (cs "@timestamp", mappingEntry "date"),
  (cs "report_id", mappingEntry "keyword"),
  (cs "report_type", mappingEntry "keyword"),
  (cs "domain", mappingEntry "keyword"),
  (cs "begin_date", mappingEntry "date"),
  (cs "end_date", mappingEntry "date"),
  (cs "org_name", mappingEntry "keyword"),
  (cs "org_email", mappingEntry "keyword"),
  (cs "source_ip", mappingEntry "ip"),
  (cs "source_reverse_dns", mappingEntry "keyword"),
  (cs "source_country", mappingEntry "keyword"),
  (cs "source_base_domain", mappingEntry "keyword"),
  (cs "source_name", mappingEntry "keyword"),
  (cs "source_type", mappingEntry "keyword"),
  (cs "count", mappingEntry "integer"),
  (cs "spf_aligned", mappingEntry "boolean"),
  (cs "dkim_aligned", mappingEntry "boolean"),
  (cs "dmarc_aligned", mappingEntry "boolean"),
  (cs "disposition", mappingEntry "keyword"),
  (cs "dkim_result", mappingEntry "keyword"),
  (cs "spf_result", mappingEntry "keyword"),
  (cs "header_from", mappingEntry "keyword"),
  (cs "envelope_from", mappingEntry "keyword"),
  (cs "envelope_to", mappingEntry "keyword"),
  (cs "interval_begin", mappingEntry "date"),
  (cs "interval_end", mappingEntry "date")]

/-- The forensic-only mapping fields (`properties.update(...)`: all six
keys are new, so the update appends). -/
def forensicProperties : List (Chars × Json) := [
  (cs "arrival_date", mappingEntry "date"),
  (cs "subject", mappingEntry "text"),
  (cs "from", mappingEntry "keyword"),
  (cs "to", mappingEntry "keyword"),
  (cs "reply_to", mappingEntry "keyword"),
  (cs "message_id", mappingEntry "keyword")]

def propertiesFor (doc_type : Chars) : List (Chars × Json) :=
  if doc_type = cs "forensic" then baseProperties ++ forensicProperties
  else baseProperties

/-- The store's index catalogue: name to mapping. -/
structure ESState where
  indices : List (Chars × Json)
deriving DecidableEq

/-- `create_index_mapping`: if the index exists it is a no-op, otherwise
one creation call adds it.  The second component counts the creation calls
performed. -/
def create_index_mapping (st : ESState) (index_name doc_type : Chars) :
    ESState × Nat :=
  if (assocFind st.indices index_name).isSome then (st, 0)
  else
    (⟨st.indices ++
      [(index_name, .obj [(cs "properties", .obj (propertiesFor doc_type))])]⟩, 1)

/-! ## The unclassified-failure selector -/

def LOOKBACK_DAYS : Nat := 30
def BATCH_SIZE : Nat := 100

/-- A stored document. -/
abbrev Doc := List (Chars × Json)

/-- The body `query_unclassified_failures` posts, verbatim from the
source, with the range bound `b` filled in. -/
def query_body (b : Chars) : Json := .obj [
  (cs "size", .num 100),
  (cs "query", .obj [
    (cs "bool", .obj [
      (cs "should", .arr [
        .obj [(cs "term", .obj [(cs "passed_dmarc", .bool false)])],
        .obj [(cs "term", .obj [(cs "spf_aligned", .bool false)])],
        .obj [(cs "term", .obj [(cs "dkim_aligned", .bool false)])]]),
      (cs "minimum_should_match", .num 1),
      (cs "must_not", .arr [
        .obj [(cs "exists", .obj [(cs "field", .str (cs "ai_analysis"))])]]),
      (cs "filter", .arr [
        .obj [(cs "range", .obj [
          (cs "date_begin", .obj [(cs "gte", .str b)])])]])])]),
  (cs "_source", .bool true)]

/-- Object-field access on a JSON value. -/
def jget (j : Json) (k : Chars) : Option Json :=
  match j with
  | .obj kvs => assocFind kvs k
  | _ => none

/-- A `term` clause on one field: the stored value equals the given one. -/
def docTerm (doc : Doc) (field : Chars) (v : Json) : Bool :=
  match assocFind doc field with
  | some w => w == v
  | none => false

/-- An `exists` clause: the field is present. -/
def docExists (doc : Doc) (field : Chars) : Bool := (assocFind doc field).isSome

/-- Lexicographic string comparison, `a ≥ b`.  Zero-padded ISO-8601
strings of equal layout compare like the instants they denote. -/
def lexGe : Chars → Chars → Bool
  | _, [] => true
  | [], _ :: _ => false
  | a :: as2, b :: bs => if a = b then lexGe as2 bs else decide (b < a)

/-- Modelled from the spec: a `range`/`gte` clause on a date field — the
document's value is a string at or after the bound (the store compares the
instants; on this data both sides are zero-padded ISO strings, compared
lexicographically).  A missing or non-string field fails the clause. -/
def docRangeGte (doc : Doc) (field bound : Chars) : Bool :=
  match assocFind doc field with
  | some (.str s) => lexGe s bound
  | _ => false

/-- Modelled from the spec: the store's evaluation of the posted bool
query — at least one `should` term holds, no `must_not` clause holds, and
the `filter` range holds. -/
def matchesQuery (bound : Chars) (doc : Doc) : Bool :=
  (docTerm doc (cs "passed_dmarc") (.bool false) ||
    docTerm doc (cs "spf_aligned") (.bool false) ||
    docTerm doc (cs "dkim_aligned") (.bool false)) &&
  !docExists doc (cs "ai_analysis") &&
  docRangeGte doc (cs "date_begin") bound

/-- The previous calendar day (time of day unchanged). -/
def prevDay (d : DT) : DT :=
  if 1 < d.day then { d with day := d.day - 1 }
  else if 1 < d.month then
    { d with month := d.month - 1, day := daysInMonth d.year (d.month - 1) }
  else
    { d with year := d.year - 1, month := 12, day := 31 }

/-- `now - timedelta(days=n)`. -/
def subDays : Nat → DT → DT
  | 0, d => d
  | n + 1, d => subDays n (prevDay d)

/-- `query_unclassified_failures`: the store is queried with the posted
body (`query_body` with the bound `(now - 30 days).strftime(...)`) and
returns up to `BATCH_SIZE` matching documents in store order. -/
def query_unclassified_failures (now : DT) (store : List Doc) : List Doc :=
  (store.filter (matchesQuery (strftimeQ (subDays LOOKBACK_DAYS now)))).take BATCH_SIZE

/-! ## The classification engine's parse step -/

/-- `str.split('\n')`. -/
def splitNl : Chars → List Chars
  | [] => [[]]
  | c :: t =>
    if c = '\n' then [] :: splitNl t
    else
      match splitNl t with
      | [] => [[c]]
      | p :: ps => (c :: p) :: ps

/-- `'\n'.join`. -/
def joinNl : List Chars → Chars
  | [] => []
  | [p] => p
  | p :: q :: ps => p ++ '\n' :: joinNl (q :: ps)

/-- The `PROMPTED → PARSED` step of `classify_failure`, given the
service's response text: strip, remove a surrounding markdown code fence
(first and last lines) when the text starts with one, parse as JSON, and
stamp `analyzed_at` with the current UTC time (an aware `isoformat()`, so
with a `+00:00` suffix).  A parse failure — or a parsed value that is not
an object, whose item assignment raises — yields `None`. -/
def classify_failure (now : DT) (response_text : Chars) : Option Json :=
  let t := pyStrip response_text
  let t2 :=
    if (cs "```").isPrefixOf t then joinNl ((splitNl t).drop 1).dropLast else t
  match loads t2 with
  | some (.obj kvs) =>
    some (.obj (dictSet kvs (cs "analyzed_at") (.str (isoDT now ++ cs "+00:00"))))
  | _ => none

/-! ## Association-list lemmas -/

theorem assocFind_cons (q : Chars × Json) (l : List (Chars × Json)) (k : Chars) :
    assocFind (q :: l) k = if q.1 == k then some q.2 else assocFind l k := by
  simp only [assocFind, List.find?]
  by_cases h : (q.1 == k) = true
  · simp [h]
  · simp only [Bool.not_eq_true] at h
    simp [h]

theorem assocFind_append (l1 l2 : List (Chars × Json)) (k : Chars)
    (h : assocFind l1 k = none) :
    assocFind (l1 ++ l2) k = assocFind l2 k := by
  induction l1 with
  | nil => rfl
  | cons q l ih =>
    rw [assocFind_cons] at h
    by_cases hq : (q.1 == k) = true
    · rw [if_pos hq] at h
      exact absurd h (by simp)
    · rw [if_neg hq] at h
      rw [List.cons_append, assocFind_cons, if_neg hq]
      exact ih h

/-! ## Claim C7: index creation is idempotent -/

/-- C7: `create_index_mapping` is idempotent — on a state without the
named index the first call performs exactly one creation call, and a
second call with the same name is a no-op performing zero creation calls
and leaving the state unchanged (no mapping diffing or migration). -/
theorem C7_ensure_index_idempotent (st : ESState) (name doc_type : Chars)
    (h : assocFind st.indices name = none) :
    (create_index_mapping st name doc_type).2 = 1 ∧
    create_index_mapping (create_index_mapping st name doc_type).1 name doc_type =
      ((create_index_mapping st name doc_type).1, 0) := by
  have h2 : assocFind (st.indices ++
      [(name, Json.obj [(cs "properties", .obj (propertiesFor doc_type))])]) name =
      some (.obj [(cs "properties", .obj (propertiesFor doc_type))]) := by
    rw [assocFind_append _ _ _ h, assocFind_cons]
    simp
  constructor
  · simp [create_index_mapping, h]
  · simp [create_index_mapping, h, h2]

theorem C7_ensure_index_idempotent_witness :
    (create_index_mapping ⟨[]⟩ (cs "dmarc-aggregate-2026.01") (cs "aggregate")).2 = 1 ∧
    create_index_mapping
        (create_index_mapping ⟨[]⟩ (cs "dmarc-aggregate-2026.01") (cs "aggregate")).1
        (cs "dmarc-aggregate-2026.01") (cs "aggregate") =
      ((create_index_mapping ⟨[]⟩ (cs "dmarc-aggregate-2026.01") (cs "aggregate")).1, 0) :=
  C7_ensure_index_idempotent ⟨[]⟩ _ _ rfl

/-! ## Claim C8: the code fence is transparent to the parse step -/

theorem splitNl_ne_nil : ∀ s : Chars, splitNl s ≠ []
  | [] => by simp [splitNl]
  | c :: t => by
    rw [splitNl]
    by_cases hc : c = '\n'
    · simp [hc]
    · rw [if_neg hc]
      match splitNl t with
      | [] => simp
      | p :: ps => simp

theorem joinNl_splitNl (s : Chars) : joinNl (splitNl s) = s := by
  induction s with
  | nil => rfl
  | cons c t ih =>
    rw [splitNl]
    by_cases hc : c = '\n'
    · rw [if_pos hc]
      match hsp : splitNl t with
      | [] => exact absurd hsp (splitNl_ne_nil t)
      | p :: ps =>
        rw [hsp] at ih
        rw [joinNl, hc]
        simp [ih]
    · rw [if_neg hc]
      match hsp : splitNl t with
      | [] => exact absurd hsp (splitNl_ne_nil t)
      | p :: ps =>
        rw [hsp] at ih
        cases ps with
        | nil =>
          simp only [joinNl] at ih ⊢
          rw [ih]
        | cons q ps2 =>
          rw [joinNl] at ih ⊢
          rw [← ih]
          simp

theorem splitNl_no_nl (F : Chars) (h : '\n' ∉ F) : splitNl F = [F] := by
  induction F with
  | nil => rfl
  | cons c t ih =>
    have hc : c ≠ '\n' := fun hcc => h (by simp [hcc])
    rw [splitNl, if_neg hc, ih (fun hm => h (by simp [hm]))]

theorem splitNl_append_nl (A B : Chars) (h : '\n' ∉ A) :
    splitNl (A ++ '\n' :: B) = A :: splitNl B := by
  induction A with
  | nil => simp [splitNl]
  | cons c t ih =>
    have hc : c ≠ '\n' := fun hcc => h (by simp [hcc])
    rw [List.cons_append, splitNl, if_neg hc]
    rw [ih (fun hm => h (by simp [hm]))]

theorem splitNl_append_last (B F : Chars) (h : '\n' ∉ F) :
    splitNl (B ++ '\n' :: F) = splitNl B ++ [F] := by
  induction B with
  | nil => simp [splitNl, splitNl_no_nl F h]
  | cons c B ih =>
    rw [List.cons_append]
    by_cases hc : c = '\n'
    · rw [splitNl, if_pos hc, ih]
      conv_rhs => rw [splitNl, if_pos hc]
      rfl
    · match hsp : splitNl B with
      | [] => exact absurd hsp (splitNl_ne_nil B)
      | p :: ps =>
        rw [splitNl, if_neg hc, ih, hsp]
        conv_rhs => rw [splitNl, if_neg hc, hsp]
        rfl

/-- C8: the parse step of the Classification Engine yields the same
verdict for a response wrapped in a markdown code fence (a backtick line
with any newline-free header, the JSON body, and a closing backtick line)
as for the bare body, whenever the bare body is already stripped and does
not itself start with a fence. -/
theorem C8_fence_transparent (now : DT) (header body : Chars)
    (hh : '\n' ∉ header)
    (hs : pyStrip body = body)
    (hp : (cs "```").isPrefixOf body = false) :
    classify_failure now (cs "```" ++ header ++ '\n' :: body ++ '\n' :: cs "```") =
      classify_failure now body := by
  have hstrip : pyStrip (cs "```" ++ header ++ '\n' :: body ++ '\n' :: cs "```") =
      cs "```" ++ header ++ '\n' :: body ++ '\n' :: cs "```" := by
    have hm : cs "```" ++ header ++ '\n' :: body ++ '\n' :: cs "```" =
        '`' :: ((('`' :: '`' :: header) ++ '\n' :: body ++ '\n' :: ['`', '`']) ++ ['`']) := by
      simp [cs]
    rw [hm, pyStrip_sandwich _ (by decide) (by decide)]
  have hpre : (cs "```").isPrefixOf
      (cs "```" ++ header ++ '\n' :: body ++ '\n' :: cs "```") = true := by
    simp [cs, List.isPrefixOf]
  have hA : '\n' ∉ cs "```" ++ header := by
    intro hmem
    rcases List.mem_append.mp hmem with h1 | h1
    · exact absurd h1 (by decide)
    · exact hh h1
  have hsplit : splitNl (cs "```" ++ header ++ '\n' :: body ++ '\n' :: cs "```") =
      (cs "```" ++ header) :: (splitNl body ++ [cs "```"]) := by
    have hm2 : cs "```" ++ header ++ '\n' :: body ++ '\n' :: cs "```" =
        (cs "```" ++ header) ++ '\n' :: (body ++ '\n' :: cs "```") := by simp
    rw [hm2, splitNl_append_nl _ _ hA, splitNl_append_last _ _ (by decide)]
  simp only [classify_failure, hstrip, hpre, hs, hp, if_true, if_false, hsplit,
    List.drop_succ_cons, List.drop_zero, List.dropLast_concat, joinNl_splitNl,
    Bool.false_eq_true, reduceIte]

theorem C8_fence_transparent_witness :
    classify_failure ⟨2026, 1, 1, 0, 0, 0, 0⟩ (cs "```json\n\x7b\"a\": 1\x7d\n```") =
      classify_failure ⟨2026, 1, 1, 0, 0, 0, 0⟩ (cs "\x7b\"a\": 1\x7d") := by
  have h := C8_fence_transparent ⟨2026, 1, 1, 0, 0, 0, 0⟩ (cs "json")
    (cs "\x7b\"a\": 1\x7d") (by decide) (by decide) (by decide)
  exact h

/-! ## Claim C6: defensive defaults -/

/-- The document `transform_aggregate_record` builds from a report and
record missing every optional section. -/
def aggDefaultDoc (now : DT) : List (Chars × Json) := [
  (cs "@timestamp", .str (isoDT now)),
  (cs "report_id", .null),
  (cs "report_type", .str (cs "aggregate")),
  (cs "domain", .null),
  (cs "begin_date", .str (isoDT now)),
  (cs "end_date", .str (isoDT now)),
  (cs "org_name", .null),
  (cs "org_email", .null),
  (cs "source_ip", .null),
  (cs "source_reverse_dns", .null),
  (cs "source_country", .null),
  (cs "source_base_domain", .null),
  (cs "source_name", .null),
  (cs "source_type", .null),
  (cs "count", .num 0),
  (cs "spf_aligned", .bool false),
  (cs "dkim_aligned", .bool false),
  (cs "dmarc_aligned", .bool false),
  (cs "disposition", .null),
  (cs "dkim_result", .null),
  (cs "spf_result", .null),
  (cs "header_from", .null),
  (cs "envelope_from", .null),
  (cs "envelope_to", .null),
  (cs "interval_begin", .str (isoDT now)),
  (cs "interval_end", .str (isoDT now)),
  (cs "_source_full", .obj [(cs "report", .obj []), (cs "record", .obj [])])]

/-- The document `transform_forensic_record` builds from a report missing
every optional section. -/
def forensicDefaultDoc (now : DT) : List (Chars × Json) := [
  (cs "@timestamp", .str (isoDT now)),
  (cs "report_id", .null),
  (cs "report_type", .str (cs "forensic")),
  (cs "domain", .null),
  (cs "begin_date", .str (isoDT now)),
  (cs "end_date", .str (isoDT now)),
  (cs "org_name", .null),
  (cs "org_email", .null),
  (cs "arrival_date", .str (isoDT now)),
  (cs "subject", .null),
  (cs "from", .null),
  (cs "to", .null),
  (cs "reply_to", .null),
  (cs "message_id", .null),
  (cs "source_ip", .null),
  (cs "count", .num 1),
  (cs "disposition", .null),
  (cs "dkim_result", .null),
  (cs "spf_result", .null),
  (cs "_source_full", .obj [])]

/-- `d.get(k, dflt)` as a total lookup on an object's fields. -/
def getOr (kvs : List (Chars × Json)) (k : Chars) (dflt : Json) : Json :=
  (assocFind kvs k).getD dflt

/-- A value `normalize_date` handles without raising: falsy (including
the `""` default a missing field takes) or a string. -/
def dateOK (j : Json) : Bool :=
  falsy j ||
    (match j with
     | .str _ => true
     | _ => false)

/-- The string a date field contributes to the document: the current time
for a falsy (in particular missing) entry, the normalised string
otherwise. -/
def normalizedField (now : DT) (j : Json) : Chars :=
  if falsy j then isoDT now
  else
    match j with
    | .str s => normalize_date now s
    | _ => isoDT now

/-- The forensic `dkim`/`spf` result: the `result` entry when the value is
a dict, `None` otherwise (the `isinstance` guard). -/
def resultOf : Json → Json
  | .obj dk => getOr dk (cs "result") .null
  | .null => .null
  | .bool _ => .null
  | .num _ => .null
  | .str _ => .null
  | .arr _ => .null

theorem ok_bind {α β : Type} (a : α) (f : α → Except PyErr β) :
    ((Except.ok a : Except PyErr α) >>= f) = f a := rfl

theorem pure_eq_ok {α : Type} (a : α) : (pure a : Except PyErr α) = .ok a := rfl

theorem pyGet_obj (kvs : List (Chars × Json)) (k : Chars) (dflt : Json) :
    pyGet (.obj kvs) k dflt = .ok (getOr kvs k dflt) := rfl

theorem normalizeJ_dateOK (now : DT) {j : Json} (h : dateOK j = true) :
    normalizeJ now j = .ok (normalizedField now j) := by
  by_cases hf : falsy j = true
  · simp only [normalizeJ, normalizedField, if_pos hf]
  · simp only [dateOK, Bool.or_eq_true] at h
    rcases h with h | h
    · exact absurd h hf
    · cases j with
      | str s => simp only [normalizeJ, normalizedField, if_neg hf]
      | null => exact absurd rfl hf
      | bool b => exact Bool.noConfusion h
      | num n => exact Bool.noConfusion h
      | arr l => exact Bool.noConfusion h
      | obj kvs => exact Bool.noConfusion h

/-- On any report/record whose optional sections, when present, are
objects and whose date entries, when present, are strings or falsy, the
aggregate transformer returns normally with every field a defensive
lookup against its default. -/
theorem transform_aggregate_eq (now : DT)
    (rkvs ckvs mkvs pkvs skvs akvs pekvs idkvs : List (Chars × Json))
    (hm : getOr rkvs (cs "report_metadata") (.obj []) = .obj mkvs)
    (hp : getOr rkvs (cs "policy_published") (.obj []) = .obj pkvs)
    (hs : getOr ckvs (cs "source") (.obj []) = .obj skvs)
    (ha : getOr ckvs (cs "alignment") (.obj []) = .obj akvs)
    (hpe : getOr ckvs (cs "policy_evaluated") (.obj []) = .obj pekvs)
    (hid : getOr ckvs (cs "identifiers") (.obj []) = .obj idkvs)
    (hbd : dateOK (getOr mkvs (cs "begin_date") (.str [])) = true)
    (hed : dateOK (getOr mkvs (cs "end_date") (.str [])) = true)
    (hib : dateOK (getOr ckvs (cs "interval_begin") (.str [])) = true)
    (hie : dateOK (getOr ckvs (cs "interval_end") (.str [])) = true) :
    transform_aggregate_record now (.obj rkvs) (.obj ckvs) = .ok [
      (cs "@timestamp", .str (normalizedField now (getOr mkvs (cs "begin_date") (.str [])))),
      (cs "report_id", getOr mkvs (cs "report_id") .null),
      (cs "report_type", .str (cs "aggregate")),
      (cs "domain", getOr pkvs (cs "domain") .null),
      (cs "begin_date", .str (normalizedField now (getOr mkvs (cs "begin_date") (.str [])))),
      (cs "end_date", .str (normalizedField now (getOr mkvs (cs "end_date") (.str [])))),
      (cs "org_name", getOr mkvs (cs "org_name") .null),
      (cs "org_email", getOr mkvs (cs "org_email") .null),
      (cs "source_ip", getOr skvs (cs "ip_address") .null),
      (cs "source_reverse_dns", getOr skvs (cs "reverse_dns") .null),
      (cs "source_country", getOr skvs (cs "country") .null),
      (cs "source_base_domain", getOr skvs (cs "base_domain") .null),
      (cs "source_name", getOr skvs (cs "name") .null),
      (cs "source_type", getOr skvs (cs "type") .null),
      (cs "count", getOr ckvs (cs "count") (.num 0)),
      (cs "spf_aligned", getOr akvs (cs "spf") (.bool false)),
      (cs "dkim_aligned", getOr akvs (cs "dkim") (.bool false)),
      (cs "dmarc_aligned", getOr akvs (cs "dmarc") (.bool false)),
      (cs "disposition", getOr pekvs (cs "disposition") .null),
      (cs "dkim_result", getOr pekvs (cs "dkim") .null),
      (cs "spf_result", getOr pekvs (cs "spf") .null),
      (cs "header_from", getOr idkvs (cs "header_from") .null),
      (cs "envelope_from", getOr idkvs (cs "envelope_from") .null),
      (cs "envelope_to", getOr idkvs (cs "envelope_to") .null),
      (cs "interval_begin", .str (normalizedField now (getOr ckvs (cs "interval_begin") (.str [])))),
      (cs "interval_end", .str (normalizedField now (getOr ckvs (cs "interval_end") (.str [])))),
      (cs "_source_full", .obj [(cs "report", .obj rkvs), (cs "record", .obj ckvs)])] := by
  have hbd' := normalizeJ_dateOK now hbd
  have hed' := normalizeJ_dateOK now hed
  have hib' := normalizeJ_dateOK now hib
  have hie' := normalizeJ_dateOK now hie
  simp only [transform_aggregate_record, pyGet_obj, ok_bind, pure_eq_ok, hm, hp, hs, ha,
    hpe, hid, hbd', hed', hib', hie']

/-- Likewise for the forensic transformer, with its `count` default of `1`
and the `isinstance`-guarded `dkim`/`spf` results. -/
theorem transform_forensic_eq (now : DT) (rkvs mkvs pkvs : List (Chars × Json))
    (hm : getOr rkvs (cs "report_metadata") (.obj []) = .obj mkvs)
    (hp : getOr rkvs (cs "policy_published") (.obj []) = .obj pkvs)
    (had : dateOK (getOr mkvs (cs "arrival_date") (.str [])) = true)
    (hbd : dateOK (getOr mkvs (cs "begin_date") (.str [])) = true)
    (hed : dateOK (getOr mkvs (cs "end_date") (.str [])) = true) :
    transform_forensic_record now (.obj rkvs) = .ok [
      (cs "@timestamp", .str (normalizedField now (getOr mkvs (cs "arrival_date") (.str [])))),
      (cs "report_id", getOr mkvs (cs "report_id") .null),
      (cs "report_type", .str (cs "forensic")),
      (cs "domain", getOr pkvs (cs "domain") .null),
      (cs "begin_date", .str (normalizedField now (getOr mkvs (cs "begin_date") (.str [])))),
      (cs "end_date", .str (normalizedField now (getOr mkvs (cs "end_date") (.str [])))),
      (cs "org_name", getOr mkvs (cs "org_name") .null),
      (cs "org_email", getOr mkvs (cs "org_email") .null),
      (cs "arrival_date", .str (normalizedField now (getOr mkvs (cs "arrival_date") (.str [])))),
      (cs "subject", getOr rkvs (cs "subject") .null),
      (cs "from", getOr rkvs (cs "from") .null),
      (cs "to", getOr rkvs (cs "to") .null),
      (cs "reply_to", getOr rkvs (cs "reply_to") .null),
      (cs "message_id", getOr rkvs (cs "message_id") .null),
      (cs "source_ip", getOr rkvs (cs "source_ip") .null),
      (cs "count", getOr rkvs (cs "count") (.num 1)),
      (cs "disposition", getOr rkvs (cs "disposition") .null),
      (cs "dkim_result", resultOf (getOr rkvs (cs "dkim") .null)),
      (cs "spf_result", resultOf (getOr rkvs (cs "spf") .null)),
      (cs "_source_full", .obj rkvs)] := by
  have had' := normalizeJ_dateOK now had
  have hbd' := normalizeJ_dateOK now hbd
  have hed' := normalizeJ_dateOK now hed
  cases hdk : getOr rkvs (cs "dkim") .null <;>
    cases hsp : getOr rkvs (cs "spf") .null <;>
      simp only [transform_forensic_record, pyGet_obj, ok_bind, pure_eq_ok, hm, hp,
        had', hbd', hed', hdk, hsp, resultOf]

/-- C6 (amended): field extraction is defensive.  For every report (and
record) that is a JSON object whose optional sections, when present, are
objects, and whose date entries, when present, are strings or falsy — in
particular for a report missing any subset of its optional fields — both
transformers return normally, never raising, and build the document field
by field from lookups with defined defaults, so each missing field takes
its default: `None` for identity fields, `0` for the aggregate count,
`False` for the alignment flags, but `1` for the forensic count and the
current time for every date field (no field defaults to `"Unknown"`). -/
theorem C6_transform_defaults :
    (∀ (now : DT) (rkvs ckvs mkvs pkvs skvs akvs pekvs idkvs : List (Chars × Json)),
      getOr rkvs (cs "report_metadata") (.obj []) = .obj mkvs →
      getOr rkvs (cs "policy_published") (.obj []) = .obj pkvs →
      getOr ckvs (cs "source") (.obj []) = .obj skvs →
      getOr ckvs (cs "alignment") (.obj []) = .obj akvs →
      getOr ckvs (cs "policy_evaluated") (.obj []) = .obj pekvs →
      getOr ckvs (cs "identifiers") (.obj []) = .obj idkvs →
      dateOK (getOr mkvs (cs "begin_date") (.str [])) = true →
      dateOK (getOr mkvs (cs "end_date") (.str [])) = true →
      dateOK (getOr ckvs (cs "interval_begin") (.str [])) = true →
      dateOK (getOr ckvs (cs "interval_end") (.str [])) = true →
      transform_aggregate_record now (.obj rkvs) (.obj ckvs) = .ok [
        (cs "@timestamp", .str (normalizedField now (getOr mkvs (cs "begin_date") (.str [])))),
        (cs "report_id", getOr mkvs (cs "report_id") .null),
        (cs "report_type", .str (cs "aggregate")),
        (cs "domain", getOr pkvs (cs "domain") .null),
        (cs "begin_date", .str (normalizedField now (getOr mkvs (cs "begin_date") (.str [])))),
        (cs "end_date", .str (normalizedField now (getOr mkvs (cs "end_date") (.str [])))),
        (cs "org_name", getOr mkvs (cs "org_name") .null),
        (cs "org_email", getOr mkvs (cs "org_email") .null),
        (cs "source_ip", getOr skvs (cs "ip_address") .null),
        (cs "source_reverse_dns", getOr skvs (cs "reverse_dns") .null),
        (cs "source_country", getOr skvs (cs "country") .null),
        (cs "source_base_domain", getOr skvs (cs "base_domain") .null),
        (cs "source_name", getOr skvs (cs "name") .null),
        (cs "source_type", getOr skvs (cs "type") .null),
        (cs "count", getOr ckvs (cs "count") (.num 0)),
        (cs "spf_aligned", getOr akvs (cs "spf") (.bool false)),
        (cs "dkim_aligned", getOr akvs (cs "dkim") (.bool false)),
        (cs "dmarc_aligned", getOr akvs (cs "dmarc") (.bool false)),
        (cs "disposition", getOr pekvs (cs "disposition") .null),
        (cs "dkim_result", getOr pekvs (cs "dkim") .null),
        (cs "spf_result", getOr pekvs (cs "spf") .null),
        (cs "header_from", getOr idkvs (cs "header_from") .null),
        (cs "envelope_from", getOr idkvs (cs "envelope_from") .null),
        (cs "envelope_to", getOr idkvs (cs "envelope_to") .null),
        (cs "interval_begin", .str (normalizedField now (getOr ckvs (cs "interval_begin") (.str [])))),
        (cs "interval_end", .str (normalizedField now (getOr ckvs (cs "interval_end") (.str [])))),
        (cs "_source_full", .obj [(cs "report", .obj rkvs), (cs "record", .obj ckvs)])]) ∧
    (∀ (now : DT) (rkvs mkvs pkvs : List (Chars × Json)),
      getOr rkvs (cs "report_metadata") (.obj []) = .obj mkvs →
      getOr rkvs (cs "policy_published") (.obj []) = .obj pkvs →
      dateOK (getOr mkvs (cs "arrival_date") (.str [])) = true →
      dateOK (getOr mkvs (cs "begin_date") (.str [])) = true →
      dateOK (getOr mkvs (cs "end_date") (.str [])) = true →
      transform_forensic_record now (.obj rkvs) = .ok [
        (cs "@timestamp", .str (normalizedField now (getOr mkvs (cs "arrival_date") (.str [])))),
        (cs "report_id", getOr mkvs (cs "report_id") .null),
        (cs "report_type", .str (cs "forensic")),
        (cs "domain", getOr pkvs (cs "domain") .null),
        (cs "begin_date", .str (normalizedField now (getOr mkvs (cs "begin_date") (.str [])))),
        (cs "end_date", .str (normalizedField now (getOr mkvs (cs "end_date") (.str [])))),
        (cs "org_name", getOr mkvs (cs "org_name") .null),
        (cs "org_email", getOr mkvs (cs "org_email") .null),
        (cs "arrival_date", .str (normalizedField now (getOr mkvs (cs "arrival_date") (.str [])))),
        (cs "subject", getOr rkvs (cs "subject") .null),
        (cs "from", getOr rkvs (cs "from") .null),
        (cs "to", getOr rkvs (cs "to") .null),
        (cs "reply_to", getOr rkvs (cs "reply_to") .null),
        (cs "message_id", getOr rkvs (cs "message_id") .null),
        (cs "source_ip", getOr rkvs (cs "source_ip") .null),
        (cs "count", getOr rkvs (cs "count") (.num 1)),
        (cs "disposition", getOr rkvs (cs "disposition") .null),
        (cs "dkim_result", resultOf (getOr rkvs (cs "dkim") .null)),
        (cs "spf_result", resultOf (getOr rkvs (cs "spf") .null)),
        (cs "_source_full", .obj rkvs)]) :=
  ⟨fun now rkvs ckvs mkvs pkvs skvs akvs pekvs idkvs hm hp hs ha hpe hid hbd hed hib hie =>
    transform_aggregate_eq now rkvs ckvs mkvs pkvs skvs akvs pekvs idkvs
      hm hp hs ha hpe hid hbd hed hib hie,
   fun now rkvs mkvs pkvs hm hp had hbd hed =>
    transform_forensic_eq now rkvs mkvs pkvs hm hp had hbd hed⟩

theorem C6_transform_defaults_witness :
    transform_aggregate_record ⟨2026, 1, 1, 0, 0, 0, 0⟩ (.obj []) (.obj []) =
      .ok (aggDefaultDoc ⟨2026, 1, 1, 0, 0, 0, 0⟩) ∧
    transform_forensic_record ⟨2026, 1, 1, 0, 0, 0, 0⟩ (.obj []) =
      .ok (forensicDefaultDoc ⟨2026, 1, 1, 0, 0, 0, 0⟩) :=
  ⟨C6_transform_defaults.1 ⟨2026, 1, 1, 0, 0, 0, 0⟩ [] [] [] [] [] [] [] []
      rfl rfl rfl rfl rfl rfl (by decide) (by decide) (by decide) (by decide),
    C6_transform_defaults.2 ⟨2026, 1, 1, 0, 0, 0, 0⟩ [] [] []
      rfl rfl (by decide) (by decide) (by decide)⟩

/-- C6 counterexample: a forensic report missing `count` is given the
default `1`, which is none of the claimed defaults
`None`/`"Unknown"`/`0`/`false`; the date fields likewise default to the
current time rather than a value from that set. -/
theorem C6_counterexample :
    (transform_forensic_record ⟨2026, 1, 1, 0, 0, 0, 0⟩ (.obj [])).toOption.map
      (fun d => assocFind d (cs "count")) = some (some (.num 1)) ∧
    ∀ j ∈ [Json.null, .str (cs "Unknown"), .num 0, .bool false], j ≠ .num 1 := by
  constructor
  · rfl
  · decide

/-! ## Claim C9: the field names the transformers emit -/

theorem ebind_ok {α β : Type} {e : Except PyErr α} {f : α → Except PyErr β} {b : β}
    (h : (e >>= f) = .ok b) : ∃ a, e = .ok a ∧ f a = .ok b := by
  cases e with
  | ok a => exact ⟨a, rfl, h⟩
  | error err => simp [Bind.bind, Except.bind] at h

/-- A successful aggregate transform always emits exactly the fixed key
list (that of the all-defaults document), whatever the values. -/
theorem transform_aggregate_keys (now : DT) (report record : Json)
    (doc : List (Chars × Json))
    (h : transform_aggregate_record now report record = .ok doc) :
    doc.map Prod.fst = (aggDefaultDoc now).map Prod.fst := by
  rw [transform_aggregate_record] at h
  obtain ⟨a1, _, h⟩ := ebind_ok h
  obtain ⟨a2, _, h⟩ := ebind_ok h
  obtain ⟨a3, _, h⟩ := ebind_ok h
  obtain ⟨a4, _, h⟩ := ebind_ok h
  obtain ⟨a5, _, h⟩ := ebind_ok h
  obtain ⟨a6, _, h⟩ := ebind_ok h
  obtain ⟨a7, _, h⟩ := ebind_ok h
  obtain ⟨a8, _, h⟩ := ebind_ok h
  obtain ⟨a9, _, h⟩ := ebind_ok h
  obtain ⟨a10, _, h⟩ := ebind_ok h
  obtain ⟨a11, _, h⟩ := ebind_ok h
  obtain ⟨a12, _, h⟩ := ebind_ok h
  obtain ⟨a13, _, h⟩ := ebind_ok h
  obtain ⟨a14, _, h⟩ := ebind_ok h
  obtain ⟨a15, _, h⟩ := ebind_ok h
  obtain ⟨a16, _, h⟩ := ebind_ok h
  obtain ⟨a17, _, h⟩ := ebind_ok h
  obtain ⟨a18, _, h⟩ := ebind_ok h
  obtain ⟨a19, _, h⟩ := ebind_ok h
  obtain ⟨a20, _, h⟩ := ebind_ok h
  obtain ⟨a21, _, h⟩ := ebind_ok h
  obtain ⟨a22, _, h⟩ := ebind_ok h
  obtain ⟨a23, _, h⟩ := ebind_ok h
  obtain ⟨a24, _, h⟩ := ebind_ok h
  obtain ⟨a25, _, h⟩ := ebind_ok h
  obtain ⟨a26, _, h⟩ := ebind_ok h
  obtain ⟨a27, _, h⟩ := ebind_ok h
  obtain ⟨a28, _, h⟩ := ebind_ok h
  obtain ⟨a29, _, h⟩ := ebind_ok h
  obtain ⟨a30, _, h⟩ := ebind_ok h
  obtain ⟨a31, _, h⟩ := ebind_ok h
  obtain ⟨a32, _, h⟩ := ebind_ok h
  obtain ⟨a33, _, h⟩ := ebind_ok h
  obtain ⟨a34, _, h⟩ := ebind_ok h
  obtain ⟨a35, _, h⟩ := ebind_ok h
  obtain ⟨a36, _, h⟩ := ebind_ok h
  cases h
  rfl

/-- A successful forensic transform likewise emits the fixed key list. -/
theorem transform_forensic_keys (now : DT) (report : Json)
    (doc : List (Chars × Json))
    (h : transform_forensic_record now report = .ok doc) :
    doc.map Prod.fst = (forensicDefaultDoc now).map Prod.fst := by
  rw [transform_forensic_record] at h
  obtain ⟨a1, _, h⟩ := ebind_ok h
  obtain ⟨a2, _, h⟩ := ebind_ok h
  obtain ⟨a3, _, h⟩ := ebind_ok h
  obtain ⟨a4, _, h⟩ := ebind_ok h
  obtain ⟨a5, _, h⟩ := ebind_ok h
  obtain ⟨a6, _, h⟩ := ebind_ok h
  obtain ⟨a7, _, h⟩ := ebind_ok h
  obtain ⟨a8, _, h⟩ := ebind_ok h
  obtain ⟨a9, _, h⟩ := ebind_ok h
  obtain ⟨a10, _, h⟩ := ebind_ok h
  obtain ⟨a11, _, h⟩ := ebind_ok h
  obtain ⟨a12, _, h⟩ := ebind_ok h
  obtain ⟨a13, _, h⟩ := ebind_ok h
  obtain ⟨a14, _, h⟩ := ebind_ok h
  obtain ⟨a15, _, h⟩ := ebind_ok h
  obtain ⟨a16, _, h⟩ := ebind_ok h
  obtain ⟨a17, _, h⟩ := ebind_ok h
  obtain ⟨a18, _, h⟩ := ebind_ok h
  obtain ⟨a19, _, h⟩ := ebind_ok h
  obtain ⟨a20, _, h⟩ := ebind_ok h
  obtain ⟨a21, _, h⟩ := ebind_ok h
  obtain ⟨a22, _, h⟩ := ebind_ok h
  obtain ⟨a23, _, h⟩ := ebind_ok h
  obtain ⟨a24, _, h⟩ := ebind_ok h
  obtain ⟨a25, _, h⟩ := ebind_ok h
  obtain ⟨a26, _, h⟩ := ebind_ok h
  cases h
  rfl

theorem assocFind_none_iff (doc : List (Chars × Json)) (k : Chars) :
    assocFind doc k = none ↔ k ∉ doc.map Prod.fst := by
  induction doc with
  | nil => simp [assocFind]
  | cons p l ih =>
    rw [assocFind_cons]
    by_cases hp : (p.1 == k) = true
    · have hpe : p.1 = k := by simpa using hp
      rw [if_pos hp]
      constructor
      · intro hcon
        exact absurd hcon (by simp)
      · intro hnot
        exfalso
        apply hnot
        rw [List.map_cons, ← hpe]
        exact List.mem_cons_self _ _
    · have hne : ¬ (p.1 = k) := by simpa using hp
      have hne2 : ¬ (k = p.1) := fun hk => hne hk.symm
      rw [if_neg hp, ih, List.map_cons]
      constructor
      · intro hnm hmem
        rcases List.mem_cons.mp hmem with h1 | h1
        · exact hne2 h1
        · exact hnm h1
      · intro hnm hmem
        exact hnm (List.mem_cons_of_mem _ hmem)

/-- C9: every document the transformers emit carries `dmarc_aligned` and
`begin_date` but neither `passed_dmarc` nor `date_begin`, while the
selector's query keys its `term` clauses on `passed_dmarc` (besides the
alignment flags) and its `range` filter on `date_begin`. -/
theorem C9_selector_field_mismatch :
    (∀ (now : DT) (report record : Json) (doc : List (Chars × Json)),
        transform_aggregate_record now report record = .ok doc →
        assocFind doc (cs "passed_dmarc") = none ∧
        assocFind doc (cs "date_begin") = none ∧
        assocFind doc (cs "dmarc_aligned") ≠ none ∧
        assocFind doc (cs "begin_date") ≠ none) ∧
    (∀ (now : DT) (report : Json) (doc : List (Chars × Json)),
        transform_forensic_record now report = .ok doc →
        assocFind doc (cs "passed_dmarc") = none ∧
        assocFind doc (cs "date_begin") = none ∧
        assocFind doc (cs "begin_date") ≠ none) ∧
    (∀ b : Chars,
      ((jget (query_body b) (cs "query")).bind fun q =>
          (jget q (cs "bool")).bind fun bq => jget bq (cs "should")) =
        some (.arr [
          .obj [(cs "term", .obj [(cs "passed_dmarc", .bool false)])],
          .obj [(cs "term", .obj [(cs "spf_aligned", .bool false)])],
          .obj [(cs "term", .obj [(cs "dkim_aligned", .bool false)])]]) ∧
      ((jget (query_body b) (cs "query")).bind fun q =>
          (jget q (cs "bool")).bind fun bq => jget bq (cs "filter")) =
        some (.arr [.obj [(cs "range", .obj [
          (cs "date_begin", .obj [(cs "gte", .str b)])])]])) := by
  refine ⟨?_, ?_, fun b => ⟨rfl, rfl⟩⟩
  · intro now report record doc h
    have hk := transform_aggregate_keys now report record doc h
    have hkeys : (aggDefaultDoc now).map Prod.fst =
        (aggDefaultDoc ⟨1, 1, 1, 0, 0, 0, 0⟩).map Prod.fst := rfl
    refine ⟨?_, ?_, ?_, ?_⟩
    · rw [assocFind_none_iff, hk, hkeys]; decide
    · rw [assocFind_none_iff, hk, hkeys]; decide
    · rw [Ne, assocFind_none_iff, hk, hkeys]; decide
    · rw [Ne, assocFind_none_iff, hk, hkeys]; decide
  · intro now report doc h
    have hk := transform_forensic_keys now report doc h
    have hkeys : (forensicDefaultDoc now).map Prod.fst =
        (forensicDefaultDoc ⟨1, 1, 1, 0, 0, 0, 0⟩).map Prod.fst := rfl
    refine ⟨?_, ?_, ?_⟩
    · rw [assocFind_none_iff, hk, hkeys]; decide
    · rw [assocFind_none_iff, hk, hkeys]; decide
    · rw [Ne, assocFind_none_iff, hk, hkeys]; decide

theorem C9_selector_field_mismatch_witness :
    assocFind (aggDefaultDoc ⟨2026, 1, 1, 0, 0, 0, 0⟩) (cs "passed_dmarc") = none ∧
    assocFind (aggDefaultDoc ⟨2026, 1, 1, 0, 0, 0, 0⟩) (cs "date_begin") = none ∧
    assocFind (aggDefaultDoc ⟨2026, 1, 1, 0, 0, 0, 0⟩) (cs "dmarc_aligned") ≠ none ∧
    assocFind (aggDefaultDoc ⟨2026, 1, 1, 0, 0, 0, 0⟩) (cs "begin_date") ≠ none :=
  C9_selector_field_mismatch.1 ⟨2026, 1, 1, 0, 0, 0, 0⟩ (.obj []) (.obj [])
    (aggDefaultDoc ⟨2026, 1, 1, 0, 0, 0, 0⟩) rfl

/-! ## Claim C1: determinism of the transformer -/

theorem ebind_congr {α β : Type} {e : Except PyErr α} {f g : α → Except PyErr β}
    (h : ∀ a, e = .ok a → f a = g a) : (e >>= f) = (e >>= g) := by
  cases e with
  | error err => rfl
  | ok a => exact h a rfl

/-- A date input on which `normalize_date` never consults the clock: a
nonempty string that either `strptime` or (after `Z` replacement)
`fromisoformat` accepts. -/
def stableDate (s : Chars) : Prop :=
  s ≠ [] ∧ (strptimeFmt1 s ≠ none ∨ fromisoOK (replaceZ s) = true)

/-- The `.get` result feeding a date field is clock-independent: a
nonempty parseable string. -/
def stableDateJ (j : Json) : Prop := ∃ s, j = .str s ∧ stableDate s

theorem normalize_date_stable {s : Chars} (h : stableDate s) (now1 now2 : DT) :
    normalize_date now1 s = normalize_date now2 s := by
  obtain ⟨hne, hp⟩ := h
  rw [normalize_date, normalize_date, if_neg hne, if_neg hne]
  match hsp : strptimeFmt1 s with
  | some d => rfl
  | none =>
    rcases hp with hp | hp
    · exact absurd hsp hp
    · rw [hp]
      rfl

theorem normalizeJ_stable {j : Json} (h : stableDateJ j) (now1 now2 : DT) :
    normalizeJ now1 j = normalizeJ now2 j := by
  obtain ⟨s, rfl, hs⟩ := h
  have hne : ¬ falsy (.str s) = true := by
    simp only [falsy, List.isEmpty_iff]
    exact hs.1
  rw [normalizeJ, normalizeJ, if_neg hne, if_neg hne]
  exact congrArg _ (normalize_date_stable hs now1 now2)

/-- C1 (amended): the aggregate transformer is deterministic whenever the
four date inputs it extracts (`begin_date`, `end_date`, `interval_begin`,
`interval_end`) are nonempty parseable strings — two invocations under
different clocks produce identical documents.  (Without that hypothesis
the fallback `datetime.now()` enters the document; see the
counterexample.) -/
theorem C1_transform_deterministic (now1 now2 : DT) (report record : Json)
    (hbd : ∀ md bd, pyGet report (cs "report_metadata") (.obj []) = .ok md →
      pyGet md (cs "begin_date") (.str []) = .ok bd → stableDateJ bd)
    (hed : ∀ md ed, pyGet report (cs "report_metadata") (.obj []) = .ok md →
      pyGet md (cs "end_date") (.str []) = .ok ed → stableDateJ ed)
    (hib : ∀ ib, pyGet record (cs "interval_begin") (.str []) = .ok ib → stableDateJ ib)
    (hie : ∀ ie, pyGet record (cs "interval_end") (.str []) = .ok ie → stableDateJ ie) :
    transform_aggregate_record now1 report record =
      transform_aggregate_record now2 report record := by
  rw [transform_aggregate_record, transform_aggregate_record]
  refine ebind_congr (fun metadata hmeta => ?_)
  refine ebind_congr (fun policy _ => ?_)
  refine ebind_congr (fun source _ => ?_)
  refine ebind_congr (fun alignment _ => ?_)
  refine ebind_congr (fun policy_eval _ => ?_)
  refine ebind_congr (fun identifiers _ => ?_)
  refine ebind_congr (fun bd1 hbd1 => ?_)
  rw [normalizeJ_stable (hbd metadata bd1 hmeta hbd1) now1 now2]
  refine ebind_congr (fun ts _ => ?_)
  refine ebind_congr (fun report_id _ => ?_)
  refine ebind_congr (fun domain _ => ?_)
  refine ebind_congr (fun bd2 hbd2 => ?_)
  rw [normalizeJ_stable (hbd metadata bd2 hmeta hbd2) now1 now2]
  refine ebind_congr (fun begin_date _ => ?_)
  refine ebind_congr (fun ed hed2 => ?_)
  rw [normalizeJ_stable (hed metadata ed hmeta hed2) now1 now2]
  refine ebind_congr (fun end_date _ => ?_)
  refine ebind_congr (fun org_name _ => ?_)
  refine ebind_congr (fun org_email _ => ?_)
  refine ebind_congr (fun source_ip _ => ?_)
  refine ebind_congr (fun source_reverse_dns _ => ?_)
  refine ebind_congr (fun source_country _ => ?_)
  refine ebind_congr (fun source_base_domain _ => ?_)
  refine ebind_congr (fun source_name _ => ?_)
  refine ebind_congr (fun source_type _ => ?_)
  refine ebind_congr (fun count _ => ?_)
  refine ebind_congr (fun spf_aligned _ => ?_)
  refine ebind_congr (fun dkim_aligned _ => ?_)
  refine ebind_congr (fun dmarc_aligned _ => ?_)
  refine ebind_congr (fun disposition _ => ?_)
  refine ebind_congr (fun dkim_result _ => ?_)
  refine ebind_congr (fun spf_result _ => ?_)
  refine ebind_congr (fun header_from _ => ?_)
  refine ebind_congr (fun envelope_from _ => ?_)
  refine ebind_congr (fun envelope_to _ => ?_)
  refine ebind_congr (fun ib2 hib2 => ?_)
  rw [normalizeJ_stable (hib ib2 hib2) now1 now2]
  refine ebind_congr (fun interval_begin _ => ?_)
  refine ebind_congr (fun ie2 hie2 => ?_)
  rw [normalizeJ_stable (hie ie2 hie2) now1 now2]

theorem C1_transform_deterministic_witness :
    transform_aggregate_record ⟨2026, 1, 1, 0, 0, 0, 0⟩
        (.obj [(cs "report_metadata", .obj [
          (cs "begin_date", .str (cs "2026-01-10 16:00:00")),
          (cs "end_date", .str (cs "2026-01-10T17:00:00"))])])
        (.obj [(cs "interval_begin", .str (cs "2026-01-10 16:00:00")),
          (cs "interval_end", .str (cs "2026-01-10T17:00:00Z"))]) =
      transform_aggregate_record ⟨2027, 3, 2, 1, 5, 6, 7⟩
        (.obj [(cs "report_metadata", .obj [
          (cs "begin_date", .str (cs "2026-01-10 16:00:00")),
          (cs "end_date", .str (cs "2026-01-10T17:00:00"))])])
        (.obj [(cs "interval_begin", .str (cs "2026-01-10 16:00:00")),
          (cs "interval_end", .str (cs "2026-01-10T17:00:00Z"))]) :=
  C1_transform_deterministic _ _ _ _
    (fun md bd h1 h2 => by
      cases h1
      cases h2
      exact ⟨_, rfl, by decide, Or.inl (by decide)⟩)
    (fun md ed h1 h2 => by
      cases h1
      cases h2
      exact ⟨_, rfl, by decide, Or.inr (by decide)⟩)
    (fun ib h1 => by
      cases h1
      exact ⟨_, rfl, by decide, Or.inl (by decide)⟩)
    (fun ie h1 => by
      cases h1
      exact ⟨_, rfl, by decide, Or.inr (by decide)⟩)

/-- C1 counterexample: on a report with no dates at all the transformer
consults `datetime.now()`, so two invocations under different clocks
produce documents with different timestamp fields. -/
theorem C1_counterexample :
    (transform_aggregate_record ⟨2026, 1, 1, 0, 0, 0, 0⟩ (.obj []) (.obj [])).toOption ≠
      (transform_aggregate_record ⟨2026, 1, 1, 0, 0, 1, 0⟩ (.obj []) (.obj [])).toOption := by
  decide

/-! ## Claim C4: index naming -/

theorem foldlM_inv {α β : Type} (P : α → Prop) (f : α → β → Except PyErr α)
    (hf : ∀ acc x acc2, f acc x = .ok acc2 → P acc → P acc2) :
    ∀ (l : List β) (acc res : α), P acc → l.foldlM f acc = .ok res → P res := by
  intro l
  induction l with
  | nil =>
    intro acc res hP h
    rw [List.foldlM_nil] at h
    injection h with h2
    exact h2 ▸ hP
  | cons x l ih =>
    intro acc res hP h
    rw [List.foldlM_cons] at h
    obtain ⟨acc2, h1, h2⟩ := ebind_ok h
    exact ih acc2 res (hf acc x acc2 h1 hP) h2

/-- C4 (amended): every bulk action of one import run carries the single
index name computed from the FIRST report's begin-date (year-month of its
first token, `prefix-%Y.%m`); a report with begin-date
`2026-01-10 16:00:00` at the head yields the partition `prefix-2026.01`,
and a missing begin-date falls back to the current processing month.
(The original claim said each report's own begin-date names its index;
the counterexample shows a later report landing in the first report's
partition.) -/
theorem C4_index_partition (now : DT) (pre : Chars) (first : Json) (rest : List Json)
    (iname : Chars) (actions : List (Chars × List (Chars × Json)))
    (hin : index_name_for now pre first = .ok iname)
    (h : import_aggregate_reports now pre (first :: rest) = .ok actions) :
    (∀ a ∈ actions, a.1 = iname) ∧
    index_name_for now pre (.obj [(cs "report_metadata",
      .obj [(cs "begin_date", .str (cs "2026-01-10 16:00:00"))])]) =
      .ok (pre ++ '-' :: cs "2026.01") ∧
    index_name_for now pre (.obj []) = .ok (pre ++ '-' :: strftimeYM now) := by
  refine ⟨?_, rfl, rfl⟩
  rw [import_aggregate_reports] at h
  obtain ⟨iname2, h1, h2⟩ := ebind_ok h
  have hi : iname2 = iname := by
    rw [hin] at h1
    injection h1.symm with h3
  subst hi
  refine foldlM_inv (fun acc => ∀ a ∈ acc, a.1 = iname2) _ ?_ (first :: rest) [] actions
    (by simp) h2
  intro acc report acc2 hr hP
  obtain ⟨recs, _, hr2⟩ := ebind_ok hr
  refine foldlM_inv (fun acc => ∀ a ∈ acc, a.1 = iname2) _ ?_ recs acc acc2 hP hr2
  intro acc3 record acc4 hr3 hP3
  obtain ⟨doc, _, hr4⟩ := ebind_ok hr3
  injection hr4 with h5
  subst h5
  intro a ha
  rcases List.mem_append.mp ha with h6 | h6
  · exact hP3 a h6
  · rw [List.mem_singleton.mp h6]

/-- The single-record 2026-01 report of the concrete scenario. -/
def exampleReport2026 : Json := .obj [
  (cs "report_metadata", .obj [(cs "begin_date", .str (cs "2026-01-10 16:00:00"))]),
  (cs "records", .arr [.obj []])]

/-- The bulk actions the import run builds for `exampleReport2026` under
a February 2026 clock. -/
def exampleActions2026 : List (Chars × List (Chars × Json)) := [
  (cs "dmarc-aggregate-2026.01", [
    (cs "@timestamp", .str (cs "2026-01-10T16:00:00")),
    (cs "report_id", .null),
    (cs "report_type", .str (cs "aggregate")),
    (cs "domain", .null),
    (cs "begin_date", .str (cs "2026-01-10T16:00:00")),
    (cs "end_date", .str (cs "2026-02-01T00:00:00")),
    (cs "org_name", .null),
    (cs "org_email", .null),
    (cs "source_ip", .null),
    (cs "source_reverse_dns", .null),
    (cs "source_country", .null),
    (cs "source_base_domain", .null),
    (cs "source_name", .null),
    (cs "source_type", .null),
    (cs "count", .num 0),
    (cs "spf_aligned", .bool false),
    (cs "dkim_aligned", .bool false),
    (cs "dmarc_aligned", .bool false),
    (cs "disposition", .null),
    (cs "dkim_result", .null),
    (cs "spf_result", .null),
    (cs "header_from", .null),
    (cs "envelope_from", .null),
    (cs "envelope_to", .null),
    (cs "interval_begin", .str (cs "2026-02-01T00:00:00")),
    (cs "interval_end", .str (cs "2026-02-01T00:00:00")),
    (cs "_source_full", .obj [(cs "report", exampleReport2026),
      (cs "record", .obj [])])])]

theorem C4_index_partition_witness :
    (∀ a ∈ exampleActions2026, a.1 = cs "dmarc-aggregate-2026.01") ∧
    index_name_for ⟨2026, 2, 1, 0, 0, 0, 0⟩ (cs "dmarc-aggregate")
      (.obj [(cs "report_metadata",
        .obj [(cs "begin_date", .str (cs "2026-01-10 16:00:00"))])]) =
      .ok (cs "dmarc-aggregate" ++ '-' :: cs "2026.01") ∧
    index_name_for ⟨2026, 2, 1, 0, 0, 0, 0⟩ (cs "dmarc-aggregate") (.obj []) =
      .ok (cs "dmarc-aggregate" ++ '-' :: strftimeYM ⟨2026, 2, 1, 0, 0, 0, 0⟩) :=
  C4_index_partition ⟨2026, 2, 1, 0, 0, 0, 0⟩ (cs "dmarc-aggregate")
    exampleReport2026 [] (cs "dmarc-aggregate-2026.01") exampleActions2026 rfl rfl

/-- C4 counterexample: with a December 2025 report (no records) at the
head of the file, the January 2026 report's document is indexed under
`dmarc-aggregate-2025.12` — not under a name ending `-2026.01`. -/
theorem C4_counterexample :
    (import_aggregate_reports ⟨2026, 2, 1, 0, 0, 0, 0⟩ (cs "dmarc-aggregate") [
      .obj [(cs "report_metadata",
        .obj [(cs "begin_date", .str (cs "2025-12-01 00:00:00"))])],
      .obj [(cs "report_metadata",
        .obj [(cs "begin_date", .str (cs "2026-01-10 16:00:00"))]),
        (cs "records", .arr [.obj []])]]).toOption.map (List.map Prod.fst) =
      some [cs "dmarc-aggregate-2025.12"] ∧
    cs "dmarc-aggregate-2025.12" ≠ cs "dmarc-aggregate-2026.01" := by
  constructor
  · rfl
  · decide

/-! ## Claim C5: the unclassified-failure selector -/

/-- C5 (amended): every document the selector returns satisfies at least
one of the three false-flag terms, carries no `ai_analysis` field, and has
`date_begin` at or after the 30-day lookback bound; at most `BATCH_SIZE`
documents are returned.  (The original claim's "within the trailing
window" fails: the range has no upper bound, so future-dated documents
are selected — see the counterexample.) -/
theorem C5_selector_guarantees (now : DT) (store : List Doc) :
    (query_unclassified_failures now store).length ≤ BATCH_SIZE ∧
    ∀ doc ∈ query_unclassified_failures now store,
      (docTerm doc (cs "passed_dmarc") (.bool false) = true ∨
       docTerm doc (cs "spf_aligned") (.bool false) = true ∨
       docTerm doc (cs "dkim_aligned") (.bool false) = true) ∧
      docExists doc (cs "ai_analysis") = false ∧
      docRangeGte doc (cs "date_begin") (strftimeQ (subDays LOOKBACK_DAYS now)) = true := by
  constructor
  · exact List.length_take_le _ _
  · intro doc hdoc
    have h1 : doc ∈ store.filter (matchesQuery (strftimeQ (subDays LOOKBACK_DAYS now))) :=
      List.mem_of_mem_take hdoc
    have h2 := List.of_mem_filter h1
    simp only [matchesQuery, Bool.and_eq_true, Bool.or_eq_true, Bool.not_eq_true'] at h2
    refine ⟨?_, ?_, ?_⟩ <;> tauto

theorem C5_selector_guarantees_witness :
    (query_unclassified_failures ⟨2026, 1, 1, 0, 0, 0, 0⟩
        [[(cs "spf_aligned", .bool false),
          (cs "date_begin", .str (cs "2025-12-15T00:00:00Z"))]]).length ≤ BATCH_SIZE ∧
    ((docTerm [(cs "spf_aligned", .bool false),
          (cs "date_begin", .str (cs "2025-12-15T00:00:00Z"))]
        (cs "passed_dmarc") (.bool false) = true ∨
      docTerm [(cs "spf_aligned", .bool false),
          (cs "date_begin", .str (cs "2025-12-15T00:00:00Z"))]
        (cs "spf_aligned") (.bool false) = true ∨
      docTerm [(cs "spf_aligned", .bool false),
          (cs "date_begin", .str (cs "2025-12-15T00:00:00Z"))]
        (cs "dkim_aligned") (.bool false) = true) ∧
      docExists [(cs "spf_aligned", .bool false),
          (cs "date_begin", .str (cs "2025-12-15T00:00:00Z"))]
        (cs "ai_analysis") = false ∧
      docRangeGte [(cs "spf_aligned", .bool false),
          (cs "date_begin", .str (cs "2025-12-15T00:00:00Z"))]
        (cs "date_begin")
        (strftimeQ (subDays LOOKBACK_DAYS ⟨2026, 1, 1, 0, 0, 0, 0⟩)) = true) :=
  ⟨(C5_selector_guarantees ⟨2026, 1, 1, 0, 0, 0, 0⟩
      [[(cs "spf_aligned", .bool false),
        (cs "date_begin", .str (cs "2025-12-15T00:00:00Z"))]]).1,
    (C5_selector_guarantees ⟨2026, 1, 1, 0, 0, 0, 0⟩
      [[(cs "spf_aligned", .bool false),
        (cs "date_begin", .str (cs "2025-12-15T00:00:00Z"))]]).2
      [(cs "spf_aligned", .bool false),
        (cs "date_begin", .str (cs "2025-12-15T00:00:00Z"))] (by decide)⟩

/-- C5 counterexample: a document dated in the year 9999 — outside any
trailing 30-day window — is still returned: the range filter has a lower
bound only. -/
theorem C5_counterexample :
    query_unclassified_failures ⟨2026, 1, 1, 0, 0, 0, 0⟩
      [[(cs "spf_aligned", .bool false),
        (cs "date_begin", .str (cs "9999-01-01T00:00:00Z"))]] =
      [[(cs "spf_aligned", .bool false),
        (cs "date_begin", .str (cs "9999-01-01T00:00:00Z"))]] ∧
    lexGe (cs "9999-01-01T00:00:00Z") (strftimeQ ⟨2026, 1, 1, 0, 0, 0, 0⟩) = true ∧
    cs "9999-01-01T00:00:00Z" ≠ strftimeQ ⟨2026, 1, 1, 0, 0, 0, 0⟩ := by
  refine ⟨rfl, by decide, by decide⟩

/-! ## Claim C10: digit-string lemmas for the rendered dates -/

theorem natChars_digits (n : Nat) : ∀ c ∈ natChars n, isDigitC c = true := by
  obtain ⟨ds, heq, _, _, hdig, _⟩ := natCharsGo_spec n (n + 1) [] (by omega)
  rw [List.append_nil] at heq
  rw [natChars, heq]
  exact hdig

theorem foldl_digits_ge : ∀ (ds : Chars) (a : Nat),
    a * 10 ^ ds.length ≤ List.foldl (fun a c => a * 10 + (c.toNat - 48)) a ds := by
  intro ds
  induction ds with
  | nil => intro a; simp
  | cons c t ih =>
    intro a
    simp only [List.foldl, List.length_cons]
    calc a * 10 ^ (t.length + 1) = (a * 10) * 10 ^ t.length := by ring
    _ ≤ (a * 10 + (c.toNat - 48)) * 10 ^ t.length :=
        Nat.mul_le_mul_right _ (by omega)
    _ ≤ _ := ih _

theorem natChars_length_le (n k : Nat) (h1 : 1 ≤ k) (h : n < 10 ^ k) :
    (natChars n).length ≤ k := by
  obtain ⟨ds, heq, hsmall, hbig, hdig, hfold⟩ := natCharsGo_spec n (n + 1) [] (by omega)
  rw [List.append_nil] at heq
  rw [natChars, heq]
  by_cases h10 : n < 10
  · rw [hsmall h10]
    simpa using h1
  · obtain ⟨c, cs2, hcons, _, hc0⟩ := hbig (by omega)
    have hn := hfold 0
    rw [hcons] at hn
    have hcd : isDigitC c = true := hdig c (by rw [hcons]; simp)
    have h1c : 1 ≤ c.toNat - 48 := by
      simp only [isDigitC, Bool.and_eq_true, decide_eq_true_eq] at hcd
      have hle : ('0' : Char).toNat ≤ c.toNat := hcd.1
      have hz : ('0' : Char).toNat = 48 := rfl
      have hcz : c.toNat ≠ 48 := by
        intro hcon
        apply hc0
        rw [char_eq_iff_toNat, hcon]
        rfl
      omega
    have hge := foldl_digits_ge cs2 (c.toNat - 48)
    simp only [List.foldl, Nat.zero_mul, Nat.zero_add] at hn
    have hlow : 10 ^ cs2.length ≤ n := by
      calc 10 ^ cs2.length = 1 * 10 ^ cs2.length := by ring
      _ ≤ (c.toNat - 48) * 10 ^ cs2.length := Nat.mul_le_mul_right _ h1c
      _ ≤ List.foldl (fun a c => a * 10 + (c.toNat - 48)) (c.toNat - 48) cs2 := hge
      _ = n := by
          have := hfold 0
          rw [hcons] at this
          simpa [List.foldl] using this
    have hpow : 10 ^ cs2.length < 10 ^ k := lt_of_le_of_lt hlow h
    have hlt : cs2.length < k := by
      by_contra hcon
      push_neg at hcon
      have hle2 : 10 ^ k ≤ 10 ^ cs2.length :=
        Nat.pow_le_pow_right (by omega : 1 ≤ 10) hcon
      omega
    rw [hcons]
    simp only [List.length_cons]
    omega

theorem padNat_digits (w n : Nat) : ∀ c ∈ padNat w n, isDigitC c = true := by
  intro c hc
  rcases List.mem_append.mp hc with h1 | h1
  · rw [List.eq_of_mem_replicate h1]
    decide
  · exact natChars_digits n c h1

theorem padNat_length (w n : Nat) (hw : 1 ≤ w) (h : n < 10 ^ w) :
    (padNat w n).length = w := by
  have hlen := natChars_length_le n w hw h
  rw [padNat]
  simp only [List.length_append, List.length_replicate]
  omega

theorem foldl_zero_replicate (k : Nat) :
    List.foldl (fun a c => a * 10 + (c.toNat - 48)) 0 (List.replicate k '0') = 0 := by
  induction k with
  | zero => rfl
  | succ k ih =>
    rw [List.replicate_succ, List.foldl]
    exact ih

/-- The digit string `padNat` renders folds back to the value. -/
theorem padNat_value (w n : Nat) (hw : 1 ≤ w) (h : n < 10 ^ w) :
    List.foldl (fun a c => a * 10 + (c.toNat - 48)) 0 (padNat w n) = n := by
  rw [padNat, List.foldl_append, foldl_zero_replicate]
  obtain ⟨ds, heq, _, _, _, hfold⟩ := natCharsGo_spec n (n + 1) [] (by omega)
  rw [List.append_nil] at heq
  rw [natChars, heq]
  simpa using hfold 0

theorem list_len2 {α : Type} {l : List α} (h : l.length = 2) :
    ∃ a b, l = [a, b] := by
  match l, h with
  | [a, b], _ => exact ⟨a, b, rfl⟩

theorem list_len4 {α : Type} {l : List α} (h : l.length = 4) :
    ∃ a b c d, l = [a, b, c, d] := by
  match l, h with
  | [a, b, c, d], _ => exact ⟨a, b, c, d, rfl⟩

theorem padNat2_spec (n : Nat) (hn : n ≤ 99) :
    ∃ a b, padNat 2 n = [a, b] ∧ isDigitC a = true ∧ isDigitC b = true ∧
      10 * digitVal a + digitVal b = n := by
  have hlen : (padNat 2 n).length = 2 := padNat_length 2 n (by omega) (by omega)
  obtain ⟨a, b, hm⟩ := list_len2 hlen
  have hdig := padNat_digits 2 n
  have hval := padNat_value 2 n (by omega) (by omega)
  rw [hm] at hval hdig
  simp only [List.foldl] at hval
  refine ⟨a, b, hm, hdig a (by simp), hdig b (by simp), ?_⟩
  simp only [digitVal]
  omega

theorem padNat4_spec (n : Nat) (hn : n ≤ 9999) :
    ∃ a b c d, padNat 4 n = [a, b, c, d] ∧ isDigitC a = true ∧ isDigitC b = true ∧
      isDigitC c = true ∧ isDigitC d = true ∧
      1000 * digitVal a + 100 * digitVal b + 10 * digitVal c + digitVal d = n := by
  have hlen : (padNat 4 n).length = 4 := padNat_length 4 n (by omega) (by omega)
  obtain ⟨a, b, c, d, hm⟩ := list_len4 hlen
  have hdig := padNat_digits 4 n
  have hval := padNat_value 4 n (by omega) (by omega)
  rw [hm] at hval hdig
  simp only [List.foldl] at hval
  refine ⟨a, b, c, d, hm, hdig a (by simp), hdig b (by simp), hdig c (by simp),
    hdig d (by simp), ?_⟩
  simp only [digitVal]
  omega

theorem p4d_padNat (y : Nat) (hy : y ≤ 9999) (r : Chars) :
    p4d (padNat 4 y ++ r) = some (y, r) := by
  obtain ⟨a, b, c, d, hm, ha, hb, hc, hd, hval⟩ := padNat4_spec y hy
  rw [hm]
  show p4d (a :: b :: c :: d :: r) = some (y, r)
  rw [p4d, hval, ha, hb, hc, hd]
  simp

theorem p2d_padNat (m : Nat) (hm : m ≤ 99) (r : Chars) :
    p2d (padNat 2 m ++ r) = some (m, r) := by
  obtain ⟨a, b, hm2, ha, hb, hval⟩ := padNat2_spec m hm
  rw [hm2]
  show p2d (a :: b :: r) = some (m, r)
  rw [p2d, hval, ha, hb]
  simp

theorem p2or1_padNat (twoOK oneOK : Nat → Bool) (m : Nat) (hm : m ≤ 99)
    (h2 : twoOK m = true) (r : Chars) :
    p2or1 twoOK oneOK (padNat 2 m ++ r) = some (m, r) := by
  obtain ⟨a, b, hm2, ha, hb, hval⟩ := padNat2_spec m hm
  rw [hm2]
  show p2or1 twoOK oneOK (a :: b :: r) = some (m, r)
  rw [p2or1, hval, ha, hb, h2]
  simp

theorem expectC_self (c : Char) (r : Chars) : expectC c (c :: r) = some r := by
  rw [expectC, if_pos rfl]

theorem daysInMonth_le (y m : Nat) : daysInMonth y m ≤ 31 := by
  rw [daysInMonth]
  split
  · split <;> omega
  · split <;> omega

/-- `strptime` with the space-separated format fails on `isoformat()`
output: the eleventh character is `T`, not the expected space. -/
theorem strptimeFmt1_isoDT (d : DT) (hd : validDT d = true) :
    strptimeFmt1 (isoDT d) = none := by
  simp only [validDT, Bool.and_eq_true, decide_eq_true_eq] at hd
  obtain ⟨hd, hmic⟩ := hd
  obtain ⟨hd, hsec⟩ := hd
  obtain ⟨hd, hmin⟩ := hd
  obtain ⟨hd, hhr⟩ := hd
  obtain ⟨hd, hday2⟩ := hd
  obtain ⟨hd, hday1⟩ := hd
  obtain ⟨hd, hmon2⟩ := hd
  obtain ⟨hd, hmon1⟩ := hd
  obtain ⟨hyr1, hyr2⟩ := hd
  rw [isoDT]
  generalize (padNat 2 d.hour ++ ':' :: (padNat 2 d.minute ++ ':' :: (padNat 2 d.second ++
    (if d.micro = 0 then [] else '.' :: padNat 6 d.micro)))) = T
  have h1 := p4d_padNat d.year (by omega)
    ('-' :: (padNat 2 d.month ++ '-' :: (padNat 2 d.day ++ 'T' :: T)))
  have h2 := expectC_self '-' (padNat 2 d.month ++ '-' :: (padNat 2 d.day ++ 'T' :: T))
  have h3 := p2or1_padNat (fun v => 1 ≤ v && v ≤ 12) (fun v => 1 ≤ v && v ≤ 9) d.month
    (by omega) (by simp only [Bool.and_eq_true, decide_eq_true_eq]; omega)
    ('-' :: (padNat 2 d.day ++ 'T' :: T))
  have h4 := expectC_self '-' (padNat 2 d.day ++ 'T' :: T)
  have hdm := daysInMonth_le d.year d.month
  have h5 := p2or1_padNat (fun v => 1 ≤ v && v ≤ 31) (fun v => 1 ≤ v && v ≤ 9) d.day
    (by omega) (by simp only [Bool.and_eq_true, decide_eq_true_eq]; omega)
    ('T' :: T)
  have h6 : expectC ' ' ('T' :: T) = none := by
    rw [expectC, if_neg (by decide : ¬ ('T' : Char) = ' ')]
  simp [strptimeFmt1, h1, h2, h3, h4, h5, h6]

theorem pFrac_padNat (micro : Nat) (h : micro ≤ 999999) :
    pFrac (padNat 6 micro) = some [] := by
  have hdig := padNat_digits 6 micro
  have hlen : (padNat 6 micro).length = 6 := padNat_length 6 micro (by omega) (by omega)
  have htk := takeWhile_append_all (padNat 6 micro) [] hdig (fun c hc => by simp at hc)
  rw [List.append_nil] at htk
  simp [pFrac, htk.1, htk.2, hlen]

/-- The time tail of `isoformat()` output parses back to the three time
fields with nothing left over. -/
theorem pTimeCore_isoTail (d : DT) (hhr : d.hour ≤ 23) (hmin : d.minute ≤ 59)
    (hsec : d.second ≤ 59) (hmic : d.micro ≤ 999999) :
    pTimeCore (padNat 2 d.hour ++ ':' :: (padNat 2 d.minute ++ ':' :: (padNat 2 d.second ++
      (if d.micro = 0 then [] else '.' :: padNat 6 d.micro)))) =
      some ((d.hour, d.minute, d.second), []) := by
  have h1 := p2d_padNat d.hour (by omega) (':' :: (padNat 2 d.minute ++ ':' ::
    (padNat 2 d.second ++ (if d.micro = 0 then [] else '.' :: padNat 6 d.micro))))
  have h2 := expectC_self ':' (padNat 2 d.minute ++ ':' ::
    (padNat 2 d.second ++ (if d.micro = 0 then [] else '.' :: padNat 6 d.micro)))
  have h3 := p2d_padNat d.minute (by omega) (':' ::
    (padNat 2 d.second ++ (if d.micro = 0 then [] else '.' :: padNat 6 d.micro)))
  have h4 := expectC_self ':'
    (padNat 2 d.second ++ (if d.micro = 0 then [] else '.' :: padNat 6 d.micro))
  have h5 := p2d_padNat d.second (by omega)
    ((if d.micro = 0 then [] else '.' :: padNat 6 d.micro))
  by_cases hm0 : d.micro = 0
  · simp only [if_pos hm0, List.append_nil] at h1 h2 h3 h4 h5
    simp [pTimeCore, h1, h2, h3, h4, h5, hm0]
  · simp only [if_neg hm0] at h1 h2 h3 h4 h5
    simp [pTimeCore, h1, h2, h3, h4, h5, hm0, pFrac_padNat d.micro (by omega)]

/-- `fromisoformat` accepts `isoformat()` output. -/
theorem fromisoOK_isoDT (d : DT) (hd : validDT d = true) :
    fromisoOK (isoDT d) = true := by
  have hv := hd
  simp only [validDT, Bool.and_eq_true, decide_eq_true_eq] at hv
  obtain ⟨hv, hmic⟩ := hv
  obtain ⟨hv, hsec⟩ := hv
  obtain ⟨hv, hmin⟩ := hv
  obtain ⟨hv, hhr⟩ := hv
  obtain ⟨hv, hday2⟩ := hv
  obtain ⟨hv, hday1⟩ := hv
  obtain ⟨hv, hmon2⟩ := hv
  obtain ⟨hv, hmon1⟩ := hv
  obtain ⟨hyr1, hyr2⟩ := hv
  have hd2 : validDT ⟨d.year, d.month, d.day, d.hour, d.minute, d.second, 0⟩ = true := by
    simp only [validDT, Bool.and_eq_true, decide_eq_true_eq]
    refine ⟨⟨⟨⟨⟨⟨⟨⟨⟨hyr1, hyr2⟩, hmon1⟩, hmon2⟩, hday1⟩, hday2⟩, hhr⟩, hmin⟩, hsec⟩, by omega⟩
  rw [isoDT]
  have htime := pTimeCore_isoTail d hhr hmin hsec hmic
  have h1 := p4d_padNat d.year (by omega)
    ('-' :: (padNat 2 d.month ++ '-' :: (padNat 2 d.day ++ 'T' ::
      (padNat 2 d.hour ++ ':' :: (padNat 2 d.minute ++ ':' :: (padNat 2 d.second ++
        (if d.micro = 0 then [] else '.' :: padNat 6 d.micro)))))))
  have h2 := expectC_self '-' (padNat 2 d.month ++ '-' :: (padNat 2 d.day ++ 'T' ::
    (padNat 2 d.hour ++ ':' :: (padNat 2 d.minute ++ ':' :: (padNat 2 d.second ++
      (if d.micro = 0 then [] else '.' :: padNat 6 d.micro))))))
  have h3 := p2d_padNat d.month (by omega) ('-' :: (padNat 2 d.day ++ 'T' ::
    (padNat 2 d.hour ++ ':' :: (padNat 2 d.minute ++ ':' :: (padNat 2 d.second ++
      (if d.micro = 0 then [] else '.' :: padNat 6 d.micro))))))
  have h4 := expectC_self '-' (padNat 2 d.day ++ 'T' ::
    (padNat 2 d.hour ++ ':' :: (padNat 2 d.minute ++ ':' :: (padNat 2 d.second ++
      (if d.micro = 0 then [] else '.' :: padNat 6 d.micro)))))
  have hdm := daysInMonth_le d.year d.month
  have h5 := p2d_padNat d.day (by omega) ('T' ::
    (padNat 2 d.hour ++ ':' :: (padNat 2 d.minute ++ ':' :: (padNat 2 d.second ++
      (if d.micro = 0 then [] else '.' :: padNat 6 d.micro)))))
  simp [fromisoOK, h1, h2, h3, h4, h5, htime, hd2, pTzSuffix]

theorem Z_not_mem_padNat (w n : Nat) : 'Z' ∉ padNat w n := by
  intro h
  have := padNat_digits w n 'Z' h
  exact absurd this (by decide)

theorem Z_not_mem_isoDT (d : DT) : 'Z' ∉ isoDT d := by
  intro h
  rw [isoDT] at h
  simp only [List.mem_append, List.mem_cons] at h
  rcases h with h | h | h | h | h | h | h | h | h | h | h | h
  · exact Z_not_mem_padNat _ _ h
  · exact absurd h (by decide)
  · exact Z_not_mem_padNat _ _ h
  · exact absurd h (by decide)
  · exact Z_not_mem_padNat _ _ h
  · exact absurd h (by decide)
  · exact Z_not_mem_padNat _ _ h
  · exact absurd h (by decide)
  · exact Z_not_mem_padNat _ _ h
  · exact absurd h (by decide)
  · exact Z_not_mem_padNat _ _ h
  · by_cases hm0 : d.micro = 0
    · rw [if_pos hm0] at h
      exact absurd h (by simp)
    · rw [if_neg hm0] at h
      rcases List.mem_cons.mp h with h2 | h2
      · exact absurd h2 (by decide)
      · exact Z_not_mem_padNat _ _ h2

theorem replaceZ_eq_self {s : Chars} (h : 'Z' ∉ s) : replaceZ s = s := by
  induction s with
  | nil => rfl
  | cons c t ih =>
    have hc : c ≠ 'Z' := fun hcc => h (by simp [hcc])
    rw [replaceZ, if_neg hc, ih (fun hm => h (by simp [hm]))]

theorem isoDT_ne_nil (d : DT) : isoDT d ≠ [] := by
  intro hcon
  rw [isoDT] at hcon
  have hlen := congrArg List.length hcon
  simp only [List.length_append, List.length_cons, List.length_nil] at hlen
  omega

theorem obind_ok {α β : Type} {e : Option α} {f : α → Option β} {b : β}
    (h : (e >>= f) = some b) : ∃ a, e = some a ∧ f a = some b := by
  cases e with
  | some a => exact ⟨a, rfl, h⟩
  | none => exact absurd h (by simp)

/-- A `strptime` result always satisfies the `datetime` constructor
checks. -/
theorem strptimeFmt1_valid {s : Chars} {d : DT} (h : strptimeFmt1 s = some d) :
    validDT d = true := by
  rw [strptimeFmt1] at h
  obtain ⟨⟨y, r1⟩, _, h⟩ := obind_ok h
  obtain ⟨r2, _, h⟩ := obind_ok h
  obtain ⟨⟨mo, r3⟩, _, h⟩ := obind_ok h
  obtain ⟨r4, _, h⟩ := obind_ok h
  obtain ⟨⟨dy, r5⟩, _, h⟩ := obind_ok h
  obtain ⟨r6, _, h⟩ := obind_ok h
  obtain ⟨⟨hh, r7⟩, _, h⟩ := obind_ok h
  obtain ⟨r8, _, h⟩ := obind_ok h
  obtain ⟨⟨mi, r9⟩, _, h⟩ := obind_ok h
  obtain ⟨r10, _, h⟩ := obind_ok h
  obtain ⟨⟨se, r11⟩, _, h⟩ := obind_ok h
  replace h : (if r11 = [] then
      (if validDT ⟨y, mo, dy, hh, mi, se, 0⟩ = true then
        some (⟨y, mo, dy, hh, mi, se, 0⟩ : DT) else none)
      else none) = some d := h
  by_cases hr : r11 = []
  · rw [if_pos hr] at h
    by_cases hval : validDT ⟨y, mo, dy, hh, mi, se, 0⟩ = true
    · rw [if_pos hval] at h
      injection h with h2
      rw [← h2]
      exact hval
    · rw [if_neg hval] at h
      exact absurd h (by simp)
  · rw [if_neg hr] at h
    exact absurd h (by simp)

theorem normalize_date_output (now : DT) (s : Chars) :
    (∃ d, validDT d = true ∧ normalize_date now s = isoDT d) ∨
    normalize_date now s = isoDT now ∨
    (normalize_date now s = s ∧ s ≠ [] ∧ strptimeFmt1 s = none ∧
      fromisoOK (replaceZ s) = true) := by
  by_cases hs : s = []
  · right; left
    rw [normalize_date, if_pos hs]
  · cases hsp : strptimeFmt1 s with
    | some d =>
      left
      refine ⟨d, strptimeFmt1_valid hsp, ?_⟩
      rw [normalize_date, if_neg hs, hsp]
    | none =>
      by_cases hf : fromisoOK (replaceZ s) = true
      · right; right
        refine ⟨?_, hs, rfl, hf⟩
        rw [normalize_date, if_neg hs, hsp, if_pos hf]
      · right; left
        rw [normalize_date, if_neg hs, hsp, if_neg hf]

/-- C10 (amended): every string `normalize_date` returns is
`fromisoformat`-parseable after the `Z` replacement the function itself
applies, and `normalize_date` is idempotent on its own outputs.  (The
claim's parenthetical — ISO-parseable inputs come back verbatim — fails:
see the counterexample, a `fromisoformat`-parseable string that is
rewritten.) -/
theorem C10_normalize_idempotent (now : DT) (hnow : validDT now = true) (s : Chars) :
    fromisoOK (replaceZ (normalize_date now s)) = true ∧
    normalize_date now (normalize_date now s) = normalize_date now s := by
  have hgen : ∀ d : DT, validDT d = true →
      fromisoOK (replaceZ (isoDT d)) = true ∧
      normalize_date now (isoDT d) = isoDT d := by
    intro d hd
    have hz : replaceZ (isoDT d) = isoDT d := replaceZ_eq_self (Z_not_mem_isoDT d)
    have hf : fromisoOK (isoDT d) = true := fromisoOK_isoDT d hd
    have hst : strptimeFmt1 (isoDT d) = none := strptimeFmt1_isoDT d hd
    refine ⟨by rw [hz]; exact hf, ?_⟩
    rw [normalize_date, if_neg (isoDT_ne_nil d), hst, hz, hf]
    rfl
  rcases normalize_date_output now s with ⟨d, hd, hval⟩ | hval | ⟨hval, hs, hsp, hf⟩
  · rw [hval]
    exact hgen d hd
  · rw [hval]
    exact hgen now hnow
  · rw [hval]
    refine ⟨hf, ?_⟩
    rw [normalize_date, if_neg hs, hsp, if_pos hf]

theorem C10_normalize_idempotent_witness :
    validDT ⟨2026, 1, 1, 0, 0, 0, 0⟩ = true ∧
    (fromisoOK (replaceZ (normalize_date ⟨2026, 1, 1, 0, 0, 0, 0⟩ (cs "not a date"))) = true ∧
      normalize_date ⟨2026, 1, 1, 0, 0, 0, 0⟩
          (normalize_date ⟨2026, 1, 1, 0, 0, 0, 0⟩ (cs "not a date")) =
        normalize_date ⟨2026, 1, 1, 0, 0, 0, 0⟩ (cs "not a date")) :=
  ⟨by decide, C10_normalize_idempotent ⟨2026, 1, 1, 0, 0, 0, 0⟩ (by decide) (cs "not a date")⟩

/-- C10 counterexample: `"2026-01-10 16:00:00"` is
`fromisoformat`-parseable (space is a valid separator), yet
`normalize_date` does not return it verbatim — the `strptime` branch fires
first and rewrites it with a `T`. -/
theorem C10_counterexample :
    fromisoOK (replaceZ (cs "2026-01-10 16:00:00")) = true ∧
    normalize_date ⟨2026, 1, 1, 0, 0, 0, 0⟩ (cs "2026-01-10 16:00:00") =
      cs "2026-01-10T16:00:00" ∧
    cs "2026-01-10T16:00:00" ≠ cs "2026-01-10 16:00:00" := by
  refine ⟨by decide, rfl, by decide⟩

end Dmarc
